import Mathlib

/-!
# robustcov: pairwise robust covariance estimators and the patterned nearest-PSD projection

A shallow embedding of `src/robust_cors.cpp` and `src/NPD_proj.cpp`.

* Scalars (`double`) are the elements of an arbitrary linearly ordered field `α`
  (instantiated with `ℚ` for concrete evaluation).
* `ProjPattern`, `ProjPSD`, `covGK`, `covSpearmanU` and `covOGK` are embedded twice.  The
  definitions of the namespace `Rounded` take the arithmetic of `double` as a parameter
  (`Arith`): every sum, product and quotient these functions compute goes through it, so that
  `Arith.binary64` gives the computation in IEEE 754 doubles.  The definitions outside that
  namespace are the same functions in arithmetic without rounding error; they are the `Rounded`
  ones at `Arith.exact` (last section), and carry the statements that do not depend on the value
  of a rounded result.
* The one place where IEEE arithmetic differs from field arithmetic other than by rounding on
  the paths studied here, the division by a zero norm in `nearPPSD`, is modelled explicitly
  (`ratioLe`).
* An Armadillo `mat` is a record of its dimensions and its column-major memory.
* The kernels that live in headers outside the two source files (`cor.h`,
  `utils.h`, the LAPACK-backed `eig_sym` and `norm`) are parameters of the
  definitions that call them.
-/

set_option linter.unusedSectionVars false

namespace RobustCov

/-- Failure outcomes of a call.  The first three are the run-time checks of Armadillo
(`Mat::operator()`, `elem`, `cols`: index out of bounds; `operator-`, `operator*`: incompatible
dimensions; `mean`, `min`: object has no elements).  `outOfFuel` is the model's own marker for a
loop that did not finish within its fuel.  `DimensionError` is the error named by the
specification; no statement of the source raises it. -/
inductive ArmaError where
  | indexOutOfBounds
  | sizeMismatch
  | emptyObject
  | outOfFuel
  | DimensionError
deriving DecidableEq, Repr

deriving instance DecidableEq for Except

/-- Dense matrix `arma::mat`: dimensions and column-major element memory
(element `(i,j)` is stored at `i + j * n_rows`). -/
structure Mat (α : Type) where
  n_rows : Nat
  n_cols : Nat
  mem : List α
deriving DecidableEq, Repr

namespace Mat

variable {α : Type}

/-- Number of stored elements, `n_elem`. -/
def n_elem (m : Mat α) : Nat := m.n_rows * m.n_cols

/-- The storage has exactly `n_rows * n_cols` elements. -/
def WF (m : Mat α) : Prop := m.mem.length = m.n_rows * m.n_cols

instance (m : Mat α) : Decidable m.WF := by unfold WF; infer_instance

/-- An `r × c` matrix whose element `(i,j)` is `f i j`, laid out column-major. -/
def ofFn (r c : Nat) (f : Nat → Nat → α) : Mat α :=
  ⟨r, c, (List.range (r * c)).map fun k => f (k % r) (k / r)⟩

/-- Matrix of zeros: `mat(r, c, fill::zeros)`. -/
def zeros [Zero α] (r c : Nat) : Mat α := ⟨r, c, List.replicate (r * c) 0⟩

/-- Unchecked element read `m(i,j)` (the read of `ARMA_NO_DEBUG` code; all reads made through it
are in bounds, the default is never observed on a well-formed matrix). -/
def get [Zero α] (m : Mat α) (i j : Nat) : α := m.mem.getD (i + j * m.n_rows) 0

/-- Element write `m(i,j) = v`. -/
def set (m : Mat α) (i j : Nat) (v : α) : Mat α :=
  { m with mem := m.mem.set (i + j * m.n_rows) v }

/-- Column view `m.col(j)`: the `n_rows` consecutive elements starting at `j * n_rows`. -/
def col (m : Mat α) (j : Nat) : List α := (m.mem.drop (j * m.n_rows)).take m.n_rows

/-- The function `symmatu`: the upper triangle reflected into the lower triangle. -/
def symmatu [Zero α] (m : Mat α) : Mat α :=
  ofFn m.n_rows m.n_cols fun i j => if i ≤ j then m.get i j else m.get j i

/-- In-place `m.diag() += d`, with `d i` the addend of diagonal element `i`. -/
def diagAdd [Zero α] [Add α] (m : Mat α) (d : Nat → α) : Mat α :=
  ofFn m.n_rows m.n_cols fun i j => if i = j then m.get i j + d i else m.get i j

end Mat

section Estimators

variable {α : Type} [LinearOrderedField α]

/-- The loop nest shared by every estimator of `robust_cors.cpp`:
`for (i = 0; i < p-1; i++) for (j = i+1; j < p; j++) res(i,j) = stat i j;`
run on `res`.  (`p - 1` is the truncated difference: for `p = 0` the C++ bound `-1` also admits no
iteration.) -/
def upperLoop (p : Nat) (stat : Nat → Nat → α) (res : Mat α) : Mat α :=
  (List.range (p - 1)).foldl
    (fun res i =>
      (List.range' (i + 1) (p - (i + 1))).foldl (fun res j => res.set i j (stat i j)) res)
    res

/-- Elementwise (Schur) product `v % v` of a vector with itself, read at position `i`. -/
def schurSq (v : List α) (i : Nat) : α := v.getD i 0 * v.getD i 0

/-- The estimator `covGK(const mat&)`: `covGKvec` is the bivariate kernel `covGK(vec, vec)` of
`cor.h`, `MAD_cpp` the column-wise scale of `utils.h`. -/
def covGK (covGKvec : List α → List α → α) (MAD_cpp : Mat α → List α) (data : Mat α) :
    Except ArmaError (Mat α) :=
  let p := data.n_cols
  let res : Mat α := Mat.zeros p p
  let res := upperLoop p (fun i j => covGKvec (data.col i) (data.col j)) res
  let res := res.symmatu
  let MAD := MAD_cpp data
  let res := res.diagAdd (schurSq MAD)
  .ok res

/-- The estimator `corSpearman(const mat&)`: `corSpearmanVec` is the bivariate kernel
`corSpearman(vec, vec)` of `cor.h`. -/
def corSpearman (corSpearmanVec : List α → List α → α) (data : Mat α) :
    Except ArmaError (Mat α) :=
  let p := data.n_cols
  let res : Mat α := Mat.zeros p p
  let res := upperLoop p (fun i j => corSpearmanVec (data.col i) (data.col j)) res
  let res := res.symmatu
  let res := res.diagAdd (fun _ => 1)
  .ok res

/-- The estimator `corKendall(const mat&)`: `corKendallVec` is the bivariate kernel
`corKendall(vec, vec)` of `fastCorKendall.h`. -/
def corKendall (corKendallVec : List α → List α → α) (data : Mat α) :
    Except ArmaError (Mat α) :=
  let p := data.n_cols
  let res : Mat α := Mat.zeros p p
  let res := upperLoop p (fun i j => corKendallVec (data.col i) (data.col j)) res
  let res := res.symmatu
  let res := res.diagAdd (fun _ => 1)
  .ok res

/-- The estimator `corQuadrant(const mat&)`: `corQuadrantVec` is the bivariate kernel
`corQuadrant(vec, vec)` of `cor.h`. -/
def corQuadrant (corQuadrantVec : List α → List α → α) (data : Mat α) :
    Except ArmaError (Mat α) :=
  let p := data.n_cols
  let res : Mat α := Mat.zeros p p
  let res := upperLoop p (fun i j => corQuadrantVec (data.col i) (data.col j)) res
  let res := res.symmatu
  let res := res.diagAdd (fun _ => 1)
  .ok res

/-- The estimator `covSpearmanU(const mat&)`: the Spearman kernel rescaled by the two column
scales. -/
def covSpearmanU (corSpearmanVec : List α → List α → α) (MAD_cpp : Mat α → List α)
    (data : Mat α) : Except ArmaError (Mat α) :=
  let p := data.n_cols
  let res : Mat α := Mat.zeros p p
  let MADscale := MAD_cpp data
  let res := upperLoop p
    (fun i j => corSpearmanVec (data.col i) (data.col j) * MADscale.getD i 0 * MADscale.getD j 0)
    res
  let res := res.symmatu
  let res := res.diagAdd (schurSq MADscale)
  .ok res

/-- The call returns normally, with a value satisfying `P`. -/
def Returns {β : Type} (r : Except ArmaError β) (P : β → Prop) : Prop :=
  ∃ x, r = .ok x ∧ P x

/-- A `p × p` matrix with `M(i,j) = M(j,i)` at all positions. -/
def SymmetricOfSize (p : Nat) (M : Mat α) : Prop :=
  M.n_rows = p ∧ M.n_cols = p ∧ ∀ i j, i < p → j < p → M.get i j = M.get j i

/-- A `p × p` matrix with ones on the diagonal and every other element in `[-1, 1]`. -/
def UnitDiagBounded (p : Nat) (M : Mat α) : Prop :=
  M.n_rows = p ∧ M.n_cols = p ∧ (∀ i, i < p → M.get i i = 1) ∧
    ∀ i j, i < p → j < p → i ≠ j → -1 ≤ M.get i j ∧ M.get i j ≤ 1

/-- A `p × p` matrix that holds `stat i j` at both `(i,j)` and `(j,i)` for every `i < j`, and
`diag i` at `(i,i)`. -/
def AssembledFrom (p : Nat) (stat : Nat → Nat → α) (diag : Nat → α) (M : Mat α) : Prop :=
  M.n_rows = p ∧ M.n_cols = p ∧
    (∀ i j, i < j → j < p → M.get i j = stat i j ∧ M.get j i = stat i j) ∧
    ∀ i, i < p → M.get i i = diag i

end Estimators

section NearPPSD

variable {α : Type} [LinearOrderedField α]

/-- The function `find` on the result of a relational operation: the linear indices, in
increasing order, of the elements that are true. -/
def find (b : List Bool) : List Nat :=
  (List.range b.length).filter fun k => b.getD k false

/-- Checked element read `v(k)` with a signed (`int`) index, as in `eigval(n - 1)`.  A negative
`int` converts to a huge unsigned index, which is out of bounds. -/
def vecAt (v : List α) (k : Int) : Except ArmaError α :=
  if 0 ≤ k then
    match v[k.toNat]? with
    | some x => .ok x
    | none => .error .indexOutOfBounds
  else .error .indexOutOfBounds

/-- Checked indexed read `X.elem(idx)` (also `v(idx)` on a vector): the elements at the linear
indices `idx`. -/
def elem (mem : List α) (idx : List Nat) : Except ArmaError (List α) :=
  if idx.all (fun k => decide (k < mem.length)) then
    .ok (idx.map fun k => mem.getD k 0)
  else .error .indexOutOfBounds

/-- The function `mean` of a vector: the sum over the number of elements; an empty object is
rejected. -/
def mean (v : List α) : Except ArmaError α :=
  if v.isEmpty then .error .emptyObject else .ok (v.sum / (v.length : α))

/-- The function `min` of a vector; an empty object is rejected. -/
def vecMin (v : List α) : Except ArmaError α :=
  match v with
  | [] => .error .emptyObject
  | x :: xs => .ok (xs.foldl min x)

/-- In-place `X.elem(idx).fill(val)`. -/
def elemFill (X : Mat α) (idx : List Nat) (val : α) : Except ArmaError (Mat α) :=
  if idx.all (fun k => decide (k < X.mem.length)) then
    .ok { X with mem := idx.foldl (fun mem k => mem.set k val) X.mem }
  else .error .indexOutOfBounds

/-- The function `unique`: the distinct elements of a matrix, in ascending order. -/
def unique (X : Mat α) : List α := (X.mem.insertionSort (· ≤ ·)).dedup

/-- Matrix difference `A - B`; the operands must have the same dimensions. -/
def Mat.sub (A B : Mat α) : Except ArmaError (Mat α) :=
  if A.n_rows = B.n_rows ∧ A.n_cols = B.n_cols then
    .ok ⟨A.n_rows, A.n_cols, List.zipWith (· - ·) A.mem B.mem⟩
  else .error .sizeMismatch

/-- Matrix product `A * B`; the inner dimensions must agree. -/
def Mat.mul (A B : Mat α) : Except ArmaError (Mat α) :=
  if A.n_cols = B.n_rows then
    .ok (Mat.ofFn A.n_rows B.n_cols fun i j =>
      ((List.range A.n_cols).map fun k => A.get i k * B.get k j).sum)
  else .error .sizeMismatch

/-- Transpose `A.t()`. -/
def Mat.t (A : Mat α) : Mat α := Mat.ofFn A.n_cols A.n_rows fun i j => A.get j i

/-- Column selection `A.cols(p)` by a vector of column indices. -/
def Mat.cols (A : Mat α) (p : List Nat) : Except ArmaError (Mat α) :=
  if p.all (fun k => decide (k < A.n_cols)) then
    .ok (Mat.ofFn A.n_rows p.length fun i k => A.get i (p.getD k 0))
  else .error .indexOutOfBounds

/-- The function `diagmat` of a vector: the square matrix with `v` on its diagonal. -/
def diagmat (v : List α) : Mat α :=
  Mat.ofFn v.length v.length fun i j => if i = j then v.getD i 0 else 0

/-- One round of the `for` loop of `ProjPattern`, for the value `u = un(i)`:
`idx = find(X0 == u); X.elem(idx).fill(mean(X.elem(idx)));`. -/
def ProjPatternStep (X0 : Mat α) (X : Mat α) (u : α) : Except ArmaError (Mat α) := do
  let idx := find (X0.mem.map fun t => decide (t = u))
  let sub ← elem X.mem idx
  let m ← mean sub
  elemFill X idx m

/-- The function `ProjPattern(X, X0, un)` of `NPD_proj.cpp`: for each value `un(i)` in turn, the
positions of the template `X0` holding that value are filled in `X` with the mean of `X` over
them; then the positions where `X0` is zero are filled with zero. -/
def ProjPattern (X X0 : Mat α) (un : List α) : Except ArmaError (Mat α) := do
  let X ← un.foldlM (ProjPatternStep X0) X
  elemFill X (find (X0.mem.map fun t => decide (t = 0))) 0

/-- The function `ProjPSD(R, n, eigenTol)` of `NPD_proj.cpp`.  `eig_sym` is the symmetric
eigendecomposition primitive: it returns the eigenvalues (ascending) and the matrix whose columns
are the eigenvectors. -/
def ProjPSD (eig_sym : Mat α → List α × Mat α) (R : Mat α) (n : Int) (eigenTol : α) :
    Except ArmaError (Mat α) := do
  let eigval := (eig_sym R).1
  let eigvec := (eig_sym R).2
  let last ← vecAt eigval (n - 1)
  let p := find (eigval.map fun l => decide (l > eigenTol * last))
  let eigvec ← eigvec.cols p
  let kept ← elem eigval p
  let VD ← eigvec.mul (diagmat kept)
  VD.mul eigvec.t

/-- The comparison `(a / b) <= c` of `double`s, for finite `a`, `b`, `c`: it is the comparison
of the quotient when `b` is non-zero; `a / 0` is `NaN` (for `a = 0`) or `+inf` (for `a > 0`), both
of which compare false, or `-inf` (for `a < 0`), which compares true. -/
def ratioLe (a b c : α) : Bool :=
  if b = 0 then decide (a < 0) else decide (a / b ≤ c)

/-- The variables of `nearPPSD` that are live at the end of an iteration of its loop. -/
structure NPDState (α : Type) where
  X : Mat α
  Y : Mat α
  DS : Mat α
  R : Mat α
  iter : Int
  converged : Bool
deriving DecidableEq, Repr

/-- One execution of the body of the `do … while` loop of `nearPPSD`, from the values of `Y`,
`DS` and `iter` at its start.  `norm` is the matrix norm primitive. -/
def nearPPSDBody (eig_sym : Mat α → List α × Mat α) (norm : Mat α → α) (X0 : Mat α)
    (un : List α) (n : Int) (eigenTol convTol : α) (Y DS : Mat α) (iter : Int) :
    Except ArmaError (NPDState α) := do
  let R ← Y.sub DS
  let X ← ProjPSD eig_sym R n eigenTol
  let Y ← ProjPattern X X0 un
  let DS ← X.sub R
  let iter := iter + 1
  let D ← Y.sub X
  let converged := ratioLe (norm D) (norm Y) convTol
  pure ⟨X, Y, DS, R, iter, converged⟩

/-- The loop condition `iter < maxit && (!converged || min(eig_sym(X)) < 0)`, evaluated left to
right with the short-circuit of `&&` and `||`. -/
def nearPPSDCond (eig_sym : Mat α → List α × Mat α) (maxit : Int) (s : NPDState α) :
    Except ArmaError Bool :=
  if s.iter < maxit then
    if !s.converged then .ok true
    else do
      let lam ← vecMin (eig_sym s.X).1
      pure (decide (lam < 0))
  else .ok false

/-- The `do … while` loop of `nearPPSD`: the body, then the condition, then either the next
round or the exit.  `fuel` bounds the number of further rounds. -/
def nearPPSDLoop (eig_sym : Mat α → List α × Mat α) (norm : Mat α → α) (X0 : Mat α)
    (un : List α) (n : Int) (eigenTol convTol : α) (maxit : Int) :
    Nat → Mat α → Mat α → Int → Except ArmaError (NPDState α)
  | fuel, Y, DS, iter => do
    let s ← nearPPSDBody eig_sym norm X0 un n eigenTol convTol Y DS iter
    let again ← nearPPSDCond eig_sym maxit s
    if again then
      match fuel with
      | 0 => .error .outOfFuel
      | fuel + 1 => nearPPSDLoop eig_sym norm X0 un n eigenTol convTol maxit fuel s.Y s.DS s.iter
    else pure s

/-- The state of `nearPPSD` when its loop exits: the initialisation followed by the loop, with
fuel for `maxit - 1` rounds after the first. -/
def nearPPSDRun (eig_sym : Mat α → List α × Mat α) (norm : Mat α → α) (X : Mat α)
    (eigenTol convTol psdTol : α) (maxit : Int) : Except ArmaError (NPDState α) :=
  let _ := psdTol
  let n : Nat := X.n_cols
  let X0 := X
  let Y := X
  let DS : Mat α := Mat.zeros n n
  let iter : Int := 0
  let un := unique X0
  nearPPSDLoop eig_sym norm X0 un n eigenTol convTol maxit (maxit - 1).toNat Y DS iter

/-- The function `nearPPSD(X, eigenTol, convTol, psdTol, maxit)` of `NPD_proj.cpp`: the returned
matrix, paired with the iteration count printed by the non-convergence warning when the warning is
emitted. -/
def nearPPSD (eig_sym : Mat α → List α × Mat α) (norm : Mat α → α) (X : Mat α)
    (eigenTol convTol psdTol : α) (maxit : Int) : Except ArmaError (Mat α × Option Int) := do
  let s ← nearPPSDRun eig_sym norm X eigenTol convTol psdTol maxit
  pure (s.X, if !s.converged then some s.iter else none)

/-- The outcome is not the exhaustion of the loop's fuel: the call ends, normally or by one of
the library's run-time checks. -/
def Terminates {β : Type} (r : Except ArmaError β) : Prop := r ≠ .error .outOfFuel

/-- A well-formed `n × n` matrix. -/
def Mat.IsSquare (n : Nat) (M : Mat α) : Prop := M.n_rows = n ∧ M.n_cols = n ∧ M.WF

/-- The shape part of the contract of the eigendecomposition primitive: on a well-formed
`n × n` matrix it returns `n` eigenvalues and an `n × n` matrix of eigenvectors. -/
def EigShape (eig_sym : Mat α → List α × Mat α) (n : Nat) : Prop :=
  ∀ R : Mat α, R.IsSquare n →
    (eig_sym R).1.length = n ∧ (eig_sym R).2.n_rows = n ∧ (eig_sym R).2.n_cols = n

/-- Eigendecomposition of a `1 × 1` matrix: its single entry, with eigenvector `(1)`. -/
def eig_sym_1x1 (R : Mat ℚ) : List ℚ × Mat ℚ := ([R.mem.headD 0], ⟨1, 1, [1]⟩)

/-- Spectral norm of a `1 × 1` matrix: the absolute value of its entry. -/
def norm_1x1 (M : Mat ℚ) : ℚ := |M.mem.headD 0|

/-- Eigendecomposition used in the worked `2 × 2` example: the symmetric matrix
`[[7, 12], [12, 0]]` has the eigenvalues `-9` and `16`, with the orthonormal eigenvectors
`(3/5, -4/5)` and `(4/5, 3/5)`.  Likewise `[[16, 12], [12, 9]]` has the eigenvalues `0` and `25` with the same eigenvectors.
(Any other argument is treated as `1 × 1`.) -/
def eig_sym_ex (R : Mat ℚ) : List ℚ × Mat ℚ :=
  if R = ⟨2, 2, [7, 12, 12, 0]⟩ then ([-9, 16], ⟨2, 2, [3 / 5, -4 / 5, 4 / 5, 3 / 5]⟩)
  else if R = ⟨2, 2, [16, 12, 12, 9]⟩ then ([0, 25], ⟨2, 2, [3 / 5, -4 / 5, 4 / 5, 3 / 5]⟩)
  else eig_sym_1x1 R

/-- Eigendecomposition of the singular matrix `[[16, 12], [12, 9]]` as a double-precision
solver can return it: the eigenvalue `25` with eigenvector `(4/5, 3/5)`, and the zero eigenvalue
with a rounding error of the order of the unit roundoff times the norm, here `-2^-49` (about
`-1.8e-15`), with eigenvector `(3/5, -4/5)`.  (Any other argument is treated as `1 × 1`.) -/
def eig_sym_roundoff_ex (R : Mat ℚ) : List ℚ × Mat ℚ :=
  if R = ⟨2, 2, [16, 12, 12, 9]⟩ then
    ([-1 / 562949953421312, 25], ⟨2, 2, [3 / 5, -4 / 5, 4 / 5, 3 / 5]⟩)
  else eig_sym_1x1 R

/-- Eigendecompositions used in the example of a converged run.  With `t = 6401 / 20486400`
(so that `1 + t²` is the square of `20486401 / 20486400`), the matrix `[[1 - t², t], [t, 0]]`
has the eigenvalues `-t²` and `1` with the orthonormal eigenvectors `(t, -1) / √(1 + t²)` and
`(1, t) / √(1 + t²)`; its projection `(1, t)(1, t)ᵀ / (1 + t²)` has the eigenvalues `0` and `1`
with the same eigenvectors.  (Any other argument is treated as `1 × 1`.) -/
def eig_sym_conv_ex (R : Mat ℚ) : List ℚ × Mat ℚ :=
  if R = ⟨2, 2, [419692543987199 / 419692584960000, 6401 / 20486400, 6401 / 20486400, 0]⟩ then
    ([-40972801 / 419692584960000, 1],
      ⟨2, 2, [6401 / 20486401, -20486400 / 20486401, 20486400 / 20486401,
        6401 / 20486401]⟩)
  else if R =
      ⟨2, 2, [419692584960000 / 419692625932801, 131133446400 / 419692625932801,
        131133446400 / 419692625932801, 40972801 / 419692625932801]⟩ then
    ([0, 1],
      ⟨2, 2, [6401 / 20486401, -20486400 / 20486401, 20486400 / 20486401,
        6401 / 20486401]⟩)
  else eig_sym_1x1 R

/-- Spectral norm of a symmetric positive semi-definite matrix of rank at most one (and of any
`1 × 1` matrix): the absolute value of its trace. -/
def norm_rank1 (M : Mat ℚ) : ℚ := |((List.range M.n_rows).map fun i => M.get i i).sum|

/-- The pair `(lam, V)` that `eig_sym` returns for the `n × n` matrix `X` is a spectral
decomposition of `X`: `n` eigenvalues, an `n × n` matrix `V`, and
`X(i,j) = Σ_k V(i,k) · lam(k) · V(j,k)`, that is `X = V · diag(lam) · Vᵀ`. -/
def IsSpectralDecomposition (eig_sym : Mat α → List α × Mat α) (n : Nat) (X : Mat α) : Prop :=
  (eig_sym X).1.length = n ∧ (eig_sym X).2.n_rows = n ∧ (eig_sym X).2.n_cols = n ∧
  ∀ i j, i < n → j < n →
    X.get i j = ((List.range n).map fun k =>
      (eig_sym X).2.get i k * (eig_sym X).1.getD k 0 * (eig_sym X).2.get j k).sum

end NearPPSD

section PatternSpec

variable {α : Type} [LinearOrderedField α]

/-- All positions of the template `T` whose value is `v`, in increasing order. -/
def classPositions (T : Mat α) (v : α) : List Nat :=
  (List.range T.mem.length).filter fun k => decide (T.mem[k]? = some v)

/-- The arithmetic mean of `X` over all positions whose template value is `v`. -/
def classMean (X T : Mat α) (v : α) : α :=
  ((classPositions T v).map fun k => X.mem.getD k 0).sum / ((classPositions T v).length : α)

/-- The values of `X` at the positions whose template value is `v`, in the order of the
positions: the vector `X.elem(find(T == v))`. -/
def classValues (X T : Mat α) (v : α) : List α :=
  (classPositions T v).map fun k => X.mem.getD k 0

/-- Per-class averaging as the specification words it: every position whose template value is
a non-zero `v` receives the mean of `X` over the positions where `T == v`, and every position
where `T == 0` is forced to `0`.  (Positions outside the template are left as they are.) -/
def specProjectPattern (X T : Mat α) : Mat α :=
  { X with mem := (List.range X.mem.length).map fun k =>
      match T.mem[k]? with
      | some v => if v = 0 then 0 else classMean X T v
      | none => X.mem.getD k 0 }

/-- The matrix `Y` respects the pattern of the template `X0`: it is exactly `0` at every position
where `X0` is `0`, and two positions with equal `X0` value hold equal values in `Y`. -/
def RespectsPattern (X0 Y : Mat α) : Prop :=
  (∀ k : Nat, X0.mem[k]? = some 0 → Y.mem[k]? = some 0) ∧
  ∀ (k l : Nat) (v : α), X0.mem[k]? = some v → X0.mem[l]? = some v →
    (Y.mem[k]?).isSome = true ∧ Y.mem[k]? = Y.mem[l]?

/-- The states at the end of the iterations of the loop of `nearPPSD` on the input `X`: the
first iteration starts from `Y = X`, `DS = 0`, `iter = 0`; a further iteration starts from the
state of the previous one when the loop condition is true there. -/
inductive IterationEnd (eig_sym : Mat α → List α × Mat α) (norm : Mat α → α) (X : Mat α)
    (eigenTol convTol : α) (maxit : Int) : NPDState α → Prop where
  | first {s : NPDState α} :
      nearPPSDBody eig_sym norm X (unique X) (X.n_cols : Int) eigenTol convTol X
        (Mat.zeros X.n_cols X.n_cols) 0 = .ok s →
      IterationEnd eig_sym norm X eigenTol convTol maxit s
  | next {s s1 : NPDState α} :
      IterationEnd eig_sym norm X eigenTol convTol maxit s →
      nearPPSDCond eig_sym maxit s = .ok true →
      nearPPSDBody eig_sym norm X (unique X) (X.n_cols : Int) eigenTol convTol s.Y s.DS
        s.iter = .ok s1 →
      IterationEnd eig_sym norm X eigenTol convTol maxit s1

end PatternSpec

section Composite

variable {α : Type} [LinearOrderedField α]

/-- The estimator `covNPD(data, eigenTol, convTol, psdTol, maxit)` of `robust_cors.cpp`: the
pairwise matrix of the kernel `covQn(vec, vec)` with the squared scales `scaleQn` on the diagonal,
passed through `nearPPSD`.  The result carries the warning of `nearPPSD`. -/
def covNPD (covQn : List α → List α → α) (scaleQn : List α → α)
    (eig_sym : Mat α → List α × Mat α) (norm : Mat α → α) (data : Mat α)
    (eigenTol convTol psdTol : α) (maxit : Int) : Except ArmaError (Mat α × Option Int) :=
  let p := data.n_cols
  let res : Mat α := Mat.zeros p p
  let res := upperLoop p (fun i j => covQn (data.col i) (data.col j)) res
  let res := res.symmatu
  let Qn := (List.range p).map fun i => scaleQn (data.col i)
  let res := res.diagAdd (schurSq Qn)
  nearPPSD eig_sym norm res eigenTol convTol psdTol maxit

/-- The estimator `covOGK(const mat&)` of `robust_cors.cpp`.  `Dmat` holds the column scales,
`Z` the data with column `j` divided by `Dmat(j)`, `U` the matrix `covGK(Z)` with its diagonal set
to one, `E` the eigenvectors of `U`, `A` the matrix `E` with row `i` multiplied by `Dmat(i)`, and
`Gamma` the squared scales of the columns of `Z * E`; the result is `A * diagmat(Gamma) * A.t()`.
(The file is compiled without Armadillo's size checks; a product of incompatible dimensions,
undefined there, is a failure here.) -/
def covOGK (scaleQn : List α → α) (covGKvec : List α → List α → α) (MAD_cpp : Mat α → List α)
    (eig_sym : Mat α → List α × Mat α) (data : Mat α) : Except ArmaError (Mat α) := do
  let p := data.n_cols
  let Dmat := (List.range p).map fun i => scaleQn (data.col i)
  let Z := Mat.ofFn data.n_rows data.n_cols fun i j => data.get i j / Dmat.getD j 0
  let U ← covGK covGKvec MAD_cpp Z
  let U := Mat.ofFn U.n_rows U.n_cols fun i j => if i = j then 1 else U.get i j
  let E := (eig_sym U).2
  let A := Mat.ofFn E.n_rows E.n_cols fun i j => E.get i j * Dmat.getD i 0
  let Z ← Z.mul E
  let Gamma := (List.range p).map fun i => scaleQn (Z.col i) * scaleQn (Z.col i)
  let AG ← A.mul (diagmat Gamma)
  AG.mul A.t

end Composite

section Rounding

/-- The arithmetic of the scalar type `double`: addition, multiplication and division as the
machine performs them, each with its own rounding.  The definitions of the namespace `Rounded`
take it as a parameter; `Arith.exact` is arithmetic without rounding error and `Arith.binary64`
the arithmetic of IEEE 754 doubles. -/
structure Arith (α : Type) where
  add : α → α → α
  mul : α → α → α
  div : α → α → α

/-- Arithmetic without rounding error: the operations of the field. -/
def Arith.exact {α : Type} [Field α] : Arith α :=
  ⟨fun a b => a + b, fun a b => a * b, fun a b => a / b⟩

/-- The number of times `n` can be halved before it drops below `2`: `⌊log₂ n⌋` for
`1 ≤ n < 2 ^ fuel`. -/
def log2Fuel : Nat → Nat → Nat
  | 0, _ => 0
  | fuel + 1, n => if 2 ≤ n then log2Fuel fuel (n / 2) + 1 else 0

/-- The binary exponent `⌊log₂ |q|⌋` of a non-zero rational number (numerator and denominator
below `2 ^ 2048`). -/
def ilog2 (q : ℚ) : ℤ :=
  let d : ℤ := (log2Fuel 2048 q.num.natAbs : ℤ) - (log2Fuel 2048 q.den : ℤ)
  if (2 : ℚ) ^ d ≤ |q| then d else d - 1

/-- The nearest integer, a tie going to the even one. -/
def roundHalfEven (x : ℚ) : ℤ :=
  let f := ⌊x⌋
  if x - f < 1 / 2 then f else if 1 / 2 < x - f then f + 1 else if f % 2 = 0 then f else f + 1

/-- The `double` nearest to `q` (round to nearest, ties to even, 53-bit significand): `q` is
scaled so that its significand lies in `[2^52, 2^53)`, rounded to an integer and scaled back.
The exponent range is not bounded: overflow and subnormal numbers are outside this
function. -/
def fl (q : ℚ) : ℚ :=
  if q = 0 then 0 else
    let e := ilog2 q - 52
    (roundHalfEven (q / 2 ^ e) : ℚ) * 2 ^ e

/-- The arithmetic of IEEE 754 binary64: each operation returns the `double` nearest to the
exact result.  (Its operands are meant to be doubles; a division by zero, which gives an infinity
or a `NaN`, is outside it.) -/
def Arith.binary64 : Arith ℚ :=
  ⟨fun a b => fl (a + b), fun a b => fl (a * b), fun a b => fl (a / b)⟩

/-- The arithmetic keeps the sign of an exact result: a rounded sum or product is not negative
when the exact one is not negative, and a rounded product is not positive when the exact one is
not positive.  (Rounding to nearest has this property.) -/
def Arith.SignPreserving {α : Type} [LinearOrderedField α] (ar : Arith α) : Prop :=
  (∀ a b : α, 0 ≤ a + b → 0 ≤ ar.add a b) ∧ (∀ a b : α, 0 ≤ a * b → 0 ≤ ar.mul a b) ∧
    ∀ a b : α, a * b ≤ 0 → ar.mul a b ≤ 0

namespace Rounded

variable {α : Type} [LinearOrderedField α]

/-- The sum `arrayops::accumulate` that the library's `mean` takes over the elements of a
vector: the elements at the even positions are added, in order, to a first accumulator and those
at the odd positions to a second one; the sum is the first accumulator plus the second. -/
def accumulate (ar : Arith α) : List α → α → α → α
  | [], acc1, acc2 => ar.add acc1 acc2
  | [x], acc1, acc2 => ar.add (ar.add acc1 x) acc2
  | x :: y :: rest, acc1, acc2 => accumulate ar rest (ar.add acc1 x) (ar.add acc2 y)

/-- The function `mean` of a vector, in the arithmetic `ar`: the accumulated sum divided by the
number of elements; an empty object is rejected. -/
def mean (ar : Arith α) (v : List α) : Except ArmaError α :=
  if v.isEmpty then .error .emptyObject
  else .ok (ar.div (accumulate ar v 0 0) (v.length : α))

/-- One round of the `for` loop of `ProjPattern`, in the arithmetic `ar`. -/
def ProjPatternStep (ar : Arith α) (X0 : Mat α) (X : Mat α) (u : α) :
    Except ArmaError (Mat α) := do
  let idx := find (X0.mem.map fun t => decide (t = u))
  let sub ← elem X.mem idx
  let m ← mean ar sub
  elemFill X idx m

/-- The function `ProjPattern(X, X0, un)` of `NPD_proj.cpp`, in the arithmetic `ar`: the class
means are the only values it computes. -/
def ProjPattern (ar : Arith α) (X X0 : Mat α) (un : List α) : Except ArmaError (Mat α) := do
  let X ← un.foldlM (ProjPatternStep ar X0) X
  elemFill X (find (X0.mem.map fun t => decide (t = 0))) 0

/-- The product `A * diagmat(d)` in the arithmetic `ar`: the library scales column `k` of `A` by
`d(k)`, one multiplication per element. -/
def mulDiag (ar : Arith α) (A : Mat α) (d : List α) : Except ArmaError (Mat α) :=
  if A.n_cols = d.length then
    .ok (Mat.ofFn A.n_rows d.length fun i k => ar.mul (A.get i k) (d.getD k 0))
  else .error .sizeMismatch

/-- Matrix product `A * B` in the arithmetic `ar`: element `(i,j)` accumulates the products
`A(i,k) · B(k,j)` in the order of `k`. -/
def mul (ar : Arith α) (A B : Mat α) : Except ArmaError (Mat α) :=
  if A.n_cols = B.n_rows then
    .ok (Mat.ofFn A.n_rows B.n_cols fun i j =>
      (List.range A.n_cols).foldl (fun acc k => ar.add acc (ar.mul (A.get i k) (B.get k j))) 0)
  else .error .sizeMismatch

/-- The function `ProjPSD(R, n, eigenTol)` of `NPD_proj.cpp`, in the arithmetic `ar`: the
threshold `eigenTol * eigval(n - 1)` and the product
`(eigvec * diagmat(eigval(p))) * eigvec.t()` are computed with it. -/
def ProjPSD (ar : Arith α) (eig_sym : Mat α → List α × Mat α) (R : Mat α) (n : Int)
    (eigenTol : α) : Except ArmaError (Mat α) := do
  let eigval := (eig_sym R).1
  let eigvec := (eig_sym R).2
  let last ← vecAt eigval (n - 1)
  let p := find (eigval.map fun l => decide (l > ar.mul eigenTol last))
  let eigvec ← eigvec.cols p
  let kept ← elem eigval p
  let VD ← mulDiag ar eigvec kept
  mul ar VD eigvec.t

/-- In-place `m.diag() += d` in the arithmetic `ar`. -/
def diagAdd (ar : Arith α) (m : Mat α) (d : Nat → α) : Mat α :=
  Mat.ofFn m.n_rows m.n_cols fun i j => if i = j then ar.add (m.get i j) (d i) else m.get i j

/-- The estimator `covGK(const mat&)` in the arithmetic `ar`. -/
def covGK (ar : Arith α) (covGKvec : List α → List α → α) (MAD_cpp : Mat α → List α)
    (data : Mat α) : Except ArmaError (Mat α) :=
  let p := data.n_cols
  let res : Mat α := Mat.zeros p p
  let res := upperLoop p (fun i j => covGKvec (data.col i) (data.col j)) res
  let res := res.symmatu
  let MAD := MAD_cpp data
  let res := diagAdd ar res (fun i => ar.mul (MAD.getD i 0) (MAD.getD i 0))
  .ok res

/-- The estimator `covSpearmanU(const mat&)` in the arithmetic `ar`: the element `(i,j)` is
`(corSpearman(col i, col j) * MADscale(i)) * MADscale(j)`, two rounded multiplications, and the
diagonal element `i` is `0 + MADscale(i) * MADscale(i)`. -/
def covSpearmanU (ar : Arith α) (corSpearmanVec : List α → List α → α)
    (MAD_cpp : Mat α → List α) (data : Mat α) : Except ArmaError (Mat α) :=
  let p := data.n_cols
  let res : Mat α := Mat.zeros p p
  let MADscale := MAD_cpp data
  let res := upperLoop p
    (fun i j => ar.mul (ar.mul (corSpearmanVec (data.col i) (data.col j)) (MADscale.getD i 0))
      (MADscale.getD j 0))
    res
  let res := res.symmatu
  let res := diagAdd ar res (fun i => ar.mul (MADscale.getD i 0) (MADscale.getD i 0))
  .ok res

/-- The vector `Dmat` of `covOGK`: the scale of each column of the data. -/
def covOGK_Dmat (scaleQn : List α → α) (data : Mat α) : List α :=
  (List.range data.n_cols).map fun i => scaleQn (data.col i)

/-- The matrix `Z` of `covOGK` after `Z.each_row() /= Dmat.t()`: column `j` of the data divided
by `Dmat(j)`. -/
def covOGK_Z (ar : Arith α) (scaleQn : List α → α) (data : Mat α) : Mat α :=
  Mat.ofFn data.n_rows data.n_cols fun i j =>
    ar.div (data.get i j) ((covOGK_Dmat scaleQn data).getD j 0)

/-- The statement `U.diag() = ones(p)`. -/
def unitDiag (U : Mat α) : Mat α :=
  Mat.ofFn U.n_rows U.n_cols fun i j => if i = j then 1 else U.get i j

/-- The matrix `A` of `covOGK` after `A.each_col() %= Dmat`: row `i` of `E` multiplied by
`Dmat(i)`. -/
def covOGK_A (ar : Arith α) (E : Mat α) (Dmat : List α) : Mat α :=
  Mat.ofFn E.n_rows E.n_cols fun i j => ar.mul (E.get i j) (Dmat.getD i 0)

/-- The vector `Gamma` of `covOGK`: the squared scale of each of the `p` columns of `Z * E`. -/
def covOGK_Gamma (ar : Arith α) (scaleQn : List α → α) (p : Nat) (ZE : Mat α) : List α :=
  (List.range p).map fun i => ar.mul (scaleQn (ZE.col i)) (scaleQn (ZE.col i))

/-- The estimator `covOGK(const mat&)` of `robust_cors.cpp` in the arithmetic `ar`. -/
def covOGK (ar : Arith α) (scaleQn : List α → α) (covGKvec : List α → List α → α)
    (MAD_cpp : Mat α → List α) (eig_sym : Mat α → List α × Mat α) (data : Mat α) :
    Except ArmaError (Mat α) := do
  let p := data.n_cols
  let Dmat := covOGK_Dmat scaleQn data
  let Z := covOGK_Z ar scaleQn data
  let U ← covGK ar covGKvec MAD_cpp Z
  let U := unitDiag U
  let E := (eig_sym U).2
  let A := covOGK_A ar E Dmat
  let Z ← mul ar Z E
  let Gamma := covOGK_Gamma ar scaleQn p Z
  let AG ← mulDiag ar A Gamma
  mul ar AG A.t

end Rounded

end Rounding

end RobustCov

namespace RobustCov

/-! ## Element access on the memory layout -/

section MatLemmas

variable {α : Type}

theorem Mat.index_lt {r c i j : Nat} (hi : i < r) (hj : j < c) : i + j * r < r * c := by
  calc i + j * r < r + j * r := by omega
    _ = (j + 1) * r := by ring
    _ ≤ c * r := Nat.mul_le_mul_right r hj
    _ = r * c := Nat.mul_comm c r

theorem Mat.index_inj {r i j a b : Nat} (hi : i < r) (ha : a < r)
    (h : i + j * r = a + b * r) : i = a ∧ j = b := by
  have h1 : (i + j * r) % r = i := by
    rw [Nat.add_mul_mod_self_right, Nat.mod_eq_of_lt hi]
  have h2 : (a + b * r) % r = a := by
    rw [Nat.add_mul_mod_self_right, Nat.mod_eq_of_lt ha]
  have hia : i = a := by rw [← h1, ← h2, h]
  subst hia
  have hr : 0 < r := by omega
  have h3 : j * r = b * r := by omega
  exact ⟨rfl, Nat.eq_of_mul_eq_mul_right hr h3⟩

theorem Mat.ofFn_get [Zero α] (r c : Nat) (f : Nat → Nat → α) {i j : Nat}
    (hi : i < r) (hj : j < c) : (Mat.ofFn r c f).get i j = f i j := by
  have hlt := Mat.index_lt hi hj
  have hr : 0 < r := by omega
  simp only [Mat.get, Mat.ofFn]
  rw [List.getD_eq_getElem _ _ (by simpa using hlt)]
  simp only [List.getElem_map, List.getElem_range]
  rw [Nat.add_mul_mod_self_right, Nat.mod_eq_of_lt hi, Nat.add_mul_div_right _ _ hr,
    Nat.div_eq_of_lt hi, Nat.zero_add]

theorem Mat.zeros_get [Zero α] (r c i j : Nat) : (Mat.zeros r c : Mat α).get i j = 0 := by
  simp only [Mat.get, Mat.zeros, List.getD_eq_getElem?_getD, List.getElem?_replicate]
  split <;> rfl

theorem Mat.set_get [Zero α] (m : Mat α) (hm : m.WF) {i j a b : Nat} (v : α)
    (hi : i < m.n_rows) (hj : j < m.n_cols) (ha : a < m.n_rows) :
    (m.set i j v).get a b = if a = i ∧ b = j then v else m.get a b := by
  have hlt : i + j * m.n_rows < m.mem.length := by
    rw [hm]; exact Mat.index_lt hi hj
  simp only [Mat.get, Mat.set, List.getD_eq_getElem?_getD]
  by_cases h : a = i ∧ b = j
  · obtain ⟨rfl, rfl⟩ := h
    simp [List.getElem?_set_self, hlt]
  · have hne : i + j * m.n_rows ≠ a + b * m.n_rows := by
      intro heq
      have := Mat.index_inj hi ha heq
      exact h ⟨this.1.symm, this.2.symm⟩
    rw [if_neg h, List.getElem?_set_ne hne]

theorem Mat.zeros_WF [Zero α] (r c : Nat) : (Mat.zeros r c : Mat α).WF := by
  simp [Mat.WF, Mat.zeros]

theorem Mat.ofFn_WF (r c : Nat) (f : Nat → Nat → α) : (Mat.ofFn r c f).WF := by
  simp [Mat.WF, Mat.ofFn]

theorem Mat.set_WF (m : Mat α) (hm : m.WF) (i j : Nat) (v : α) : (m.set i j v).WF := by
  simpa [Mat.WF, Mat.set] using hm

end MatLemmas

end RobustCov

namespace RobustCov

/-! ## The pairwise assembly of `robust_cors.cpp` -/

section Assembly

variable {α : Type} [LinearOrderedField α]

/-- The inner loop (fixed row `i`, columns `L`) writes `f i b` at `(i, b)` for `b ∈ L` and
leaves every other element as it was. -/
theorem innerLoop_spec (p i : Nat) (hi : i < p) (f : Nat → Nat → α) :
    ∀ (L : List Nat) (m : Mat α), m.WF → m.n_rows = p → m.n_cols = p → (∀ j ∈ L, j < p) →
      (L.foldl (fun res j => res.set i j (f i j)) m).WF ∧
      (L.foldl (fun res j => res.set i j (f i j)) m).n_rows = p ∧
      (L.foldl (fun res j => res.set i j (f i j)) m).n_cols = p ∧
      ∀ a b, a < p → (L.foldl (fun res j => res.set i j (f i j)) m).get a b =
        if a = i ∧ b ∈ L then f i b else m.get a b := by
  intro L
  induction L with
  | nil => intro m hm hr hc _; simp [hm, hr, hc]
  | cons j L ih =>
    intro m hm hr hc hL
    have hj : j < p := hL j (List.mem_cons_self _ _)
    have hL2 : ∀ x ∈ L, x < p := fun x hx => hL x (List.mem_cons_of_mem _ hx)
    obtain ⟨h1, h2, h3, h4⟩ := ih (m.set i j (f i j)) (Mat.set_WF m hm i j _) hr hc hL2
    refine ⟨h1, h2, h3, ?_⟩
    intro a b ha
    rw [List.foldl_cons, h4 a b ha,
      Mat.set_get m hm (f i j) (hr ▸ hi) (hc ▸ hj) (hr ▸ ha)]
    by_cases hai : a = i
    · by_cases hbL : b ∈ L
      · simp [hai, hbL]
      · by_cases hbj : b = j
        · simp [hai, hbj]
        · simp [hai, hbL, hbj]
    · simp [hai]

/-- The loop nest over rows `I`, with the columns `Lf i` visited in row `i`. -/
theorem outerLoop_spec (p : Nat) (f : Nat → Nat → α) (Lf : Nat → List Nat)
    (hLf : ∀ i, ∀ j ∈ Lf i, j < p) :
    ∀ (I : List Nat) (m : Mat α), m.WF → m.n_rows = p → m.n_cols = p → (∀ i ∈ I, i < p) →
      (I.foldl (fun res i => (Lf i).foldl (fun res j => res.set i j (f i j)) res) m).WF ∧
      (I.foldl (fun res i => (Lf i).foldl (fun res j => res.set i j (f i j)) res) m).n_rows = p ∧
      (I.foldl (fun res i => (Lf i).foldl (fun res j => res.set i j (f i j)) res) m).n_cols = p ∧
      ∀ a b, a < p →
        (I.foldl (fun res i => (Lf i).foldl (fun res j => res.set i j (f i j)) res) m).get a b =
          if a ∈ I ∧ b ∈ Lf a then f a b else m.get a b := by
  intro I
  induction I with
  | nil => intro m hm hr hc _; simp [hm, hr, hc]
  | cons i I ih =>
    intro m hm hr hc hI
    have hi : i < p := hI i (List.mem_cons_self _ _)
    have hI2 : ∀ x ∈ I, x < p := fun x hx => hI x (List.mem_cons_of_mem _ hx)
    obtain ⟨g1, g2, g3, g4⟩ := innerLoop_spec p i hi f (Lf i) m hm hr hc (hLf i)
    obtain ⟨h1, h2, h3, h4⟩ := ih _ g1 g2 g3 hI2
    refine ⟨h1, h2, h3, ?_⟩
    intro a b ha
    rw [List.foldl_cons, h4 a b ha, g4 a b ha]
    by_cases haI : a ∈ I
    · by_cases hb : b ∈ Lf a
      · by_cases hai : a = i
        · subst hai; simp [hb]
        · simp [haI, hb, hai]
      · by_cases hai : a = i
        · subst hai; simp [hb]
        · simp [hb, hai]
    · by_cases hai : a = i
      · subst hai; simp [haI]
      · simp [haI, hai]

/-- After the loop nest on the zero matrix, element `(a, b)` holds `f a b` above the diagonal
and zero elsewhere. -/
theorem upperLoop_spec (p : Nat) (f : Nat → Nat → α) :
    (upperLoop p f (Mat.zeros p p)).WF ∧ (upperLoop p f (Mat.zeros p p)).n_rows = p ∧
    (upperLoop p f (Mat.zeros p p)).n_cols = p ∧
    ∀ a b, a < p → b < p →
      (upperLoop p f (Mat.zeros p p)).get a b = if a < b then f a b else 0 := by
  have hLf : ∀ i, ∀ j ∈ List.range' (i + 1) (p - (i + 1)), j < p := by
    intro i j hj
    rw [List.mem_range'_1] at hj
    omega
  have hI : ∀ i ∈ List.range (p - 1), i < p := by
    intro i hi
    rw [List.mem_range] at hi
    omega
  obtain ⟨h1, h2, h3, h4⟩ := outerLoop_spec p f (fun i => List.range' (i + 1) (p - (i + 1))) hLf
    (List.range (p - 1)) (Mat.zeros p p) (Mat.zeros_WF p p) rfl rfl hI
  refine ⟨h1, h2, h3, ?_⟩
  intro a b ha hb
  have h5 := h4 a b ha
  simp only [upperLoop]
  rw [h5, Mat.zeros_get]
  have hiff : (a ∈ List.range (p - 1) ∧ b ∈ List.range' (a + 1) (p - (a + 1))) ↔ a < b := by
    rw [List.mem_range, List.mem_range'_1]
    omega
  by_cases hab : a < b
  · rw [if_pos hab, if_pos (hiff.mpr hab)]
  · rw [if_neg hab, if_neg (fun h => hab (hiff.mp h))]

/-- Elements of the assembled matrix: the diagonal rule on the diagonal, `f` of the pair with the
smaller index first everywhere else. -/
theorem assembled_get (p : Nat) (f : Nat → Nat → α) (d : Nat → α) {a b : Nat}
    (ha : a < p) (hb : b < p) :
    (((upperLoop p f (Mat.zeros p p)).symmatu).diagAdd d).get a b =
      if a = b then d a else if a < b then f a b else f b a := by
  obtain ⟨_, h2, h3, h4⟩ := upperLoop_spec p f
  have hs : ∀ x y, x < p → y < p → ((upperLoop p f (Mat.zeros p p)).symmatu).get x y =
      if x < y then f x y else if y < x then f y x else 0 := by
    intro x y hx hy
    simp only [Mat.symmatu, h2, h3]
    rw [Mat.ofFn_get p p _ hx hy]
    by_cases hxy : x ≤ y
    · rw [if_pos hxy, h4 x y hx hy]
      by_cases hlt : x < y
      · simp [hlt]
      · have : ¬ y < x := by omega
        simp [hlt, this]
    · rw [if_neg hxy, h4 y x hy hx]
      have h1 : ¬ x < y := by omega
      have h2 : y < x := by omega
      simp [h1, h2]
  have hd : ((upperLoop p f (Mat.zeros p p)).symmatu).n_rows = p ∧
      ((upperLoop p f (Mat.zeros p p)).symmatu).n_cols = p := by
    simp [Mat.symmatu, Mat.ofFn, h2, h3]
  simp only [Mat.diagAdd, hd.1, hd.2]
  rw [Mat.ofFn_get p p _ ha hb, hs a b ha hb]
  by_cases hab : a = b
  · subst hab; simp
  · by_cases hlt : a < b
    · simp [hab, hlt]
    · have : b < a := by omega
      simp [hab, hlt, this]

/-- Shape of the assembled matrix. -/
theorem assembled_shape (p : Nat) (f : Nat → Nat → α) (d : Nat → α) :
    (((upperLoop p f (Mat.zeros p p)).symmatu).diagAdd d).n_rows = p ∧
    (((upperLoop p f (Mat.zeros p p)).symmatu).diagAdd d).n_cols = p ∧
    (((upperLoop p f (Mat.zeros p p)).symmatu).diagAdd d).WF := by
  obtain ⟨_, h2, h3, _⟩ := upperLoop_spec p f
  refine ⟨?_, ?_, ?_⟩
  · simp [Mat.diagAdd, Mat.symmatu, Mat.ofFn, h2]
  · simp [Mat.diagAdd, Mat.symmatu, Mat.ofFn, h3]
  · exact Mat.ofFn_WF _ _ _

theorem assembled_symm (p : Nat) (f : Nat → Nat → α) (d : Nat → α) {a b : Nat}
    (ha : a < p) (hb : b < p) :
    (((upperLoop p f (Mat.zeros p p)).symmatu).diagAdd d).get a b =
      (((upperLoop p f (Mat.zeros p p)).symmatu).diagAdd d).get b a := by
  rw [assembled_get p f d ha hb, assembled_get p f d hb ha]
  by_cases hab : a = b
  · subst hab; rfl
  · have hba : ¬ b = a := fun h => hab h.symm
    by_cases hlt : a < b
    · have : ¬ b < a := by omega
      simp [hab, hba, hlt, this]
    · have : b < a := by omega
      simp [hab, hba, hlt, this]

end Assembly

end RobustCov

namespace RobustCov

/-! ## Claims on the pairwise estimators -/

section EstimatorClaims

variable {α : Type} [LinearOrderedField α]

theorem assembled_symmetricOfSize (p : Nat) (f : Nat → Nat → α) (d : Nat → α) :
    SymmetricOfSize p (((upperLoop p f (Mat.zeros p p)).symmatu).diagAdd d) := by
  obtain ⟨h1, h2, _⟩ := assembled_shape p f d
  exact ⟨h1, h2, fun i j hi hj => assembled_symm p f d hi hj⟩

theorem assembled_assembledFrom (p : Nat) (f : Nat → Nat → α) (d : Nat → α) :
    AssembledFrom p f d (((upperLoop p f (Mat.zeros p p)).symmatu).diagAdd d) := by
  obtain ⟨h1, h2, _⟩ := assembled_shape p f d
  refine ⟨h1, h2, ?_, ?_⟩
  · intro i j hij hj
    have hi : i < p := by omega
    have hne : ¬ i = j := by omega
    have hne2 : ¬ j = i := by omega
    have hnlt : ¬ j < i := by omega
    rw [assembled_get p f d hi hj, assembled_get p f d hj hi]
    simp [hne, hne2, hij, hnlt]
  · intro i hi
    rw [assembled_get p f d hi hi]
    simp

theorem assembled_unitDiagBounded (p : Nat) (f : Nat → Nat → α)
    (hf : ∀ i j, -1 ≤ f i j ∧ f i j ≤ 1) :
    UnitDiagBounded p (((upperLoop p f (Mat.zeros p p)).symmatu).diagAdd fun _ => 1) := by
  obtain ⟨h1, h2, _⟩ := assembled_shape p f (fun _ => (1 : α))
  refine ⟨h1, h2, ?_, ?_⟩
  · intro i hi
    rw [assembled_get p f _ hi hi]
    simp
  · intro i j hi hj hne
    rw [assembled_get p f _ hi hj, if_neg hne]
    by_cases hlt : i < j
    · rw [if_pos hlt]; exact hf i j
    · rw [if_neg hlt]; exact hf j i

/-- C1: for every data matrix and every bivariate kernel (no symmetry of the kernel is assumed),
each of the five pairwise estimators `corSpearman`, `corKendall`, `corQuadrant`, `covGK` and
`covSpearmanU` returns a `p × p` matrix `M` with `M(i,j) = M(j,i)` for all `i, j < p`. -/
theorem pairwise_estimators_symmetric
    (corSpearmanVec corKendallVec corQuadrantVec covGKvec : List α → List α → α)
    (MAD_cpp : Mat α → List α) (data : Mat α) :
    Returns (corSpearman corSpearmanVec data) (SymmetricOfSize data.n_cols) ∧
    Returns (corKendall corKendallVec data) (SymmetricOfSize data.n_cols) ∧
    Returns (corQuadrant corQuadrantVec data) (SymmetricOfSize data.n_cols) ∧
    Returns (covGK covGKvec MAD_cpp data) (SymmetricOfSize data.n_cols) ∧
    Returns (covSpearmanU corSpearmanVec MAD_cpp data) (SymmetricOfSize data.n_cols) :=
  ⟨⟨_, rfl, assembled_symmetricOfSize _ _ _⟩, ⟨_, rfl, assembled_symmetricOfSize _ _ _⟩,
    ⟨_, rfl, assembled_symmetricOfSize _ _ _⟩, ⟨_, rfl, assembled_symmetricOfSize _ _ _⟩,
    ⟨_, rfl, assembled_symmetricOfSize _ _ _⟩⟩

/-- C2: for every data matrix (in particular with `p ≥ 2` columns) and bivariate kernels whose
values lie in `[-1, 1]`, the unit-diagonal estimators `corSpearman`, `corKendall` and
`corQuadrant` return a matrix whose diagonal elements are all exactly `1` and whose off-diagonal
elements all lie in `[-1, 1]`. -/
theorem unit_diagonal_estimators_bounded
    (corSpearmanVec corKendallVec corQuadrantVec : List α → List α → α) (data : Mat α)
    (hS : ∀ x y, -1 ≤ corSpearmanVec x y ∧ corSpearmanVec x y ≤ 1)
    (hK : ∀ x y, -1 ≤ corKendallVec x y ∧ corKendallVec x y ≤ 1)
    (hQ : ∀ x y, -1 ≤ corQuadrantVec x y ∧ corQuadrantVec x y ≤ 1) :
    Returns (corSpearman corSpearmanVec data) (UnitDiagBounded data.n_cols) ∧
    Returns (corKendall corKendallVec data) (UnitDiagBounded data.n_cols) ∧
    Returns (corQuadrant corQuadrantVec data) (UnitDiagBounded data.n_cols) :=
  ⟨⟨_, rfl, assembled_unitDiagBounded _ _ fun _ _ => hS _ _⟩,
    ⟨_, rfl, assembled_unitDiagBounded _ _ fun _ _ => hK _ _⟩,
    ⟨_, rfl, assembled_unitDiagBounded _ _ fun _ _ => hQ _ _⟩⟩

/-- Witness for C2: a `2 × 3` rational data matrix and the kernel that compares the column sums
(values `1` and `-1`). -/
theorem unit_diagonal_estimators_bounded_witness :
    (∀ x y : List ℚ, -1 ≤ (if x.sum ≤ y.sum then (1 : ℚ) else -1) ∧
        (if x.sum ≤ y.sum then (1 : ℚ) else -1) ≤ 1) ∧
    (Returns (corSpearman (fun x y => if x.sum ≤ y.sum then (1 : ℚ) else -1)
        ⟨2, 3, [1, 2, 3, 4, 5, 6]⟩) (UnitDiagBounded 3) ∧
      Returns (corKendall (fun x y => if x.sum ≤ y.sum then (1 : ℚ) else -1)
        ⟨2, 3, [1, 2, 3, 4, 5, 6]⟩) (UnitDiagBounded 3) ∧
      Returns (corQuadrant (fun x y => if x.sum ≤ y.sum then (1 : ℚ) else -1)
        ⟨2, 3, [1, 2, 3, 4, 5, 6]⟩) (UnitDiagBounded 3)) :=
  have h : ∀ x y : List ℚ, -1 ≤ (if x.sum ≤ y.sum then (1 : ℚ) else -1) ∧
      (if x.sum ≤ y.sum then (1 : ℚ) else -1) ≤ 1 := by
    intro x y
    split <;> norm_num
  ⟨h, unit_diagonal_estimators_bounded _ _ _ ⟨2, 3, [1, 2, 3, 4, 5, 6]⟩ h h h⟩

/-- C3: for every data matrix and every pair of column indices `i < j`, the assembled matrix
holds the statistic of (column `i`, column `j`), lower index first, at both `(i,j)` and `(j,i)`;
the diagonal holds the diagonal rule: `1` for `corSpearman`, `corKendall` and `corQuadrant`, the
square of the scale `MAD_cpp(data)(i)` for `covGK` and `covSpearmanU`. -/
theorem pairwise_estimators_entries
    (corSpearmanVec corKendallVec corQuadrantVec covGKvec : List α → List α → α)
    (MAD_cpp : Mat α → List α) (data : Mat α) :
    Returns (corSpearman corSpearmanVec data)
      (AssembledFrom data.n_cols (fun i j => corSpearmanVec (data.col i) (data.col j))
        fun _ => 1) ∧
    Returns (corKendall corKendallVec data)
      (AssembledFrom data.n_cols (fun i j => corKendallVec (data.col i) (data.col j))
        fun _ => 1) ∧
    Returns (corQuadrant corQuadrantVec data)
      (AssembledFrom data.n_cols (fun i j => corQuadrantVec (data.col i) (data.col j))
        fun _ => 1) ∧
    Returns (covGK covGKvec MAD_cpp data)
      (AssembledFrom data.n_cols (fun i j => covGKvec (data.col i) (data.col j))
        fun i => (MAD_cpp data).getD i 0 * (MAD_cpp data).getD i 0) ∧
    Returns (covSpearmanU corSpearmanVec MAD_cpp data)
      (AssembledFrom data.n_cols
        (fun i j => corSpearmanVec (data.col i) (data.col j) * (MAD_cpp data).getD i 0 *
          (MAD_cpp data).getD j 0)
        fun i => (MAD_cpp data).getD i 0 * (MAD_cpp data).getD i 0) :=
  ⟨⟨_, rfl, assembled_assembledFrom _ _ _⟩, ⟨_, rfl, assembled_assembledFrom _ _ _⟩,
    ⟨_, rfl, assembled_assembledFrom _ _ _⟩, ⟨_, rfl, assembled_assembledFrom _ _ _⟩,
    ⟨_, rfl, assembled_assembledFrom _ _ _⟩⟩

/-- C4, as stated, fails: on a data matrix with one row and one column (`n < 2` and `p < 2`)
`corSpearman` does not fail with a `DimensionError`; it returns the `1 × 1` matrix `(1)`. -/
theorem corSpearman_no_dimension_error_counterexample :
    (⟨1, 1, [5]⟩ : Mat ℚ).n_rows < 2 ∧ (⟨1, 1, [5]⟩ : Mat ℚ).n_cols < 2 ∧
    corSpearman (fun x y => x.sum - y.sum) (⟨1, 1, [5]⟩ : Mat ℚ) ≠ .error .DimensionError ∧
    corSpearman (fun x y => x.sum - y.sum) (⟨1, 1, [5]⟩ : Mat ℚ) = .ok ⟨1, 1, [1]⟩ := by
  decide!

/-- C4, amended: the pairwise estimators make no check of the dimensions.  For every data matrix,
whatever its numbers of rows and columns (fewer than 2 included), each of them returns normally
a well-formed `p × p` matrix, `p` the number of columns of the data. -/
theorem pairwise_estimators_no_dimension_check
    (corSpearmanVec corKendallVec corQuadrantVec covGKvec : List α → List α → α)
    (MAD_cpp : Mat α → List α) (data : Mat α) :
    Returns (corSpearman corSpearmanVec data)
      (fun M => M.n_rows = data.n_cols ∧ M.n_cols = data.n_cols ∧ M.WF) ∧
    Returns (corKendall corKendallVec data)
      (fun M => M.n_rows = data.n_cols ∧ M.n_cols = data.n_cols ∧ M.WF) ∧
    Returns (corQuadrant corQuadrantVec data)
      (fun M => M.n_rows = data.n_cols ∧ M.n_cols = data.n_cols ∧ M.WF) ∧
    Returns (covGK covGKvec MAD_cpp data)
      (fun M => M.n_rows = data.n_cols ∧ M.n_cols = data.n_cols ∧ M.WF) ∧
    Returns (covSpearmanU corSpearmanVec MAD_cpp data)
      (fun M => M.n_rows = data.n_cols ∧ M.n_cols = data.n_cols ∧ M.WF) :=
  ⟨⟨_, rfl, assembled_shape _ _ _⟩, ⟨_, rfl, assembled_shape _ _ _⟩,
    ⟨_, rfl, assembled_shape _ _ _⟩, ⟨_, rfl, assembled_shape _ _ _⟩,
    ⟨_, rfl, assembled_shape _ _ _⟩⟩

end EstimatorClaims

end RobustCov

namespace RobustCov

/-! ## The operations of `NPD_proj.cpp` -/

section Operations

variable {α : Type} [LinearOrderedField α]

theorem Terminates.bind {β γ : Type} {x : Except ArmaError β} {f : β → Except ArmaError γ}
    (hx : Terminates x) (hf : ∀ a, Terminates (f a)) : Terminates (x >>= f) := by
  cases x with
  | error e =>
    have h : (Except.error e >>= f) = Except.error e := rfl
    rw [h]
    intro he
    apply hx
    cases he
    rfl
  | ok a =>
    have h : (Except.ok a >>= f) = f a := rfl
    rw [h]; exact hf a

theorem Terminates.ok {β : Type} (a : β) : Terminates (Except.ok a : Except ArmaError β) := by
  simp [Terminates]

theorem Mat.sub_terminates (A B : Mat α) : Terminates (A.sub B) := by
  unfold Mat.sub Terminates; split <;> simp

theorem Mat.mul_terminates (A B : Mat α) : Terminates (A.mul B) := by
  unfold Mat.mul Terminates; split <;> simp

theorem Mat.cols_terminates (A : Mat α) (p : List Nat) : Terminates (A.cols p) := by
  unfold Mat.cols Terminates; split <;> simp

theorem elem_terminates (mem : List α) (idx : List Nat) : Terminates (elem mem idx) := by
  unfold elem Terminates; split <;> simp

theorem elemFill_terminates (X : Mat α) (idx : List Nat) (v : α) :
    Terminates (elemFill X idx v) := by
  unfold elemFill Terminates; split <;> simp

theorem mean_terminates (v : List α) : Terminates (mean v) := by
  unfold mean Terminates; split <;> simp

theorem vecMin_terminates (v : List α) : Terminates (vecMin v) := by
  unfold vecMin Terminates; split <;> simp

theorem vecAt_terminates (v : List α) (k : Int) : Terminates (vecAt v k) := by
  unfold vecAt Terminates
  split
  · split <;> simp
  · simp

theorem foldlM_terminates {β γ : Type} (f : β → γ → Except ArmaError β)
    (hf : ∀ b c, Terminates (f b c)) : ∀ (l : List γ) (b : β), Terminates (l.foldlM f b) := by
  intro l
  induction l with
  | nil => intro b; exact Terminates.ok b
  | cons c l ih =>
    intro b
    rw [List.foldlM_cons]
    exact Terminates.bind (hf b c) fun a => ih a

theorem ProjPattern_terminates (X X0 : Mat α) (un : List α) :
    Terminates (ProjPattern X X0 un) := by
  unfold ProjPattern
  refine Terminates.bind (foldlM_terminates _ ?_ un X) fun a => elemFill_terminates _ _ _
  intro b c
  unfold ProjPatternStep
  exact Terminates.bind (elem_terminates _ _) fun _ =>
    Terminates.bind (mean_terminates _) fun _ => elemFill_terminates _ _ _

theorem ProjPSD_terminates (eig_sym : Mat α → List α × Mat α) (R : Mat α) (n : Int)
    (eigenTol : α) : Terminates (ProjPSD eig_sym R n eigenTol) := by
  unfold ProjPSD
  exact Terminates.bind (vecAt_terminates _ _) fun _ =>
    Terminates.bind (Mat.cols_terminates _ _) fun _ =>
    Terminates.bind (elem_terminates _ _) fun _ =>
    Terminates.bind (Mat.mul_terminates _ _) fun _ => Mat.mul_terminates _ _

theorem nearPPSDBody_terminates (eig_sym : Mat α → List α × Mat α) (norm : Mat α → α)
    (X0 : Mat α) (un : List α) (n : Int) (eigenTol convTol : α) (Y DS : Mat α) (iter : Int) :
    Terminates (nearPPSDBody eig_sym norm X0 un n eigenTol convTol Y DS iter) := by
  unfold nearPPSDBody
  exact Terminates.bind (Mat.sub_terminates _ _) fun _ =>
    Terminates.bind (ProjPSD_terminates _ _ _ _) fun _ =>
    Terminates.bind (ProjPattern_terminates _ _ _) fun _ =>
    Terminates.bind (Mat.sub_terminates _ _) fun _ =>
    Terminates.bind (Mat.sub_terminates _ _) fun _ => Terminates.ok _

theorem nearPPSDCond_terminates (eig_sym : Mat α → List α × Mat α) (maxit : Int)
    (s : NPDState α) : Terminates (nearPPSDCond eig_sym maxit s) := by
  unfold nearPPSDCond
  split
  · split
    · exact Terminates.ok _
    · exact Terminates.bind (vecMin_terminates _) fun _ => Terminates.ok _
  · exact Terminates.ok _

end Operations

end RobustCov

namespace RobustCov

/-! ## The loop of `nearPPSD` -/

section Loop

variable {α : Type} [LinearOrderedField α]

theorem bind_eq_ok {β γ : Type} {x : Except ArmaError β} {f : β → Except ArmaError γ} {c : γ}
    (h : (x >>= f) = .ok c) : ∃ a, x = .ok a ∧ f a = .ok c := by
  cases x with
  | error e => cases h
  | ok a => exact ⟨a, rfl, h⟩

/-- What one successful execution of the loop body has computed. -/
theorem nearPPSDBody_inv {eig_sym : Mat α → List α × Mat α} {norm : Mat α → α}
    {X0 : Mat α} {un : List α} {n : Int} {eigenTol convTol : α} {Y DS : Mat α} {iter : Int}
    {s : NPDState α}
    (h : nearPPSDBody eig_sym norm X0 un n eigenTol convTol Y DS iter = .ok s) :
    ∃ R X Y1 DS1 D, Y.sub DS = .ok R ∧ ProjPSD eig_sym R n eigenTol = .ok X ∧
      ProjPattern X X0 un = .ok Y1 ∧ X.sub R = .ok DS1 ∧ Y1.sub X = .ok D ∧
      s = ⟨X, Y1, DS1, R, iter + 1, ratioLe (norm D) (norm Y1) convTol⟩ := by
  unfold nearPPSDBody at h
  obtain ⟨R, hR, h⟩ := bind_eq_ok h
  obtain ⟨X, hX, h⟩ := bind_eq_ok h
  obtain ⟨Y1, hY, h⟩ := bind_eq_ok h
  obtain ⟨DS1, hDS, h⟩ := bind_eq_ok h
  obtain ⟨D, hD, h⟩ := bind_eq_ok h
  refine ⟨R, X, Y1, DS1, D, hR, hX, hY, hDS, hD, ?_⟩
  cases h
  rfl

theorem nearPPSDBody_iter {eig_sym : Mat α → List α × Mat α} {norm : Mat α → α}
    {X0 : Mat α} {un : List α} {n : Int} {eigenTol convTol : α} {Y DS : Mat α} {iter : Int}
    {s : NPDState α}
    (h : nearPPSDBody eig_sym norm X0 un n eigenTol convTol Y DS iter = .ok s) :
    s.iter = iter + 1 := by
  obtain ⟨R, X, Y1, DS1, D, _, _, _, _, _, hs⟩ := nearPPSDBody_inv h
  rw [hs]

theorem nearPPSDCond_true {eig_sym : Mat α → List α × Mat α} {maxit : Int} {s : NPDState α}
    (h : nearPPSDCond eig_sym maxit s = .ok true) : s.iter < maxit := by
  unfold nearPPSDCond at h
  by_cases hlt : s.iter < maxit
  · exact hlt
  · rw [if_neg hlt] at h
    cases h

/-- When the loop condition is false below the cap, the convergence test has passed and the
smallest eigenvalue of `X` has been computed and is not negative. -/
theorem nearPPSDCond_false {eig_sym : Mat α → List α × Mat α} {maxit : Int} {s : NPDState α}
    (h : nearPPSDCond eig_sym maxit s = .ok false) (hlt : s.iter < maxit) :
    s.converged = true ∧ ∃ lam, vecMin (eig_sym s.X).1 = .ok lam ∧ 0 ≤ lam := by
  unfold nearPPSDCond at h
  rw [if_pos hlt] at h
  cases hc : s.converged with
  | false => rw [hc] at h; cases h
  | true =>
    rw [hc] at h
    obtain ⟨lam, hlam, h2⟩ := bind_eq_ok h
    refine ⟨rfl, lam, hlam, ?_⟩
    have h3 : decide (lam < 0) = false := Except.ok.inj h2
    exact not_lt.mp (of_decide_eq_false h3)

theorem nearPPSDLoop_body_error {eig_sym : Mat α → List α × Mat α} {norm : Mat α → α}
    {X0 : Mat α} {un : List α} {n : Int} {eigenTol convTol : α} {maxit : Int} {fuel : Nat}
    {Y DS : Mat α} {iter : Int} {e : ArmaError}
    (hb : nearPPSDBody eig_sym norm X0 un n eigenTol convTol Y DS iter = .error e) :
    nearPPSDLoop eig_sym norm X0 un n eigenTol convTol maxit fuel Y DS iter = .error e := by
  unfold nearPPSDLoop
  simp only [hb, bind, Except.bind]

theorem nearPPSDLoop_cond_error {eig_sym : Mat α → List α × Mat α} {norm : Mat α → α}
    {X0 : Mat α} {un : List α} {n : Int} {eigenTol convTol : α} {maxit : Int} {fuel : Nat}
    {Y DS : Mat α} {iter : Int} {s1 : NPDState α} {e : ArmaError}
    (hb : nearPPSDBody eig_sym norm X0 un n eigenTol convTol Y DS iter = .ok s1)
    (hc : nearPPSDCond eig_sym maxit s1 = .error e) :
    nearPPSDLoop eig_sym norm X0 un n eigenTol convTol maxit fuel Y DS iter = .error e := by
  unfold nearPPSDLoop
  simp only [hb, hc, bind, Except.bind]

theorem nearPPSDLoop_exit {eig_sym : Mat α → List α × Mat α} {norm : Mat α → α}
    {X0 : Mat α} {un : List α} {n : Int} {eigenTol convTol : α} {maxit : Int} {fuel : Nat}
    {Y DS : Mat α} {iter : Int} {s1 : NPDState α}
    (hb : nearPPSDBody eig_sym norm X0 un n eigenTol convTol Y DS iter = .ok s1)
    (hc : nearPPSDCond eig_sym maxit s1 = .ok false) :
    nearPPSDLoop eig_sym norm X0 un n eigenTol convTol maxit fuel Y DS iter = .ok s1 := by
  unfold nearPPSDLoop
  simp only [hb, hc, bind, Except.bind]
  rfl

theorem nearPPSDLoop_again {eig_sym : Mat α → List α × Mat α} {norm : Mat α → α}
    {X0 : Mat α} {un : List α} {n : Int} {eigenTol convTol : α} {maxit : Int} {fuel : Nat}
    {Y DS : Mat α} {iter : Int} {s1 : NPDState α}
    (hb : nearPPSDBody eig_sym norm X0 un n eigenTol convTol Y DS iter = .ok s1)
    (hc : nearPPSDCond eig_sym maxit s1 = .ok true) :
    nearPPSDLoop eig_sym norm X0 un n eigenTol convTol maxit (fuel + 1) Y DS iter =
      nearPPSDLoop eig_sym norm X0 un n eigenTol convTol maxit fuel s1.Y s1.DS s1.iter := by
  conv_lhs => unfold nearPPSDLoop
  simp only [hb, hc, bind, Except.bind]
  rfl

/-- The loop, started with `iter` rounds done and fuel for the rounds that remain below the cap,
does not run out of fuel; when it exits normally, at least one more round has been done, the
count does not exceed `max maxit (iter + 1)`, and the loop condition is false. -/
theorem nearPPSDLoop_spec (eig_sym : Mat α → List α × Mat α) (norm : Mat α → α)
    (X0 : Mat α) (un : List α) (n : Int) (eigenTol convTol : α) (maxit : Int) :
    ∀ (fuel : Nat) (Y DS : Mat α) (iter : Int), (maxit - 1 - iter).toNat ≤ fuel →
      Terminates (nearPPSDLoop eig_sym norm X0 un n eigenTol convTol maxit fuel Y DS iter) ∧
      ∀ s, nearPPSDLoop eig_sym norm X0 un n eigenTol convTol maxit fuel Y DS iter = .ok s →
        iter + 1 ≤ s.iter ∧ s.iter ≤ max maxit (iter + 1) ∧
        nearPPSDCond eig_sym maxit s = .ok false := by
  intro fuel
  induction fuel with
  | zero =>
    intro Y DS iter hfuel
    rcases hb : nearPPSDBody eig_sym norm X0 un n eigenTol convTol Y DS iter with e | s1
    · have ht := nearPPSDBody_terminates eig_sym norm X0 un n eigenTol convTol Y DS iter
      rw [hb] at ht
      rw [nearPPSDLoop_body_error hb]
      exact ⟨ht, fun s h => by cases h⟩
    · have hi := nearPPSDBody_iter hb
      rcases hc : nearPPSDCond eig_sym maxit s1 with e | b
      · have ht := nearPPSDCond_terminates eig_sym maxit s1
        rw [hc] at ht
        rw [nearPPSDLoop_cond_error hb hc]
        exact ⟨fun h => ht (by cases h; rfl), fun s h => by cases h⟩
      · cases b with
        | true =>
          have := nearPPSDCond_true hc
          omega
        | false =>
          rw [nearPPSDLoop_exit hb hc]
          refine ⟨Terminates.ok s1, ?_⟩
          intro s h
          cases h
          refine ⟨by omega, ?_, hc⟩
          rw [hi]; exact le_max_right _ _
  | succ fuel ih =>
    intro Y DS iter hfuel
    rcases hb : nearPPSDBody eig_sym norm X0 un n eigenTol convTol Y DS iter with e | s1
    · have ht := nearPPSDBody_terminates eig_sym norm X0 un n eigenTol convTol Y DS iter
      rw [hb] at ht
      rw [nearPPSDLoop_body_error hb]
      exact ⟨ht, fun s h => by cases h⟩
    · have hi := nearPPSDBody_iter hb
      rcases hc : nearPPSDCond eig_sym maxit s1 with e | b
      · have ht := nearPPSDCond_terminates eig_sym maxit s1
        rw [hc] at ht
        rw [nearPPSDLoop_cond_error hb hc]
        exact ⟨fun h => ht (by cases h; rfl), fun s h => by cases h⟩
      · cases b with
        | true =>
          have hlt := nearPPSDCond_true hc
          rw [nearPPSDLoop_again hb hc]
          obtain ⟨h1, h2⟩ := ih s1.Y s1.DS s1.iter (by omega)
          refine ⟨h1, ?_⟩
          intro s h
          obtain ⟨g1, g2, g3⟩ := h2 s h
          refine ⟨by omega, ?_, g3⟩
          have : max maxit (s1.iter + 1) = maxit := max_eq_left (by omega)
          rw [this] at g2
          exact le_trans g2 (le_max_left _ _)
        | false =>
          rw [nearPPSDLoop_exit hb hc]
          refine ⟨Terminates.ok s1, ?_⟩
          intro s h
          cases h
          refine ⟨by omega, ?_, hc⟩
          rw [hi]; exact le_max_right _ _

end Loop

end RobustCov

namespace RobustCov

/-! ## Claims on the loop of `nearPPSD` -/

section LoopClaims

variable {α : Type} [LinearOrderedField α]

theorem nearPPSDRun_spec (eig_sym : Mat α → List α × Mat α) (norm : Mat α → α) (X : Mat α)
    (eigenTol convTol psdTol : α) (maxit : Int) :
    Terminates (nearPPSDRun eig_sym norm X eigenTol convTol psdTol maxit) ∧
    ∀ s, nearPPSDRun eig_sym norm X eigenTol convTol psdTol maxit = .ok s →
      1 ≤ s.iter ∧ s.iter ≤ max maxit 1 ∧ nearPPSDCond eig_sym maxit s = .ok false := by
  have h := nearPPSDLoop_spec eig_sym norm X (unique X) (X.n_cols : Int) eigenTol convTol maxit
    (maxit - 1).toNat X (Mat.zeros X.n_cols X.n_cols) 0 (by simp)
  simpa [nearPPSDRun] using h

theorem nearPPSD_inv {eig_sym : Mat α → List α × Mat α} {norm : Mat α → α} {X : Mat α}
    {eigenTol convTol psdTol : α} {maxit : Int} {r : Mat α × Option Int}
    (h : nearPPSD eig_sym norm X eigenTol convTol psdTol maxit = .ok r) :
    ∃ s, nearPPSDRun eig_sym norm X eigenTol convTol psdTol maxit = .ok s ∧
      r = (s.X, if !s.converged then some s.iter else none) := by
  unfold nearPPSD at h
  obtain ⟨s, hs, h2⟩ := bind_eq_ok h
  exact ⟨s, hs, (Except.ok.inj h2).symm⟩

/-- C6, as stated, fails for `maxit ≤ 0`: with `maxit = 0` the `do … while` loop still runs its
body once, and the iteration count it reaches is `1 > maxit`. -/
theorem nearPPSD_iter_exceeds_maxit_counterexample :
    nearPPSDRun eig_sym_1x1 norm_1x1 ⟨1, 1, [1]⟩ (1 / 1000000) (1 / 10000000) (1 / 100000000) 0 =
      .ok ⟨⟨1, 1, [1]⟩, ⟨1, 1, [1]⟩, ⟨1, 1, [0]⟩, ⟨1, 1, [1]⟩, 1, true⟩ ∧
    ¬ ((1 : Int) ≤ 0) := by
  decide!

/-- C6, amended: for every input matrix and every value of `maxit`, the loop of `nearPPSD`
terminates, and the iteration count it reaches is at least `1` and at most `max maxit 1`; so it
never exceeds `maxit` when `maxit ≥ 1`.  The count printed by the non-convergence warning obeys
the same bound. -/
theorem nearPPSD_terminates_iter_bound (eig_sym : Mat α → List α × Mat α) (norm : Mat α → α)
    (X : Mat α) (eigenTol convTol psdTol : α) (maxit : Int) :
    Terminates (nearPPSDRun eig_sym norm X eigenTol convTol psdTol maxit) ∧
    (∀ s, nearPPSDRun eig_sym norm X eigenTol convTol psdTol maxit = .ok s →
      1 ≤ s.iter ∧ s.iter ≤ max maxit 1 ∧ (1 ≤ maxit → s.iter ≤ maxit)) ∧
    ∀ M k, nearPPSD eig_sym norm X eigenTol convTol psdTol maxit = .ok (M, some k) →
      1 ≤ k ∧ k ≤ max maxit 1 := by
  obtain ⟨h1, h2⟩ := nearPPSDRun_spec eig_sym norm X eigenTol convTol psdTol maxit
  refine ⟨h1, ?_, ?_⟩
  · intro s hs
    obtain ⟨g1, g2, _⟩ := h2 s hs
    refine ⟨g1, g2, ?_⟩
    intro hm
    rwa [max_eq_left hm] at g2
  · intro M k hr
    obtain ⟨s, hs, hr2⟩ := nearPPSD_inv hr
    obtain ⟨g1, g2, _⟩ := h2 s hs
    have hk : (if !s.converged then some s.iter else none) = some k :=
      (congrArg Prod.snd hr2).symm
    cases hc : s.converged with
    | true => rw [hc] at hk; cases hk
    | false =>
      rw [hc] at hk
      have : s.iter = k := Option.some.inj hk
      rw [← this]
      exact ⟨g1, g2⟩

/-- An exit of the loop below the iteration cap (`iter < maxit`) happens only with the converged
flag true and the smallest eigenvalue of `X`, as `eig_sym` computes it, not negative; for
`psdTol ≥ 0` that eigenvalue is then `≥ -psdTol`. -/
theorem nearPPSD_exit_below_cap_psd (eig_sym : Mat α → List α × Mat α) (norm : Mat α → α)
    (X : Mat α) (eigenTol convTol psdTol : α) (maxit : Int) (s : NPDState α)
    (hpsd : 0 ≤ psdTol)
    (hrun : nearPPSDRun eig_sym norm X eigenTol convTol psdTol maxit = .ok s)
    (hlt : s.iter < maxit) :
    s.converged = true ∧
    ∃ lam, vecMin (eig_sym s.X).1 = .ok lam ∧ 0 ≤ lam ∧ -psdTol ≤ lam := by
  obtain ⟨_, h2⟩ := nearPPSDRun_spec eig_sym norm X eigenTol convTol psdTol maxit
  obtain ⟨_, _, hc⟩ := h2 s hrun
  obtain ⟨g1, lam, g2, g3⟩ := nearPPSDCond_false hc hlt
  exact ⟨g1, lam, g2, g3, le_trans (neg_nonpos.mpr hpsd) g3⟩

/-- C7 at a failing input: for the `1 × 1` matrix `(-1)` with `eigenTol = 2`, the default
`convTol = 1e-7` and `psdTol = 1e-8`, and `maxit = 5`, every iteration gives `X = Y = (-1)`; the
loop ends at the cap (`iter = 5`) with the converged flag true, `nearPPSD` returns `(-1)` without
the warning, and the smallest eigenvalue of the returned matrix is `-1`, which is not
`≥ -psdTol`. -/
theorem nearPPSD_converged_negative_eigenvalue :
    nearPPSDRun eig_sym_1x1 norm_1x1 ⟨1, 1, [-1]⟩ 2 (1 / 10000000) (1 / 100000000) 5 =
      .ok ⟨⟨1, 1, [-1]⟩, ⟨1, 1, [-1]⟩, ⟨1, 1, [0]⟩, ⟨1, 1, [-1]⟩, 5, true⟩ ∧
    nearPPSD eig_sym_1x1 norm_1x1 ⟨1, 1, [-1]⟩ 2 (1 / 10000000) (1 / 100000000) 5 =
      .ok (⟨1, 1, [-1]⟩, none) ∧
    vecMin (eig_sym_1x1 ⟨1, 1, [-1]⟩).1 = .ok (-1) ∧ ¬ (-(1 / 100000000 : ℚ) ≤ -1) := by
  decide!

/-- C9 at the failing input: for the `1 × 1` matrix `(-1)` with `eigenTol = 2` and `maxit = 3`
the loop ends at the cap with the smallest eigenvalue of `X` equal to `-1 < 0` (the second
stopping condition does not hold), the converged flag is true, and `nearPPSD` returns `(-1)`
without the warning. -/
theorem nearPPSD_negative_eigenvalue_no_warning :
    nearPPSDRun eig_sym_1x1 norm_1x1 ⟨1, 1, [-1]⟩ 2 (1 / 10000000) (1 / 100000000) 3 =
      .ok ⟨⟨1, 1, [-1]⟩, ⟨1, 1, [-1]⟩, ⟨1, 1, [0]⟩, ⟨1, 1, [-1]⟩, 3, true⟩ ∧
    vecMin (eig_sym_1x1 ⟨1, 1, [-1]⟩).1 = .ok (-1) ∧ (-1 : ℚ) < 0 ∧
    nearPPSD eig_sym_1x1 norm_1x1 ⟨1, 1, [-1]⟩ 2 (1 / 10000000) (1 / 100000000) 3 =
      .ok (⟨1, 1, [-1]⟩, none) := by
  decide!

end LoopClaims

end RobustCov

namespace RobustCov

/-! ## `ProjPattern` -/

section Pattern

variable {α : Type} [LinearOrderedField α]

theorem mem_find {b : List Bool} {k : Nat} : k ∈ find b ↔ b[k]? = some true := by
  unfold find
  rw [List.mem_filter, List.mem_range]
  constructor
  · rintro ⟨hk, hb⟩
    rw [List.getD_eq_getElem _ _ hk] at hb
    rw [List.getElem?_eq_getElem hk, hb]
  · intro h
    have hk : k < b.length := by
      by_contra hn
      rw [List.getElem?_eq_none (by omega)] at h
      cases h
    refine ⟨hk, ?_⟩
    rw [List.getElem?_eq_getElem hk] at h
    rw [List.getD_eq_getElem _ _ hk]
    exact Option.some.inj h

/-- The positions found by `find(X0 == u)` are exactly those where the memory holds `u`. -/
theorem mem_find_eq {l : List α} {u : α} {k : Nat} :
    k ∈ find (l.map fun t => decide (t = u)) ↔ l[k]? = some u := by
  rw [mem_find, List.getElem?_map]
  cases h : l[k]? with
  | none => simp
  | some x => simp

theorem find_eq_lt {l : List α} {u : α} {k : Nat}
    (h : k ∈ find (l.map fun t => decide (t = u))) : k < l.length := by
  rw [mem_find_eq] at h
  by_contra hn
  rw [List.getElem?_eq_none (by omega)] at h
  cases h

theorem foldl_set_length (v : α) : ∀ (idx : List Nat) (mem : List α),
    (idx.foldl (fun m j => m.set j v) mem).length = mem.length := by
  intro idx
  induction idx with
  | nil => intro mem; rfl
  | cons j idx ih => intro mem; rw [List.foldl_cons, ih, List.length_set]

theorem foldl_set_getElem? (v : α) : ∀ (idx : List Nat) (mem : List α) (k : Nat),
    k < mem.length →
    (idx.foldl (fun m j => m.set j v) mem)[k]? = if k ∈ idx then some v else mem[k]? := by
  intro idx
  induction idx with
  | nil => intro mem k _; simp
  | cons j idx ih =>
    intro mem k hk
    rw [List.foldl_cons, ih (mem.set j v) k (by rw [List.length_set]; exact hk)]
    by_cases hki : k ∈ idx
    · simp [hki]
    · by_cases hkj : k = j
      · subst hkj
        simp [hki, List.getElem?_set_self hk]
      · have hjk : j ≠ k := fun h => hkj h.symm
        simp [hki, hkj, List.getElem?_set_ne hjk]

theorem foldl_set_self (v : α) : ∀ (idx : List Nat) (mem : List α),
    (∀ k ∈ idx, mem[k]? = some v) → idx.foldl (fun m j => m.set j v) mem = mem := by
  intro idx
  induction idx with
  | nil => intro mem _; rfl
  | cons j idx ih =>
    intro mem h
    have hj : mem[j]? = some v := h j (List.mem_cons_self _ _)
    have hset : mem.set j v = mem := by
      apply List.ext_getElem?
      intro i
      by_cases hij : j = i
      · subst hij
        have hlt : j < mem.length := by
          by_contra hn
          rw [List.getElem?_eq_none (by omega)] at hj
          cases hj
        rw [List.getElem?_set_self hlt, hj]
      · rw [List.getElem?_set_ne hij]
    rw [List.foldl_cons, hset]
    exact ih mem fun k hk => h k (List.mem_cons_of_mem _ hk)

/-- What a successful `X.elem(idx).fill(v)` has done. -/
theorem elemFill_inv {X Y : Mat α} {idx : List Nat} {v : α} (h : elemFill X idx v = .ok Y) :
    (∀ k ∈ idx, k < X.mem.length) ∧ Y.n_rows = X.n_rows ∧ Y.n_cols = X.n_cols ∧
    Y.mem.length = X.mem.length ∧
    ∀ k, Y.mem[k]? = if k ∈ idx then some v else X.mem[k]? := by
  unfold elemFill at h
  by_cases hall : idx.all (fun k => decide (k < X.mem.length)) = true
  · rw [if_pos hall] at h
    have hY := Except.ok.inj h
    have hlt : ∀ k ∈ idx, k < X.mem.length := by
      intro k hk
      have := List.all_eq_true.mp hall k hk
      exact of_decide_eq_true this
    subst hY
    refine ⟨hlt, rfl, rfl, foldl_set_length v idx X.mem, ?_⟩
    intro k
    by_cases hk : k < X.mem.length
    · exact foldl_set_getElem? v idx X.mem k hk
    · have hki : k ∉ idx := fun hmem => hk (hlt k hmem)
      have h1 : (idx.foldl (fun m j => m.set j v) X.mem)[k]? = none :=
        List.getElem?_eq_none (by rw [foldl_set_length]; omega)
      have h2 : X.mem[k]? = none := List.getElem?_eq_none (by omega)
      rw [if_neg hki, h2]
      exact h1
  · rw [if_neg hall] at h
    cases h

theorem elemFill_ok {X : Mat α} {idx : List Nat} (v : α) (h : ∀ k ∈ idx, k < X.mem.length) :
    ∃ Y, elemFill X idx v = .ok Y := by
  unfold elemFill
  have hall : idx.all (fun k => decide (k < X.mem.length)) = true :=
    List.all_eq_true.mpr fun k hk => decide_eq_true (h k hk)
  rw [if_pos hall]
  exact ⟨_, rfl⟩

theorem elem_ok {mem : List α} {idx : List Nat} (h : ∀ k ∈ idx, k < mem.length) :
    elem mem idx = .ok (idx.map fun k => mem.getD k 0) := by
  unfold elem
  have hall : idx.all (fun k => decide (k < mem.length)) = true :=
    List.all_eq_true.mpr fun k hk => decide_eq_true (h k hk)
  rw [if_pos hall]

theorem elem_inv {mem sub : List α} {idx : List Nat} (h : elem mem idx = .ok sub) :
    sub = idx.map fun k => mem.getD k 0 := by
  unfold elem at h
  split at h
  · exact (Except.ok.inj h).symm
  · cases h

theorem ProjPatternStep_inv {X0 X X1 : Mat α} {u : α} (h : ProjPatternStep X0 X u = .ok X1) :
    X1.n_rows = X.n_rows ∧ X1.n_cols = X.n_cols ∧ X1.mem.length = X.mem.length := by
  unfold ProjPatternStep at h
  obtain ⟨sub, _, h⟩ := bind_eq_ok h
  obtain ⟨m, _, h⟩ := bind_eq_ok h
  obtain ⟨_, h1, h2, h3, _⟩ := elemFill_inv h
  exact ⟨h1, h2, h3⟩

theorem foldlM_ProjPatternStep_inv (X0 : Mat α) : ∀ (un : List α) (X X1 : Mat α),
    un.foldlM (ProjPatternStep X0) X = .ok X1 →
    X1.n_rows = X.n_rows ∧ X1.n_cols = X.n_cols ∧ X1.mem.length = X.mem.length := by
  intro un
  induction un with
  | nil =>
    intro X X1 h
    cases h
    exact ⟨rfl, rfl, rfl⟩
  | cons u un ih =>
    intro X X1 h
    rw [List.foldlM_cons] at h
    obtain ⟨X2, h1, h2⟩ := bind_eq_ok h
    obtain ⟨a1, a2, a3⟩ := ProjPatternStep_inv h1
    obtain ⟨b1, b2, b3⟩ := ih X2 X1 h2
    exact ⟨b1.trans a1, b2.trans a2, b3.trans a3⟩

/-- A successful `ProjPattern` keeps the shape of `X`, and its result is exactly `0` at every
position of its memory where the template `X0` is `0`. -/
theorem ProjPattern_inv {X X0 Y : Mat α} {un : List α} (h : ProjPattern X X0 un = .ok Y) :
    Y.n_rows = X.n_rows ∧ Y.n_cols = X.n_cols ∧ Y.mem.length = X.mem.length ∧
    ∀ k : Nat, X0.mem[k]? = some 0 → Y.mem[k]? = some 0 := by
  unfold ProjPattern at h
  obtain ⟨X1, h1, h2⟩ := bind_eq_ok h
  obtain ⟨a1, a2, a3⟩ := foldlM_ProjPatternStep_inv X0 un X X1 h1
  obtain ⟨_, b1, b2, b3, b4⟩ := elemFill_inv h2
  refine ⟨b1.trans a1, b2.trans a2, b3.trans a3, ?_⟩
  intro k hk
  rw [b4 k, if_pos (mem_find_eq.mpr hk)]

theorem mean_ok {v : List α} (h : v ≠ []) : mean v = .ok (v.sum / (v.length : α)) := by
  unfold mean
  cases v with
  | nil => exact absurd rfl h
  | cons x xs => rfl

theorem ProjPatternStep_ok {X0 X : Mat α} {u : α} (hlen : X.mem.length = X0.mem.length)
    (hu : u ∈ X0.mem) : ∃ X1, ProjPatternStep X0 X u = .ok X1 := by
  have hidx : ∀ k ∈ find (X0.mem.map fun t => decide (t = u)), k < X.mem.length := by
    intro k hk
    rw [hlen]
    exact find_eq_lt hk
  obtain ⟨k, hk⟩ : ∃ k, X0.mem[k]? = some u := List.mem_iff_getElem?.mp hu
  have hkm : k ∈ find (X0.mem.map fun t => decide (t = u)) := mem_find_eq.mpr hk
  have hne : ((find (X0.mem.map fun t => decide (t = u))).map fun k => X.mem.getD k 0) ≠ [] := by
    intro hnil
    rw [List.map_eq_nil_iff] at hnil
    rw [hnil] at hkm
    cases hkm
  unfold ProjPatternStep
  simp only [elem_ok hidx, mean_ok hne, bind, Except.bind]
  exact elemFill_ok _ hidx

theorem foldlM_ProjPatternStep_ok (X0 : Mat α) : ∀ (un : List α) (X : Mat α),
    X.mem.length = X0.mem.length → (∀ u ∈ un, u ∈ X0.mem) →
    ∃ X1, un.foldlM (ProjPatternStep X0) X = .ok X1 := by
  intro un
  induction un with
  | nil => intro X _ _; exact ⟨X, rfl⟩
  | cons u un ih =>
    intro X hlen hun
    obtain ⟨X2, h2⟩ := ProjPatternStep_ok hlen (hun u (List.mem_cons_self _ _))
    obtain ⟨_, _, a3⟩ := ProjPatternStep_inv h2
    obtain ⟨X1, h1⟩ := ih X2 (a3.trans hlen) fun v hv => hun v (List.mem_cons_of_mem _ hv)
    refine ⟨X1, ?_⟩
    rw [List.foldlM_cons]
    simp only [h2, bind, Except.bind]
    exact h1

/-- `ProjPattern` returns normally when `X` has as many elements as the template and every value
of `un` occurs in the template (so every class is non-empty). -/
theorem ProjPattern_ok {X X0 : Mat α} {un : List α} (hlen : X.mem.length = X0.mem.length)
    (hun : ∀ u ∈ un, u ∈ X0.mem) : ∃ Y, ProjPattern X X0 un = .ok Y := by
  obtain ⟨X1, h1⟩ := foldlM_ProjPatternStep_ok X0 un X hlen hun
  obtain ⟨_, _, a3⟩ := foldlM_ProjPatternStep_inv X0 un X X1 h1
  have hidx : ∀ k ∈ find (X0.mem.map fun t => decide (t = 0)), k < X1.mem.length := by
    intro k hk
    rw [a3, hlen]
    exact find_eq_lt hk
  obtain ⟨Y, hY⟩ := elemFill_ok (0 : α) hidx
  refine ⟨Y, ?_⟩
  unfold ProjPattern
  simp only [h1, bind, Except.bind]
  exact hY

theorem mem_unique {X : Mat α} {u : α} : u ∈ unique X ↔ u ∈ X.mem := by
  unfold unique
  rw [List.mem_dedup]
  exact (List.perm_insertionSort _ _).mem_iff

end Pattern

end RobustCov

namespace RobustCov

/-! ## Claims on the pattern of the result of `nearPPSD` -/

section PatternClaims

variable {α : Type} [LinearOrderedField α]

/-- A normal exit of the loop is the end of an execution of its body. -/
theorem nearPPSDLoop_last (eig_sym : Mat α → List α × Mat α) (norm : Mat α → α)
    (X0 : Mat α) (un : List α) (n : Int) (eigenTol convTol : α) (maxit : Int) :
    ∀ (fuel : Nat) (Y DS : Mat α) (iter : Int) (s : NPDState α),
      nearPPSDLoop eig_sym norm X0 un n eigenTol convTol maxit fuel Y DS iter = .ok s →
      ∃ Y1 DS1 iter1, nearPPSDBody eig_sym norm X0 un n eigenTol convTol Y1 DS1 iter1 = .ok s := by
  intro fuel
  induction fuel with
  | zero =>
    intro Y DS iter s h
    rcases hb : nearPPSDBody eig_sym norm X0 un n eigenTol convTol Y DS iter with e | s1
    · rw [nearPPSDLoop_body_error hb] at h; cases h
    · rcases hc : nearPPSDCond eig_sym maxit s1 with e | b
      · rw [nearPPSDLoop_cond_error hb hc] at h; cases h
      · cases b with
        | true =>
          unfold nearPPSDLoop at h
          simp only [hb, hc, bind, Except.bind] at h
          cases h
        | false =>
          rw [nearPPSDLoop_exit hb hc] at h
          cases h
          exact ⟨Y, DS, iter, hb⟩
  | succ fuel ih =>
    intro Y DS iter s h
    rcases hb : nearPPSDBody eig_sym norm X0 un n eigenTol convTol Y DS iter with e | s1
    · rw [nearPPSDLoop_body_error hb] at h; cases h
    · rcases hc : nearPPSDCond eig_sym maxit s1 with e | b
      · rw [nearPPSDLoop_cond_error hb hc] at h; cases h
      · cases b with
        | true =>
          rw [nearPPSDLoop_again hb hc] at h
          exact ih _ _ _ s h
        | false =>
          rw [nearPPSDLoop_exit hb hc] at h
          cases h
          exact ⟨Y, DS, iter, hb⟩

/-- The first iteration of the loop on the worked example `[[7, 12], [12, 0]]` (eigenvalues
`-9`, `16`), whatever the norm and the convergence tolerance: the eigenpair of `16` is kept, so
`X = [[256/25, 192/25], [192/25, 144/25]]`; the pattern projection averages the two positions
holding `12` and forces the position holding `0` to zero, so
`Y = [[256/25, 192/25], [192/25, 0]]`; the norm enters through the convergence flag only. -/
theorem nearPPSDBody_worked_example (norm : Mat ℚ → ℚ) (convTol : ℚ) :
    nearPPSDBody eig_sym_ex norm ⟨2, 2, [7, 12, 12, 0]⟩ (unique ⟨2, 2, [7, 12, 12, 0]⟩)
      ((2 : Nat) : Int) (1 / 1000000) convTol ⟨2, 2, [7, 12, 12, 0]⟩ (Mat.zeros 2 2) 0 =
    .ok ⟨⟨2, 2, [256 / 25, 192 / 25, 192 / 25, 144 / 25]⟩,
      ⟨2, 2, [256 / 25, 192 / 25, 192 / 25, 0]⟩,
      ⟨2, 2, [81 / 25, -108 / 25, -108 / 25, 144 / 25]⟩,
      ⟨2, 2, [7, 12, 12, 0]⟩, 1,
      ratioLe (norm ⟨2, 2, [0, 0, 0, -144 / 25]⟩)
        (norm ⟨2, 2, [256 / 25, 192 / 25, 192 / 25, 0]⟩) convTol⟩ := by
  have h1 : (⟨2, 2, [7, 12, 12, 0]⟩ : Mat ℚ).sub (Mat.zeros 2 2) = .ok ⟨2, 2, [7, 12, 12, 0]⟩ := by
    decide!
  have h2 : ProjPSD eig_sym_ex ⟨2, 2, [7, 12, 12, 0]⟩ 2 (1 / 1000000) =
      .ok ⟨2, 2, [256 / 25, 192 / 25, 192 / 25, 144 / 25]⟩ := by decide!
  have h3 : ProjPattern (⟨2, 2, [256 / 25, 192 / 25, 192 / 25, 144 / 25]⟩ : Mat ℚ)
      ⟨2, 2, [7, 12, 12, 0]⟩ (unique ⟨2, 2, [7, 12, 12, 0]⟩) =
      .ok ⟨2, 2, [256 / 25, 192 / 25, 192 / 25, 0]⟩ := by decide!
  have h4 : (⟨2, 2, [256 / 25, 192 / 25, 192 / 25, 144 / 25]⟩ : Mat ℚ).sub
      ⟨2, 2, [7, 12, 12, 0]⟩ = .ok ⟨2, 2, [81 / 25, -108 / 25, -108 / 25, 144 / 25]⟩ := by
    decide!
  have h5 : (⟨2, 2, [256 / 25, 192 / 25, 192 / 25, 0]⟩ : Mat ℚ).sub
      ⟨2, 2, [256 / 25, 192 / 25, 192 / 25, 144 / 25]⟩ = .ok ⟨2, 2, [0, 0, 0, -144 / 25]⟩ := by
    decide!
  unfold nearPPSDBody
  simp only [Nat.cast_ofNat, h1, h2, h3, h4, h5, bind, Except.bind, pure, Except.pure]
  rfl

end PatternClaims

end RobustCov

namespace RobustCov

/-! ## Shapes, and the absence of run-time failures -/

section Shapes

variable {α : Type} [LinearOrderedField α]

theorem Mat.sub_ok {A B : Mat α} (hr : A.n_rows = B.n_rows) (hc : A.n_cols = B.n_cols) :
    A.sub B = .ok ⟨A.n_rows, A.n_cols, List.zipWith (· - ·) A.mem B.mem⟩ := by
  unfold Mat.sub
  rw [if_pos ⟨hr, hc⟩]

theorem vecAt_ok {v : List α} {n : Nat} (hn : 1 ≤ n) (hv : v.length = n) :
    ∃ x, vecAt v ((n : Int) - 1) = .ok x := by
  unfold vecAt
  have h0 : (0 : Int) ≤ (n : Int) - 1 := by omega
  have hlt : ((n : Int) - 1).toNat < v.length := by omega
  rw [if_pos h0, List.getElem?_eq_getElem hlt]
  exact ⟨_, rfl⟩

theorem find_lt {b : List Bool} {k : Nat} (h : k ∈ find b) : k < b.length := by
  unfold find at h
  rw [List.mem_filter, List.mem_range] at h
  exact h.1

theorem Mat.cols_ok {A : Mat α} {p : List Nat} (h : ∀ k ∈ p, k < A.n_cols) :
    A.cols p = .ok (Mat.ofFn A.n_rows p.length fun i k => A.get i (p.getD k 0)) := by
  unfold Mat.cols
  have hall : p.all (fun k => decide (k < A.n_cols)) = true :=
    List.all_eq_true.mpr fun k hk => decide_eq_true (h k hk)
  rw [if_pos hall]

theorem Mat.mul_ok {A B : Mat α} (h : A.n_cols = B.n_rows) :
    A.mul B = .ok (Mat.ofFn A.n_rows B.n_cols fun i j =>
      ((List.range A.n_cols).map fun k => A.get i k * B.get k j).sum) := by
  unfold Mat.mul
  rw [if_pos h]

/-- The value of `ProjPSD` when the eigendecomposition has the shape of its contract: `n`
eigenvalues and an eigenvector matrix with `n` columns. -/
theorem ProjPSD_ok (eig_sym : Mat α → List α × Mat α) (R : Mat α) (n : Nat) (eigenTol : α)
    (hn : 1 ≤ n) (hval : (eig_sym R).1.length = n) (hcols : (eig_sym R).2.n_cols = n) :
    ∃ X, ProjPSD eig_sym R (n : Int) eigenTol = .ok X ∧ X.n_rows = (eig_sym R).2.n_rows ∧
      X.n_cols = (eig_sym R).2.n_rows ∧ X.WF := by
  obtain ⟨last, hlast⟩ := vecAt_ok (v := (eig_sym R).1) hn hval
  have hp : ∀ k ∈ find ((eig_sym R).1.map fun l => decide (l > eigenTol * last)),
      k < (eig_sym R).1.length := by
    intro k hk
    have := find_lt hk
    rwa [List.length_map] at this
  have hp2 : ∀ k ∈ find ((eig_sym R).1.map fun l => decide (l > eigenTol * last)),
      k < (eig_sym R).2.n_cols := by
    intro k hk
    rw [hcols, ← hval]
    exact hp k hk
  unfold ProjPSD
  simp only [hlast, Mat.cols_ok hp2, elem_ok hp, bind, Except.bind]
  rw [Mat.mul_ok (by simp [Mat.ofFn, diagmat])]
  simp only []
  rw [Mat.mul_ok (by simp [Mat.ofFn, diagmat, Mat.t])]
  exact ⟨_, rfl, rfl, rfl, Mat.ofFn_WF _ _ _⟩

theorem ratioLe_zero_den {a : α} (c : α) (ha : 0 ≤ a) : ratioLe a 0 c = false := by
  unfold ratioLe
  rw [if_pos rfl]
  exact decide_eq_false (not_lt.mpr ha)

theorem Mat.sub_isSquare {n : Nat} {A B : Mat α} (hA : A.IsSquare n) (hB : B.IsSquare n) :
    ∃ C, A.sub B = .ok C ∧ C.IsSquare n := by
  obtain ⟨a1, a2, a3⟩ := hA
  obtain ⟨b1, b2, b3⟩ := hB
  refine ⟨_, Mat.sub_ok (a1.trans b1.symm) (a2.trans b2.symm), a1, a2, ?_⟩
  unfold Mat.WF at *
  simp only [List.length_zipWith, a3, b3, a1, a2, b1, b2, min_self]

/-- Under the shape contract of `eig_sym`, one execution of the loop body on `n × n` matrices
returns normally, with `n × n` matrices again. -/
theorem nearPPSDBody_ok {eig_sym : Mat α → List α × Mat α} (norm : Mat α → α)
    {X0 : Mat α} {un : List α} {n : Nat} (eigenTol convTol : α) {Y DS : Mat α} (iter : Int)
    (hn : 1 ≤ n) (heig : EigShape eig_sym n) (hX0 : X0.IsSquare n)
    (hun : ∀ u ∈ un, u ∈ X0.mem) (hY : Y.IsSquare n) (hDS : DS.IsSquare n) :
    ∃ s, nearPPSDBody eig_sym norm X0 un (n : Int) eigenTol convTol Y DS iter = .ok s ∧
      s.X.IsSquare n ∧ s.Y.IsSquare n ∧ s.DS.IsSquare n := by
  obtain ⟨R, hR, hRsq⟩ := Mat.sub_isSquare hY hDS
  obtain ⟨e1, e2, e3⟩ := heig R hRsq
  obtain ⟨X, hX, x1, x2, x3⟩ := ProjPSD_ok eig_sym R n eigenTol hn e1 e3
  have hXsq : X.IsSquare n := ⟨x1.trans e2, x2.trans e2, x3⟩
  have hlen : X.mem.length = X0.mem.length := by
    have h1 := hXsq.2.2
    have h2 := hX0.2.2
    unfold Mat.WF at h1 h2
    rw [h1, h2, hXsq.1, hXsq.2.1, hX0.1, hX0.2.1]
  obtain ⟨Y1, hY1⟩ := ProjPattern_ok hlen hun
  obtain ⟨y1, y2, y3, _⟩ := ProjPattern_inv hY1
  have hY1sq : Y1.IsSquare n := by
    refine ⟨y1.trans hXsq.1, y2.trans hXsq.2.1, ?_⟩
    have h1 := hXsq.2.2
    unfold Mat.WF at h1 ⊢
    rw [y3, h1, y1, y2]
  obtain ⟨DS1, hDS1, hDS1sq⟩ := Mat.sub_isSquare hXsq hRsq
  obtain ⟨D, hD, _⟩ := Mat.sub_isSquare hY1sq hXsq
  refine ⟨⟨X, Y1, DS1, R, iter + 1, ratioLe (norm D) (norm Y1) convTol⟩, ?_, hXsq, hY1sq, hDS1sq⟩
  unfold nearPPSDBody
  simp only [hR, hX, hY1, hDS1, hD, bind, Except.bind]
  rfl

theorem vecMin_ok {v : List α} (h : v ≠ []) : ∃ x, vecMin v = .ok x := by
  cases v with
  | nil => exact absurd rfl h
  | cons x xs => exact ⟨_, rfl⟩

theorem nearPPSDCond_ok {eig_sym : Mat α → List α × Mat α} {n : Nat} (maxit : Int)
    {s : NPDState α} (hn : 1 ≤ n) (heig : EigShape eig_sym n) (hX : s.X.IsSquare n) :
    ∃ b, nearPPSDCond eig_sym maxit s = .ok b := by
  have hne : (eig_sym s.X).1 ≠ [] := by
    intro h
    have := (heig s.X hX).1
    rw [h] at this
    simp at this
    omega
  obtain ⟨lam, hlam⟩ := vecMin_ok hne
  unfold nearPPSDCond
  split
  · split
    · exact ⟨_, rfl⟩
    · simp only [hlam, bind, Except.bind]
      exact ⟨_, rfl⟩
  · exact ⟨_, rfl⟩

/-- Under the shape contract of `eig_sym`, the loop started on `n × n` matrices with enough
fuel returns normally. -/
theorem nearPPSDLoop_ok {eig_sym : Mat α → List α × Mat α} (norm : Mat α → α)
    {X0 : Mat α} {un : List α} {n : Nat} (eigenTol convTol : α) (maxit : Int)
    (hn : 1 ≤ n) (heig : EigShape eig_sym n) (hX0 : X0.IsSquare n)
    (hun : ∀ u ∈ un, u ∈ X0.mem) :
    ∀ (fuel : Nat) (Y DS : Mat α) (iter : Int), (maxit - 1 - iter).toNat ≤ fuel →
      Y.IsSquare n → DS.IsSquare n →
      ∃ s, nearPPSDLoop eig_sym norm X0 un (n : Int) eigenTol convTol maxit fuel Y DS iter =
        .ok s := by
  intro fuel
  induction fuel with
  | zero =>
    intro Y DS iter hfuel hY hDS
    obtain ⟨s1, hb, hXsq, _, _⟩ :=
      nearPPSDBody_ok norm eigenTol convTol iter hn heig hX0 hun hY hDS
    have hi := nearPPSDBody_iter hb
    obtain ⟨b, hc⟩ := nearPPSDCond_ok maxit hn heig hXsq
    cases b with
    | true =>
      have := nearPPSDCond_true hc
      omega
    | false => exact ⟨s1, nearPPSDLoop_exit hb hc⟩
  | succ fuel ih =>
    intro Y DS iter hfuel hY hDS
    obtain ⟨s1, hb, hXsq, hYsq, hDSsq⟩ :=
      nearPPSDBody_ok norm eigenTol convTol iter hn heig hX0 hun hY hDS
    have hi := nearPPSDBody_iter hb
    obtain ⟨b, hc⟩ := nearPPSDCond_ok maxit hn heig hXsq
    cases b with
    | true =>
      have hlt := nearPPSDCond_true hc
      rw [nearPPSDLoop_again hb hc]
      exact ih s1.Y s1.DS s1.iter (by omega) hYsq hDSsq
    | false => exact ⟨s1, nearPPSDLoop_exit hb hc⟩

theorem Mat.zeros_isSquare (n : Nat) : (Mat.zeros n n : Mat α).IsSquare n :=
  ⟨rfl, rfl, Mat.zeros_WF n n⟩

/-- C10, as stated, fails in its last part: for the `1 × 1` zero matrix (well-formed and
symmetric) the pattern-projected `Y` of the first iteration is the zero matrix, so the
denominator `‖Y‖` of the convergence ratio is `0`. -/
theorem nearPPSD_zero_denominator_counterexample :
    nearPPSDRun eig_sym_1x1 norm_1x1 ⟨1, 1, [0]⟩ (1 / 1000000) (1 / 10000000) (1 / 100000000) 1 =
      .ok ⟨⟨1, 1, [0]⟩, ⟨1, 1, [0]⟩, ⟨1, 1, [0]⟩, ⟨1, 1, [0]⟩, 1, false⟩ ∧
    norm_1x1 ⟨1, 1, [0]⟩ = 0 := by
  decide!

/-- C10, amended: for every well-formed `n × n` input with `n ≥ 1` (symmetric or not), an
eigendecomposition primitive that returns `n` eigenvalues and `n × n` eigenvectors, and a
non-negative norm, `nearPPSD` reaches no failure branch, whatever `maxit`: the index `n - 1`
into the eigenvalue vector in `ProjPSD` is in bounds, every class over which `ProjPattern` takes a
mean is non-empty, and the call returns normally.  The denominator `‖Y‖` of the convergence ratio
can be zero; no failure is raised then, and the convergence test of that iteration is false. -/
theorem nearPPSD_no_failure (eig_sym : Mat α → List α × Mat α) (norm : Mat α → α) (X : Mat α)
    (eigenTol convTol psdTol : α) (maxit : Int) (n : Nat)
    (hn : 1 ≤ n) (hX : X.IsSquare n) (heig : EigShape eig_sym n) (hnorm : ∀ M, 0 ≤ norm M) :
    (∀ R : Mat α, R.IsSquare n → ∃ l, vecAt (eig_sym R).1 ((n : Int) - 1) = .ok l) ∧
    (∀ u ∈ unique X, find (X.mem.map fun t => decide (t = u)) ≠ []) ∧
    (∃ s, nearPPSDRun eig_sym norm X eigenTol convTol psdTol maxit = .ok s ∧
      (norm s.Y = 0 → s.converged = false)) ∧
    ∃ r, nearPPSD eig_sym norm X eigenTol convTol psdTol maxit = .ok r := by
  have hun : ∀ u ∈ unique X, u ∈ X.mem := fun u hu => mem_unique.mp hu
  have hrun : ∃ s, nearPPSDRun eig_sym norm X eigenTol convTol psdTol maxit = .ok s := by
    have := nearPPSDLoop_ok norm eigenTol convTol maxit hn heig hX hun (maxit - 1).toNat X
      (Mat.zeros n n) 0 (by simp) hX (Mat.zeros_isSquare n)
    unfold nearPPSDRun
    simpa [hX.2.1] using this
  obtain ⟨s, hs⟩ := hrun
  refine ⟨?_, ?_, ⟨s, hs, ?_⟩, ?_⟩
  · intro R hR
    exact vecAt_ok hn (heig R hR).1
  · intro u hu hnil
    obtain ⟨k, hk⟩ : ∃ k, X.mem[k]? = some u := List.mem_iff_getElem?.mp (hun u hu)
    have hkm : k ∈ find (X.mem.map fun t => decide (t = u)) := mem_find_eq.mpr hk
    rw [hnil] at hkm
    cases hkm
  · intro h0
    have hs2 := hs
    unfold nearPPSDRun at hs2
    obtain ⟨Y1, DS1, iter1, hb⟩ := nearPPSDLoop_last _ _ _ _ _ _ _ _ _ _ _ _ s hs2
    obtain ⟨R, X1, Y2, DS2, D, _, _, _, _, _, hst⟩ := nearPPSDBody_inv hb
    rw [hst] at h0 ⊢
    simp only at h0 ⊢
    rw [h0]
    exact ratioLe_zero_den _ (hnorm D)
  · unfold nearPPSD
    simp only [hs, bind, Except.bind]
    exact ⟨_, rfl⟩

/-- Witness for C10 (amended): the `1 × 1` matrix `(-1)` with the default settings. -/
theorem nearPPSD_no_failure_witness :
    1 ≤ 1 ∧ (⟨1, 1, [-1]⟩ : Mat ℚ).IsSquare 1 ∧ EigShape eig_sym_1x1 1 ∧
    (∀ M, 0 ≤ norm_1x1 M) ∧
    ∃ r, nearPPSD eig_sym_1x1 norm_1x1 ⟨1, 1, [-1]⟩ (1 / 1000000) (1 / 10000000)
      (1 / 100000000) 1000 = .ok r :=
  have hsq : (⟨1, 1, [-1]⟩ : Mat ℚ).IsSquare 1 := ⟨rfl, rfl, rfl⟩
  have heig : EigShape eig_sym_1x1 1 := fun _ _ => ⟨rfl, rfl, rfl⟩
  have hnorm : ∀ M, 0 ≤ norm_1x1 M := fun _ => abs_nonneg _
  ⟨le_refl 1, hsq, heig, hnorm,
    (nearPPSD_no_failure eig_sym_1x1 norm_1x1 ⟨1, 1, [-1]⟩ (1 / 1000000) (1 / 10000000)
      (1 / 100000000) 1000 1 (le_refl 1) hsq heig hnorm).2.2.2⟩

end Shapes

end RobustCov

namespace RobustCov

/-! ## The returned matrix at the zero positions of the template -/

section ZeroPositions

variable {α : Type} [LinearOrderedField α]

/-- The first iteration of the loop on the matrix `[[1 - t², t], [t, 0]]` with
`t = 6401 / 20486400`, whatever the norm and the convergence tolerance. -/
theorem nearPPSDBody_conv_example (norm : Mat ℚ → ℚ) (convTol : ℚ) :
    nearPPSDBody eig_sym_conv_ex norm
      ⟨2, 2, [419692543987199 / 419692584960000, 6401 / 20486400, 6401 / 20486400, 0]⟩
      (unique ⟨2, 2, [419692543987199 / 419692584960000, 6401 / 20486400, 6401 / 20486400, 0]⟩)
      ((2 : Nat) : Int) (1 / 1000000) convTol
      ⟨2, 2, [419692543987199 / 419692584960000, 6401 / 20486400, 6401 / 20486400, 0]⟩
      (Mat.zeros 2 2) 0 =
    .ok ⟨⟨2, 2, [419692584960000 / 419692625932801, 131133446400 / 419692625932801,
        131133446400 / 419692625932801, 40972801 / 419692625932801]⟩,
      ⟨2, 2, [419692584960000 / 419692625932801, 131133446400 / 419692625932801,
        131133446400 / 419692625932801, 0]⟩,
      ⟨2, 2, [1678770421785601 / 176141883066387582943272960000,
        -262266899201 / 8597991011909734406400, -262266899201 / 8597991011909734406400,
        40972801 / 419692625932801]⟩,
      ⟨2, 2, [419692543987199 / 419692584960000, 6401 / 20486400, 6401 / 20486400, 0]⟩, 1,
      ratioLe (norm ⟨2, 2, [0, 0, 0, -40972801 / 419692625932801]⟩)
        (norm ⟨2, 2, [419692584960000 / 419692625932801, 131133446400 / 419692625932801,
        131133446400 / 419692625932801, 0]⟩)
        convTol⟩ := by
  have h1 : (⟨2, 2, [419692543987199 / 419692584960000, 6401 / 20486400, 6401 / 20486400, 0]⟩ :
      Mat ℚ).sub (Mat.zeros 2 2) =
      .ok ⟨2, 2, [419692543987199 / 419692584960000, 6401 / 20486400, 6401 / 20486400, 0]⟩ := by
    decide!
  have h2 : ProjPSD eig_sym_conv_ex
      ⟨2, 2, [419692543987199 / 419692584960000, 6401 / 20486400, 6401 / 20486400, 0]⟩ 2
      (1 / 1000000) =
      .ok ⟨2, 2, [419692584960000 / 419692625932801, 131133446400 / 419692625932801,
        131133446400 / 419692625932801, 40972801 / 419692625932801]⟩ := by
    decide!
  have h3 : ProjPattern
      (⟨2, 2, [419692584960000 / 419692625932801, 131133446400 / 419692625932801,
        131133446400 / 419692625932801, 40972801 / 419692625932801]⟩ : Mat ℚ)
      ⟨2, 2, [419692543987199 / 419692584960000, 6401 / 20486400, 6401 / 20486400, 0]⟩
      (unique ⟨2, 2, [419692543987199 / 419692584960000, 6401 / 20486400, 6401 / 20486400, 0]⟩) =
      .ok ⟨2, 2, [419692584960000 / 419692625932801, 131133446400 / 419692625932801,
        131133446400 / 419692625932801, 0]⟩ := by
    decide!
  have h4 : (⟨2, 2, [419692584960000 / 419692625932801, 131133446400 / 419692625932801,
        131133446400 / 419692625932801, 40972801 / 419692625932801]⟩ : Mat ℚ).sub
      ⟨2, 2, [419692543987199 / 419692584960000, 6401 / 20486400, 6401 / 20486400, 0]⟩ =
      .ok ⟨2, 2, [1678770421785601 / 176141883066387582943272960000,
        -262266899201 / 8597991011909734406400, -262266899201 / 8597991011909734406400,
        40972801 / 419692625932801]⟩ := by
    decide!
  have h5 : (⟨2, 2, [419692584960000 / 419692625932801, 131133446400 / 419692625932801,
        131133446400 / 419692625932801, 0]⟩ : Mat ℚ).sub
      ⟨2, 2, [419692584960000 / 419692625932801, 131133446400 / 419692625932801,
        131133446400 / 419692625932801, 40972801 / 419692625932801]⟩ =
      .ok ⟨2, 2, [0, 0, 0, -40972801 / 419692625932801]⟩ := by
    decide!
  unfold nearPPSDBody
  simp only [Nat.cast_ofNat, h1, h2, h3, h4, h5, bind, Except.bind, pure, Except.pure]
  rfl

/-- Also a converged run can return a non-zero entry where the template is zero.  For the input
`[[1 - t², t], [t, 0]]` with `t = 6401 / 20486400`, the default tolerances and `maxit = 1000`,
and any norm that gives the residual (whose only non-zero entry is `-t² / (1 + t²)`) the norm
`t² / (1 + t²)` and gives `Y` at least the magnitude of its largest entry, as the spectral norm
does: the loop stops after the first iteration with the converged flag true, and `nearPPSD`
returns, without the warning, the matrix whose entry at the zero position `3` is
`t² / (1 + t²)`, about `9.8e-8`. -/
theorem nearPPSD_converged_nonzero_example :
    (⟨2, 2, [419692543987199 / 419692584960000, 6401 / 20486400, 6401 / 20486400, 0]⟩ :
      Mat ℚ).mem[3]? = some 0 ∧
    (⟨2, 2, [419692584960000 / 419692625932801, 131133446400 / 419692625932801,
        131133446400 / 419692625932801, 40972801 / 419692625932801]⟩ : Mat ℚ).mem[3]? ≠ some 0 ∧
    ∀ norm : Mat ℚ → ℚ,
      norm ⟨2, 2, [0, 0, 0, -40972801 / 419692625932801]⟩ = 40972801 / 419692625932801 →
      419692584960000 / 419692625932801 ≤
        norm ⟨2, 2, [419692584960000 / 419692625932801, 131133446400 / 419692625932801,
        131133446400 / 419692625932801, 0]⟩ →
      nearPPSD eig_sym_conv_ex norm
        ⟨2, 2, [419692543987199 / 419692584960000, 6401 / 20486400, 6401 / 20486400, 0]⟩
        (1 / 1000000) (1 / 10000000) (1 / 100000000) 1000 =
        .ok (⟨2, 2, [419692584960000 / 419692625932801, 131133446400 / 419692625932801,
        131133446400 / 419692625932801, 40972801 / 419692625932801]⟩, none) := by
  refine ⟨by decide!, by decide!, ?_⟩
  intro norm hD hY
  have hb := nearPPSDBody_conv_example norm (1 / 10000000)
  have hconv : ratioLe (norm ⟨2, 2, [0, 0, 0, -40972801 / 419692625932801]⟩)
      (norm ⟨2, 2, [419692584960000 / 419692625932801, 131133446400 / 419692625932801,
        131133446400 / 419692625932801, 0]⟩)
      (1 / 10000000) = true := by
    unfold ratioLe
    have hpos : (0 : ℚ) < norm ⟨2, 2, [419692584960000 / 419692625932801, 131133446400 / 419692625932801,
        131133446400 / 419692625932801, 0]⟩ :=
      lt_of_lt_of_le (by norm_num) hY
    rw [if_neg (ne_of_gt hpos), hD]
    apply decide_eq_true
    rw [div_le_iff₀ hpos]
    calc (40972801 / 419692625932801 : ℚ)
        ≤ 1 / 10000000 * (419692584960000 / 419692625932801) := by norm_num
      _ ≤ 1 / 10000000 * norm ⟨2, 2, [419692584960000 / 419692625932801, 131133446400 / 419692625932801,
        131133446400 / 419692625932801, 0]⟩ := by
        apply mul_le_mul_of_nonneg_left hY
        norm_num
  rw [hconv] at hb
  have hc : nearPPSDCond eig_sym_conv_ex 1000
      (⟨⟨2, 2, [419692584960000 / 419692625932801, 131133446400 / 419692625932801,
        131133446400 / 419692625932801, 40972801 / 419692625932801]⟩,
        ⟨2, 2, [419692584960000 / 419692625932801, 131133446400 / 419692625932801,
        131133446400 / 419692625932801, 0]⟩,
        ⟨2, 2, [1678770421785601 / 176141883066387582943272960000,
        -262266899201 / 8597991011909734406400, -262266899201 / 8597991011909734406400,
        40972801 / 419692625932801]⟩,
        ⟨2, 2, [419692543987199 / 419692584960000, 6401 / 20486400, 6401 / 20486400, 0]⟩, 1,
        true⟩ : NPDState ℚ) = .ok false := by decide!
  have hrun : nearPPSDRun eig_sym_conv_ex norm
      ⟨2, 2, [419692543987199 / 419692584960000, 6401 / 20486400, 6401 / 20486400, 0]⟩
      (1 / 1000000) (1 / 10000000) (1 / 100000000) 1000 =
      .ok ⟨⟨2, 2, [419692584960000 / 419692625932801, 131133446400 / 419692625932801,
        131133446400 / 419692625932801, 40972801 / 419692625932801]⟩,
        ⟨2, 2, [419692584960000 / 419692625932801, 131133446400 / 419692625932801,
        131133446400 / 419692625932801, 0]⟩,
        ⟨2, 2, [1678770421785601 / 176141883066387582943272960000,
        -262266899201 / 8597991011909734406400, -262266899201 / 8597991011909734406400,
        40972801 / 419692625932801]⟩,
        ⟨2, 2, [419692543987199 / 419692584960000, 6401 / 20486400, 6401 / 20486400, 0]⟩, 1,
        true⟩ := by
    unfold nearPPSDRun
    exact nearPPSDLoop_exit hb hc
  unfold nearPPSD
  rw [hrun]
  rfl

end ZeroPositions

end RobustCov

namespace RobustCov

/-! ## A matrix is a fixed point of `ProjPattern` with itself as template -/

section FixedPoint

variable {α : Type} [LinearOrderedField α]

theorem elemFill_self {X : Mat α} {idx : List Nat} {v : α}
    (h : ∀ k ∈ idx, X.mem[k]? = some v) : elemFill X idx v = .ok X := by
  have hlt : ∀ k ∈ idx, k < X.mem.length := by
    intro k hk
    by_contra hn
    have := h k hk
    rw [List.getElem?_eq_none (by omega)] at this
    cases this
  unfold elemFill
  have hall : idx.all (fun k => decide (k < X.mem.length)) = true :=
    List.all_eq_true.mpr fun k hk => decide_eq_true (hlt k hk)
  rw [if_pos hall, foldl_set_self v idx X.mem h]

theorem sum_map_const_eq (u : α) : ∀ (idx : List Nat) (f : Nat → α), (∀ k ∈ idx, f k = u) →
    (idx.map f).sum = (idx.length : α) * u := by
  intro idx
  induction idx with
  | nil => intro f _; simp
  | cons k idx ih =>
    intro f h
    rw [List.map_cons, List.sum_cons, h k (List.mem_cons_self _ _),
      ih f fun j hj => h j (List.mem_cons_of_mem _ hj)]
    simp only [List.length_cons, Nat.cast_add, Nat.cast_one]
    ring

/-- The round of `ProjPattern` for a value `u` of the template leaves `X` unchanged when the
template is `X` itself: the class of `u` is non-empty and its mean is `u`. -/
theorem ProjPatternStep_self {X : Mat α} {u : α} (hu : u ∈ X.mem) :
    ProjPatternStep X X u = .ok X := by
  have hval : ∀ k ∈ find (X.mem.map fun t => decide (t = u)), X.mem[k]? = some u :=
    fun k hk => mem_find_eq.mp hk
  have hidx : ∀ k ∈ find (X.mem.map fun t => decide (t = u)), k < X.mem.length :=
    fun k hk => find_eq_lt hk
  obtain ⟨k0, hk0⟩ : ∃ k, X.mem[k]? = some u := List.mem_iff_getElem?.mp hu
  have hk0m : k0 ∈ find (X.mem.map fun t => decide (t = u)) := mem_find_eq.mpr hk0
  have hne : find (X.mem.map fun t => decide (t = u)) ≠ [] := by
    intro hnil
    rw [hnil] at hk0m
    cases hk0m
  have hne2 : ((find (X.mem.map fun t => decide (t = u))).map fun k => X.mem.getD k 0) ≠ [] := by
    intro hnil
    exact hne (List.map_eq_nil_iff.mp hnil)
  have hsum : ((find (X.mem.map fun t => decide (t = u))).map fun k => X.mem.getD k 0).sum =
      ((find (X.mem.map fun t => decide (t = u))).length : α) * u := by
    apply sum_map_const_eq
    intro k hk
    rw [List.getD_eq_getElem?_getD, hval k hk]
    rfl
  have hlen : ((find (X.mem.map fun t => decide (t = u))).length : α) ≠ 0 := by
    rw [Nat.cast_ne_zero]
    exact fun h0 => hne (List.length_eq_zero.mp h0)
  have hmean : mean ((find (X.mem.map fun t => decide (t = u))).map fun k => X.mem.getD k 0) =
      .ok u := by
    rw [mean_ok hne2, hsum, List.length_map, mul_comm, mul_div_assoc, div_self hlen, mul_one]
  unfold ProjPatternStep
  simp only [elem_ok hidx, hmean, bind, Except.bind]
  exact elemFill_self hval

theorem foldlM_ProjPatternStep_self (X : Mat α) : ∀ (un : List α), (∀ u ∈ un, u ∈ X.mem) →
    un.foldlM (ProjPatternStep X) X = .ok X := by
  intro un
  induction un with
  | nil => intro _; rfl
  | cons u un ih =>
    intro h
    rw [List.foldlM_cons, ProjPatternStep_self (h u (List.mem_cons_self _ _))]
    exact ih fun v hv => h v (List.mem_cons_of_mem _ hv)

/-- With the matrix itself as template and its distinct values as `un`, `ProjPattern` returns the
matrix unchanged. -/
theorem ProjPattern_self (X : Mat α) : ProjPattern X X (unique X) = .ok X := by
  unfold ProjPattern
  rw [foldlM_ProjPatternStep_self X (unique X) fun u hu => mem_unique.mp hu]
  exact elemFill_self fun k hk => mem_find_eq.mp hk

end FixedPoint

end RobustCov

namespace RobustCov

/-! ## The elements of `ProjPSD` -/

section PSDEntries

variable {α : Type} [LinearOrderedField α]

theorem Mat.ofFn_congr {r c : Nat} {f g : Nat → Nat → α}
    (h : ∀ i j, i < r → j < c → f i j = g i j) : Mat.ofFn r c f = Mat.ofFn r c g := by
  unfold Mat.ofFn
  congr 1
  apply List.map_congr_left
  intro k hk
  rw [List.mem_range] at hk
  have hr : 0 < r := by
    rcases Nat.eq_zero_or_pos r with h0 | h0
    · subst h0; simp at hk
    · exact h0
  apply h
  · exact Nat.mod_lt _ hr
  · exact Nat.div_lt_of_lt_mul hk

theorem Mat.eq_ofFn_get {X : Mat α} (hX : X.WF) : X = Mat.ofFn X.n_rows X.n_cols X.get := by
  obtain ⟨r, c, mem⟩ := X
  unfold Mat.WF at hX
  simp only at hX
  unfold Mat.ofFn Mat.get
  simp only [Mat.mk.injEq, true_and]
  apply List.ext_getElem
  · simp [hX]
  · intro k h1 h2
    simp only [List.getElem_map, List.getElem_range]
    rw [Nat.mod_add_div', List.getD_eq_getElem _ _ h1]

theorem map_range_getD (p : List Nat) (g : Nat → α) :
    ((List.range p.length).map fun k => g (p.getD k 0)) = p.map g := by
  apply List.ext_getElem
  · simp
  · intro k h1 h2
    simp only [List.length_map, List.length_range] at h1
    simp only [List.getElem_map, List.getElem_range]
    rw [List.getD_eq_getElem _ _ h1]

theorem getD_map_nat (p : List Nat) (f : Nat → α) {k : Nat} (hk : k < p.length) :
    (p.map f).getD k 0 = f (p.getD k 0) := by
  simp [List.getD_eq_getElem?_getD, List.getElem?_map, List.getElem?_eq_getElem hk]

theorem sum_map_filter (q : Nat → Bool) (g : Nat → α) : ∀ L : List Nat,
    ((L.filter q).map g).sum = (L.map fun x => if q x then g x else 0).sum := by
  intro L
  induction L with
  | nil => rfl
  | cons x L ih =>
    cases hq : q x with
    | true => simp [List.filter_cons, hq, ih]
    | false => simp [List.filter_cons, hq, ih]

theorem sum_map_range_single (h : Nat → α) : ∀ (m k : Nat), k < m →
    ((List.range m).map fun l => if l = k then h l else 0).sum = h k := by
  intro m
  induction m with
  | zero => intro k hk; omega
  | succ m ih =>
    intro k hk
    rw [List.sum_range_succ]
    by_cases hkm : k = m
    · subst hkm
      have hz : ((List.range k).map fun l => if l = k then h l else 0) =
          (List.range k).map fun _ => (0 : α) := by
        apply List.map_congr_left
        intro l hl
        rw [List.mem_range] at hl
        rw [if_neg (by omega)]
      rw [hz]
      simp
    · have hne : ¬ m = k := fun h => hkm h.symm
      rw [ih k (by omega), if_neg hne, add_zero]

theorem diagmat_get (d : List α) {l k : Nat} (hl : l < d.length) (hk : k < d.length) :
    (diagmat d).get l k = if l = k then d.getD l 0 else 0 := by
  unfold diagmat
  rw [Mat.ofFn_get _ _ _ hl hk]

/-- Product with a diagonal matrix on the right: column `k` is scaled by `d(k)`. -/
theorem Mat.mul_diagmat (A : Mat α) (d : List α) (h : A.n_cols = d.length) :
    A.mul (diagmat d) = .ok (Mat.ofFn A.n_rows d.length fun i k => A.get i k * d.getD k 0) := by
  rw [Mat.mul_ok (by simp [diagmat, Mat.ofFn, h])]
  have hc : (diagmat d).n_cols = d.length := rfl
  rw [hc]
  congr 1
  apply Mat.ofFn_congr
  intro i k _ hk
  have hterm : ((List.range A.n_cols).map fun l => A.get i l * (diagmat d).get l k) =
      (List.range A.n_cols).map fun l => if l = k then A.get i l * d.getD l 0 else 0 := by
    apply List.map_congr_left
    intro l hl
    rw [List.mem_range, h] at hl
    rw [diagmat_get d hl hk]
    split <;> simp
  rw [hterm, sum_map_range_single (fun l => A.get i l * d.getD l 0) A.n_cols k (by omega)]

theorem Mat.t_get (A : Mat α) {k j : Nat} (hk : k < A.n_cols) (hj : j < A.n_rows) :
    A.t.get k j = A.get j k := by
  unfold Mat.t
  rw [Mat.ofFn_get _ _ _ hk hj]

/-- Product of an `n × m` matrix with the transpose of another `n × m` matrix. -/
theorem Mat.ofFn_mul_ofFn_t (n m : Nat) (G H : Nat → Nat → α) :
    (Mat.ofFn n m G).mul (Mat.ofFn n m H).t =
      .ok (Mat.ofFn n n fun i j => ((List.range m).map fun k => G i k * H j k).sum) := by
  rw [Mat.mul_ok rfl]
  have h1 : (Mat.ofFn n m G).n_rows = n := rfl
  have h2 : (Mat.ofFn n m H).t.n_cols = n := rfl
  have h3 : (Mat.ofFn n m G).n_cols = m := rfl
  rw [h1, h2, h3]
  congr 1
  apply Mat.ofFn_congr
  intro i j hi hj
  congr 1
  apply List.map_congr_left
  intro k hk
  rw [List.mem_range] at hk
  rw [Mat.ofFn_get n m G hi hk, Mat.t_get _ (show k < (Mat.ofFn n m H).n_cols from hk)
    (show j < (Mat.ofFn n m H).n_rows from hj), Mat.ofFn_get n m H hj hk]

/-- The elements of `ProjPSD(R, n, eigenTol)` in terms of the eigendecomposition `(lam, V)` of
`R`: element `(i,j)` is the sum of `V(i,k) · lam(k) · V(j,k)` over the eigenpairs `k` with
`lam(k) > eigenTol · lam(n-1)`. -/
theorem ProjPSD_entries (eig_sym : Mat α → List α × Mat α) (R : Mat α) (n : Nat) (eigenTol : α)
    (hn : 1 ≤ n) (hval : (eig_sym R).1.length = n) (hrows : (eig_sym R).2.n_rows = n)
    (hcols : (eig_sym R).2.n_cols = n) :
    ProjPSD eig_sym R (n : Int) eigenTol = .ok (Mat.ofFn n n fun i j =>
      ((List.range n).map fun k =>
        if (eig_sym R).1.getD k 0 > eigenTol * (eig_sym R).1.getD (n - 1) 0 then
          (eig_sym R).2.get i k * (eig_sym R).1.getD k 0 * (eig_sym R).2.get j k
        else 0).sum) := by
  have hlast : vecAt (eig_sym R).1 ((n : Int) - 1) = .ok ((eig_sym R).1.getD (n - 1) 0) := by
    unfold vecAt
    have h0 : (0 : Int) ≤ (n : Int) - 1 := by omega
    have hlt : ((n : Int) - 1).toNat < (eig_sym R).1.length := by omega
    have hnat : ((n : Int) - 1).toNat = n - 1 := by omega
    rw [if_pos h0, List.getElem?_eq_getElem hlt, List.getD_eq_getElem _ _ (by omega)]
    simp only [hnat]
  have hp : ∀ k ∈ find ((eig_sym R).1.map fun l =>
      decide (l > eigenTol * (eig_sym R).1.getD (n - 1) 0)), k < (eig_sym R).1.length := by
    intro k hk
    have := find_lt hk
    rwa [List.length_map] at this
  have hp2 : ∀ k ∈ find ((eig_sym R).1.map fun l =>
      decide (l > eigenTol * (eig_sym R).1.getD (n - 1) 0)), k < (eig_sym R).2.n_cols := by
    intro k hk
    rw [hcols, ← hval]
    exact hp k hk
  have hpdef : find ((eig_sym R).1.map fun l =>
      decide (l > eigenTol * (eig_sym R).1.getD (n - 1) 0)) =
      (List.range n).filter fun k =>
        decide ((eig_sym R).1.getD k 0 > eigenTol * (eig_sym R).1.getD (n - 1) 0) := by
    unfold find
    rw [List.length_map, hval]
    apply List.filter_congr
    intro k hk
    rw [List.mem_range, ← hval] at hk
    rw [List.getD_eq_getElem _ _ (by simpa using hk), List.getElem_map,
      List.getD_eq_getElem _ _ hk]
  unfold ProjPSD
  simp only [hlast, Mat.cols_ok hp2, elem_ok hp, bind, Except.bind]
  generalize find ((eig_sym R).1.map fun l =>
      decide (l > eigenTol * (eig_sym R).1.getD (n - 1) 0)) = p at hpdef
  rw [hrows, Mat.mul_diagmat _ _ (by simp [Mat.ofFn])]
  simp only []
  have hd : (Mat.ofFn n p.length fun i k => (eig_sym R).2.get i (p.getD k 0)).n_rows = n := rfl
  rw [hd, List.length_map, Mat.ofFn_mul_ofFn_t]
  congr 1
  apply Mat.ofFn_congr
  intro i j hi hj
  have hterm : ((List.range p.length).map fun k =>
      (Mat.ofFn n p.length fun i k => (eig_sym R).2.get i (p.getD k 0)).get i k *
        (p.map fun k => (eig_sym R).1.getD k 0).getD k 0 * (eig_sym R).2.get j (p.getD k 0)) =
      p.map fun q => (eig_sym R).2.get i q * (eig_sym R).1.getD q 0 * (eig_sym R).2.get j q := by
    rw [← map_range_getD p fun q =>
      (eig_sym R).2.get i q * (eig_sym R).1.getD q 0 * (eig_sym R).2.get j q]
    apply List.map_congr_left
    intro k hk
    rw [List.mem_range] at hk
    rw [Mat.ofFn_get n p.length _ hi hk, getD_map_nat p _ hk]
  rw [hterm, hpdef, sum_map_filter]
  congr 1
  apply List.map_congr_left
  intro k _
  by_cases hc : (eig_sym R).1.getD k 0 > eigenTol * (eig_sym R).1.getD (n - 1) 0
  · simp [hc]
  · simp [hc]

end PSDEntries

end RobustCov

namespace RobustCov

/-! ## Positive semi-definite input -/

section PSDInput

variable {α : Type} [LinearOrderedField α]

theorem zipWith_sub_replicate_zero : ∀ (l : List α) (m : Nat), l.length ≤ m →
    List.zipWith (· - ·) l (List.replicate m (0 : α)) = l := by
  intro l
  induction l with
  | nil => intro m _; simp
  | cons x l ih =>
    intro m hm
    cases m with
    | zero => simp at hm
    | succ m =>
      rw [List.replicate_succ, List.zipWith_cons_cons, sub_zero,
        ih m (by simpa using hm)]

theorem zipWith_sub_self : ∀ (l : List α),
    List.zipWith (· - ·) l l = List.replicate l.length (0 : α) := by
  intro l
  induction l with
  | nil => rfl
  | cons x l ih => rw [List.zipWith_cons_cons, sub_self, ih, List.length_cons, List.replicate_succ]

theorem Mat.sub_zeros {n : Nat} {X : Mat α} (hX : X.IsSquare n) :
    X.sub (Mat.zeros n n) = .ok X := by
  obtain ⟨h1, h2, h3⟩ := hX
  rw [Mat.sub_ok (by rw [h1]; rfl) (by rw [h2]; rfl)]
  unfold Mat.WF at h3
  have : List.zipWith (· - ·) X.mem (Mat.zeros n n : Mat α).mem = X.mem :=
    zipWith_sub_replicate_zero X.mem (n * n) (by rw [h3, h1, h2])
  rw [this]

theorem Mat.sub_self_eq {n : Nat} {X : Mat α} (hX : X.IsSquare n) :
    X.sub X = .ok (Mat.zeros n n) := by
  obtain ⟨h1, h2, h3⟩ := hX
  rw [Mat.sub_ok rfl rfl, zipWith_sub_self]
  unfold Mat.WF at h3
  rw [h3, h1, h2]
  rfl

theorem foldl_min_nonneg : ∀ (xs : List α) (x : α), 0 ≤ x → (∀ l ∈ xs, 0 ≤ l) →
    0 ≤ xs.foldl min x := by
  intro xs
  induction xs with
  | nil => intro x hx _; exact hx
  | cons y ys ih =>
    intro x hx h
    rw [List.foldl_cons]
    exact ih (min x y) (le_min hx (h y (List.mem_cons_self _ _)))
      fun l hl => h l (List.mem_cons_of_mem _ hl)

theorem vecMin_nonneg {v : List α} (hne : v ≠ []) (h : ∀ l ∈ v, 0 ≤ l) :
    ∃ m, vecMin v = .ok m ∧ 0 ≤ m := by
  cases v with
  | nil => exact absurd rfl hne
  | cons x xs =>
    exact ⟨_, rfl, foldl_min_nonneg xs x (h x (List.mem_cons_self _ _))
      fun l hl => h l (List.mem_cons_of_mem _ hl)⟩

/-- `ProjPSD` returns its argument when the argument has a spectral decomposition in which
every eigenvalue at or below the threshold `eigenTol · lam(n-1)` is zero. -/
theorem ProjPSD_self (eig_sym : Mat α → List α × Mat α) (X : Mat α) (n : Nat) (eigenTol : α)
    (hn : 1 ≤ n) (hX : X.IsSquare n) (hdec : IsSpectralDecomposition eig_sym n X)
    (hkeep : ∀ l ∈ (eig_sym X).1, l ≤ eigenTol * (eig_sym X).1.getD (n - 1) 0 → l = 0) :
    ProjPSD eig_sym X (n : Int) eigenTol = .ok X := by
  obtain ⟨d1, d2, d3, d4⟩ := hdec
  rw [ProjPSD_entries eig_sym X n eigenTol hn d1 d2 d3]
  have hXeq := Mat.eq_ofFn_get hX.2.2
  rw [hX.1, hX.2.1] at hXeq
  congr 1
  conv_rhs => rw [hXeq]
  apply Mat.ofFn_congr
  intro i j hi hj
  rw [d4 i j hi hj]
  congr 1
  apply List.map_congr_left
  intro k hk
  rw [List.mem_range] at hk
  by_cases hc : (eig_sym X).1.getD k 0 > eigenTol * (eig_sym X).1.getD (n - 1) 0
  · rw [if_pos hc]
  · rw [if_neg hc]
    have hmem : (eig_sym X).1.getD k 0 ∈ (eig_sym X).1 := by
      rw [List.getD_eq_getElem _ _ (by omega)]
      exact List.getElem_mem _
    rw [hkeep _ hmem (not_lt.mp hc)]
    ring

/-- C8 at two failing inputs.  The matrix `[[16, 12], [12, 9]]` is symmetric, positive
semi-definite (eigenvalues `0` and `25`) and consistent with itself as pattern.  With the default
tolerances and `maxit = 10`, and a solver that returns its zero eigenvalue as `-2^-49`, the first
iteration reproduces the input and sets the converged flag, but the loop condition tests
`min(eig_sym(X)) < 0` strictly (`psdTol` is not read, although that eigenvalue is `≥ -psdTol`),
so the loop repeats the same iteration up to the cap: ten iterations, not one.  For the `1 × 1` zero matrix (also positive semi-definite)
and `maxit = 3` the ratio `‖Y-X‖/‖Y‖` is `0/0`, which never compares `<= convTol`: three
iterations, not one, and the non-convergence warning. -/
theorem nearPPSD_psd_input_runs_to_cap :
    (vecMin (eig_sym_roundoff_ex ⟨2, 2, [16, 12, 12, 9]⟩).1 = .ok (-1 / 562949953421312) ∧
      -(1 / 100000000 : ℚ) ≤ -1 / 562949953421312 ∧
      nearPPSDRun eig_sym_roundoff_ex norm_rank1 ⟨2, 2, [16, 12, 12, 9]⟩ (1 / 1000000)
        (1 / 10000000) (1 / 100000000) 10 =
        .ok ⟨⟨2, 2, [16, 12, 12, 9]⟩, ⟨2, 2, [16, 12, 12, 9]⟩, ⟨2, 2, [0, 0, 0, 0]⟩,
          ⟨2, 2, [16, 12, 12, 9]⟩, 10, true⟩ ∧
      (10 : Int) ≠ 1) ∧
    vecMin (eig_sym_1x1 ⟨1, 1, [0]⟩).1 = .ok 0 ∧
    nearPPSDRun eig_sym_1x1 norm_1x1 ⟨1, 1, [0]⟩ (1 / 1000000) (1 / 10000000) (1 / 100000000) 3 =
      .ok ⟨⟨1, 1, [0]⟩, ⟨1, 1, [0]⟩, ⟨1, 1, [0]⟩, ⟨1, 1, [0]⟩, 3, false⟩ ∧
    nearPPSD eig_sym_1x1 norm_1x1 ⟨1, 1, [0]⟩ (1 / 1000000) (1 / 10000000) (1 / 100000000) 3 =
      .ok (⟨1, 1, [0]⟩, some 3) ∧
    (3 : Int) ≠ 1 := by
  decide!

/-- In arithmetic without rounding error: for every `n × n` input (`n ≥ 1`) with a spectral
decomposition `X = V · diag(lam) · Vᵀ` whose eigenvalues are all non-negative, in which no
non-zero eigenvalue is at or below the threshold `eigenTol · lam(n-1)`, whose norm is non-zero,
and for `convTol ≥ 0`, the loop of `nearPPSD` stops after one iteration and returns the
input. -/
theorem nearPPSD_psd_input_exact_arithmetic (eig_sym : Mat α → List α × Mat α)
    (norm : Mat α → α) (X : Mat α) (eigenTol convTol psdTol : α) (maxit : Int) (n : Nat)
    (hn : 1 ≤ n) (hX : X.IsSquare n) (hdec : IsSpectralDecomposition eig_sym n X)
    (hpsd : ∀ l ∈ (eig_sym X).1, 0 ≤ l)
    (hkeep : ∀ l ∈ (eig_sym X).1, l ≤ eigenTol * (eig_sym X).1.getD (n - 1) 0 → l = 0)
    (hconv : 0 ≤ convTol) (hnorm0 : norm (Mat.zeros n n) = 0) (hnormX : norm X ≠ 0) :
    nearPPSDRun eig_sym norm X eigenTol convTol psdTol maxit =
      .ok ⟨X, X, Mat.zeros n n, X, 1, true⟩ ∧
    nearPPSD eig_sym norm X eigenTol convTol psdTol maxit = .ok (X, none) := by
  have hP := ProjPSD_self eig_sym X n eigenTol hn hX hdec hkeep
  have hconvd : ratioLe (norm (Mat.zeros n n)) (norm X) convTol = true := by
    unfold ratioLe
    rw [if_neg hnormX, hnorm0, zero_div]
    exact decide_eq_true hconv
  have hb : nearPPSDBody eig_sym norm X (unique X) (n : Int) eigenTol convTol X
      (Mat.zeros n n) 0 = .ok ⟨X, X, Mat.zeros n n, X, 1, true⟩ := by
    unfold nearPPSDBody
    simp only [Mat.sub_zeros hX, hP, ProjPattern_self X, Mat.sub_self_eq hX, bind, Except.bind,
      hconvd]
    rfl
  have hne : (eig_sym X).1 ≠ [] := by
    intro h
    have := hdec.1
    rw [h] at this
    simp at this
    omega
  obtain ⟨m, hm, hm0⟩ := vecMin_nonneg hne hpsd
  have hc : nearPPSDCond eig_sym maxit (⟨X, X, Mat.zeros n n, X, 1, true⟩ : NPDState α) =
      .ok false := by
    unfold nearPPSDCond
    by_cases hlt : (1 : Int) < maxit
    · simp only [hlt, if_true, Bool.not_true, Bool.false_eq_true, if_false, hm, bind,
        Except.bind, pure, Except.pure]
      rw [decide_eq_false (not_lt.mpr hm0)]
    · simp only [hlt, if_false]
  have hrun : nearPPSDRun eig_sym norm X eigenTol convTol psdTol maxit =
      .ok ⟨X, X, Mat.zeros n n, X, 1, true⟩ := by
    unfold nearPPSDRun
    simp only [hX.2.1]
    exact nearPPSDLoop_exit hb hc
  refine ⟨hrun, ?_⟩
  unfold nearPPSD
  simp only [hrun, bind, Except.bind]
  rfl

end PSDInput

end RobustCov

namespace RobustCov

/-! ## Further claims: fixed point, independence of `psdTol`, `covSpearmanU` -/

section FurtherClaims

variable {α : Type} [LinearOrderedField α]

/-- C14: the result of `nearPPSD` (the returned matrix, the iteration count and whether the
warning is emitted) does not depend on `psdTol`: two runs that differ only in `psdTol` agree, and
so do two such calls of `covNPD`; the eigenvalue check of the loop condition, reached when
`iter < maxit` and the convergence test has passed, is the strict test `min(eig_sym(X)) < 0`. -/
theorem nearPPSD_independent_of_psdTol (eig_sym : Mat α → List α × Mat α) (norm : Mat α → α)
    (X : Mat α) (eigenTol convTol psdTol psdTol2 : α) (maxit : Int)
    (covQn : List α → List α → α) (scaleQn : List α → α) (data : Mat α) :
    nearPPSDRun eig_sym norm X eigenTol convTol psdTol maxit =
      nearPPSDRun eig_sym norm X eigenTol convTol psdTol2 maxit ∧
    nearPPSD eig_sym norm X eigenTol convTol psdTol maxit =
      nearPPSD eig_sym norm X eigenTol convTol psdTol2 maxit ∧
    covNPD covQn scaleQn eig_sym norm data eigenTol convTol psdTol maxit =
      covNPD covQn scaleQn eig_sym norm data eigenTol convTol psdTol2 maxit ∧
    ∀ s : NPDState α, s.iter < maxit → s.converged = true →
      nearPPSDCond eig_sym maxit s =
        (vecMin (eig_sym s.X).1 >>= fun lam => pure (decide (lam < 0))) := by
  refine ⟨rfl, rfl, rfl, ?_⟩
  intro s hlt hc
  unfold nearPPSDCond
  rw [if_pos hlt, hc]
  rfl

end FurtherClaims

end RobustCov

namespace RobustCov

/-! ## The result of `ProjPattern`, position by position -/

section PatternFormula

variable {α : Type} [LinearOrderedField α]

theorem find_eq_classPositions (T : Mat α) (v : α) :
    find (T.mem.map fun t => decide (t = v)) = classPositions T v := by
  unfold find classPositions
  rw [List.length_map]
  apply List.filter_congr
  intro k hk
  rw [List.mem_range] at hk
  rw [List.getD_eq_getElem _ _ (by simpa using hk), List.getElem_map,
    List.getElem?_eq_getElem hk]
  simp

theorem mem_classPositions {T : Mat α} {v : α} {k : Nat} :
    k ∈ classPositions T v ↔ T.mem[k]? = some v := by
  rw [← find_eq_classPositions]
  exact mem_find_eq

theorem mean_inv {v : List α} {m : α} (h : mean v = .ok m) :
    v ≠ [] ∧ m = v.sum / (v.length : α) := by
  cases v with
  | nil => cases h
  | cons x xs => exact ⟨List.cons_ne_nil _ _, (Except.ok.inj h).symm⟩

/-- What a successful round of `ProjPattern` for the value `u` has done: the class of `u` is
non-empty and inside `X`, and exactly its positions now hold the mean of `X` over the class. -/
theorem ProjPatternStep_formula {T X X1 : Mat α} {u : α} (h : ProjPatternStep T X u = .ok X1) :
    classPositions T u ≠ [] ∧ (∀ k ∈ classPositions T u, k < X.mem.length) ∧
    ∀ k, X1.mem[k]? = if k ∈ classPositions T u then some (classMean X T u) else X.mem[k]? := by
  unfold ProjPatternStep at h
  rw [find_eq_classPositions] at h
  obtain ⟨sub, hsub, h⟩ := bind_eq_ok h
  obtain ⟨m, hm, h⟩ := bind_eq_ok h
  have hsubeq := elem_inv hsub
  obtain ⟨hne, hmeq⟩ := mean_inv hm
  obtain ⟨hlt, _, _, _, hget⟩ := elemFill_inv h
  have hne2 : classPositions T u ≠ [] := by
    intro hnil
    rw [hsubeq, hnil] at hne
    exact hne rfl
  have hmean : m = classMean X T u := by
    rw [hmeq, hsubeq, List.length_map]
    rfl
  refine ⟨hne2, hlt, ?_⟩
  intro k
  rw [hget k, hmean]

theorem classMean_congr {X X1 T : Mat α} {v : α}
    (h : ∀ k ∈ classPositions T v, X1.mem[k]? = X.mem[k]?) :
    classMean X1 T v = classMean X T v := by
  unfold classMean
  congr 2
  apply List.map_congr_left
  intro k hk
  rw [List.getD_eq_getElem?_getD, List.getD_eq_getElem?_getD, h k hk]

theorem classMean_const {X1 T : Mat α} {v m : α} (hne : classPositions T v ≠ [])
    (h : ∀ k ∈ classPositions T v, X1.mem[k]? = some m) : classMean X1 T v = m := by
  unfold classMean
  have hsum : ((classPositions T v).map fun k => X1.mem.getD k 0).sum =
      ((classPositions T v).length : α) * m := by
    apply sum_map_const_eq
    intro k hk
    rw [List.getD_eq_getElem?_getD, h k hk]
    rfl
  have hlen : ((classPositions T v).length : α) ≠ 0 := by
    rw [Nat.cast_ne_zero]
    exact fun h0 => hne (List.length_eq_zero.mp h0)
  rw [hsum, mul_comm, mul_div_assoc, div_self hlen, mul_one]

/-- After the rounds for the values `un`, a position whose template value is in `un` holds the
mean of the original `X` over the class of that value, and every other position is unchanged:
the rounds act on disjoint classes, so the order of the in-place fills does not matter. -/
theorem foldlM_ProjPatternStep_formula (T : Mat α) : ∀ (un : List α) (X X1 : Mat α),
    un.foldlM (ProjPatternStep T) X = .ok X1 →
    (∀ (k : Nat) (v : α), T.mem[k]? = some v → v ∈ un →
      X1.mem[k]? = some (classMean X T v)) ∧
    ∀ k : Nat, (∀ v, T.mem[k]? = some v → v ∉ un) → X1.mem[k]? = X.mem[k]? := by
  intro un
  induction un with
  | nil =>
    intro X X1 h
    cases h
    exact ⟨fun k v _ hv => absurd hv (List.not_mem_nil v), fun k _ => rfl⟩
  | cons u us ih =>
    intro X X1 h
    rw [List.foldlM_cons] at h
    obtain ⟨X2, hstep, hrest⟩ := bind_eq_ok h
    obtain ⟨hne, _, hget⟩ := ProjPatternStep_formula hstep
    obtain ⟨ih1, ih2⟩ := ih X2 X1 hrest
    have hclass_u : ∀ j ∈ classPositions T u, X2.mem[j]? = some (classMean X T u) := by
      intro j hj
      rw [hget j, if_pos hj]
    have hother : ∀ j : Nat, j ∉ classPositions T u → X2.mem[j]? = X.mem[j]? := by
      intro j hj
      rw [hget j, if_neg hj]
    have hmean : ∀ v, classMean X2 T v = classMean X T v := by
      intro v
      by_cases hvu : v = u
      · subst hvu
        exact classMean_const hne hclass_u
      · apply classMean_congr
        intro j hj
        apply hother
        intro hju
        have h1 := mem_classPositions.mp hj
        have h2 := mem_classPositions.mp hju
        rw [h1] at h2
        exact hvu (Option.some.inj h2)
    refine ⟨?_, ?_⟩
    · intro k v hk hv
      by_cases hvus : v ∈ us
      · rw [ih1 k v hk hvus, hmean v]
      · have hvu : v = u := by
          rcases List.mem_cons.mp hv with h1 | h1
          · exact h1
          · exact absurd h1 hvus
        subst hvu
        rw [ih2 k fun w hw => by rw [hk] at hw; cases hw; exact hvus]
        exact hclass_u k (mem_classPositions.mpr hk)
    · intro k hk
      rw [ih2 k fun v hv hvus => hk v hv (List.mem_cons_of_mem _ hvus)]
      apply hother
      intro hku
      exact hk u (mem_classPositions.mp hku) (List.mem_cons_self _ _)

/-- The result of a successful `ProjPattern(X, T, un)`, position by position. -/
theorem ProjPattern_formula {X T Y : Mat α} {un : List α} (h : ProjPattern X T un = .ok Y) :
    Y.n_rows = X.n_rows ∧ Y.n_cols = X.n_cols ∧ Y.mem.length = X.mem.length ∧
    (∀ (k : Nat) (v : α), T.mem[k]? = some v → v ∈ un →
      Y.mem[k]? = some (if v = 0 then 0 else classMean X T v)) ∧
    ∀ k : Nat, T.mem[k]? = none → Y.mem[k]? = X.mem[k]? := by
  obtain ⟨d1, d2, d3, _⟩ := ProjPattern_inv h
  unfold ProjPattern at h
  obtain ⟨X1, h1, h2⟩ := bind_eq_ok h
  obtain ⟨f1, f2⟩ := foldlM_ProjPatternStep_formula T un X X1 h1
  obtain ⟨_, _, _, _, hget⟩ := elemFill_inv h2
  refine ⟨d1, d2, d3, ?_, ?_⟩
  · intro k v hk hv
    rw [hget k]
    by_cases hv0 : v = 0
    · subst hv0
      rw [if_pos (mem_find_eq.mpr hk), if_pos rfl]
    · have hnot : k ∉ find (T.mem.map fun t => decide (t = 0)) := by
        intro hmem
        have := mem_find_eq.mp hmem
        rw [hk] at this
        exact hv0 (Option.some.inj this)
      rw [if_neg hnot, if_neg hv0]
      exact f1 k v hk hv
  · intro k hk
    rw [hget k]
    have hnot : k ∉ find (T.mem.map fun t => decide (t = 0)) := by
      intro hmem
      have := mem_find_eq.mp hmem
      rw [hk] at this
      cases this
    rw [if_neg hnot]
    exact f2 k fun v hv => by rw [hk] at hv; cases hv

theorem mem_unique_of_getElem? {T : Mat α} {k : Nat} {v : α} (h : T.mem[k]? = some v) :
    v ∈ unique T :=
  mem_unique.mpr (List.mem_iff_getElem?.mpr ⟨k, h⟩)

end PatternFormula

end RobustCov

namespace RobustCov

/-! ## Claims on `ProjPattern` -/

section PatternProjectionClaims

variable {α : Type} [LinearOrderedField α]

theorem Mat.eq_of_fields {A B : Mat α} (h1 : A.n_rows = B.n_rows) (h2 : A.n_cols = B.n_cols)
    (h3 : A.mem = B.mem) : A = B := by
  cases A
  cases B
  simp only at h1 h2 h3
  subst h1 h2 h3
  rfl

theorem specProjectPattern_length (X T : Mat α) :
    (specProjectPattern X T).mem.length = X.mem.length := by
  unfold specProjectPattern
  simp

theorem specProjectPattern_some (X T : Mat α) {q : Nat} {v : α} (hlt : q < X.mem.length)
    (hq : T.mem[q]? = some v) :
    (specProjectPattern X T).mem[q]? = some (if v = 0 then 0 else classMean X T v) := by
  unfold specProjectPattern
  simp only [List.getElem?_map, List.getElem?_range hlt, Option.map_some', hq]

theorem specProjectPattern_none (X T : Mat α) {q : Nat} (hlt : q < X.mem.length)
    (hq : T.mem[q]? = none) :
    (specProjectPattern X T).mem[q]? = some (X.mem.getD q 0) := by
  unfold specProjectPattern
  simp only [List.getElem?_map, List.getElem?_range hlt, Option.map_some', hq]

/-- A successful `ProjPattern(X, T, unique(T))` is the per-class averaging of the
specification. -/
theorem ProjPattern_eq_spec {X T Y : Mat α} (h : ProjPattern X T (unique T) = .ok Y) :
    Y = specProjectPattern X T := by
  obtain ⟨d1, d2, d3, f1, f2⟩ := ProjPattern_formula h
  refine Mat.eq_of_fields (B := specProjectPattern X T) d1 d2 ?_
  apply List.ext_getElem?
  intro k
  by_cases hk : k < X.mem.length
  · cases hT : T.mem[k]? with
    | none =>
      rw [f2 k hT, specProjectPattern_none X T hk hT, List.getElem?_eq_getElem hk,
        List.getD_eq_getElem _ _ hk]
    | some v => rw [f1 k v hT (mem_unique_of_getElem? hT), specProjectPattern_some X T hk hT]
  · rw [List.getElem?_eq_none (by omega),
      List.getElem?_eq_none (by rw [specProjectPattern_length]; omega)]

theorem specProjectPattern_getElem? (X T : Mat α) {q : Nat} {v : α}
    (hlen : X.mem.length = T.mem.length) (hq : T.mem[q]? = some v) :
    (specProjectPattern X T).mem[q]? = some (if v = 0 then 0 else classMean X T v) := by
  have hlt : q < X.mem.length := by
    rw [hlen]
    by_contra hn
    rw [List.getElem?_eq_none (by omega)] at hq
    cases hq
  exact specProjectPattern_some X T hlt hq

/-- C11: for every matrix `X` and every template `T` with as many elements, with `un` the list
of the distinct values of `T` (zero included when present), `ProjPattern(X, T, un)` returns the
per-class averaging of the specification: at every position `q` with `T[q] = v ≠ 0` it holds the
arithmetic mean of the original `X` over all positions whose template value is `v`, and `0` at
every position with `T[q] = 0`. -/
theorem ProjPattern_class_means (X T : Mat α) (hlen : X.mem.length = T.mem.length) :
    ProjPattern X T (unique T) = .ok (specProjectPattern X T) ∧
    ∀ (q : Nat) (v : α), T.mem[q]? = some v →
      (specProjectPattern X T).mem[q]? = some (if v = 0 then 0 else classMean X T v) := by
  obtain ⟨Y, hY⟩ : ∃ Y, ProjPattern X T (unique T) = .ok Y :=
    ProjPattern_ok hlen fun u hu => mem_unique.mp hu
  have hYeq := ProjPattern_eq_spec hY
  rw [hYeq] at hY
  exact ⟨hY, fun q v hq => specProjectPattern_getElem? X T hlen hq⟩

/-- Witness for C11: `X = [[1, 3], [2, 4]]` with the template `[[5, 7], [7, 0]]`: the class of
`7` is averaged to `5/2` and the position of the `0` is set to `0`. -/
theorem ProjPattern_class_means_witness :
    (⟨2, 2, [1, 2, 3, 4]⟩ : Mat ℚ).mem.length = (⟨2, 2, [5, 7, 7, 0]⟩ : Mat ℚ).mem.length ∧
    ProjPattern (⟨2, 2, [1, 2, 3, 4]⟩ : Mat ℚ) ⟨2, 2, [5, 7, 7, 0]⟩ (unique ⟨2, 2, [5, 7, 7, 0]⟩) =
      .ok ⟨2, 2, [1, 5 / 2, 5 / 2, 0]⟩ :=
  ⟨rfl, (ProjPattern_class_means (⟨2, 2, [1, 2, 3, 4]⟩ : Mat ℚ) ⟨2, 2, [5, 7, 7, 0]⟩ rfl).1.trans
    (by decide!)⟩

end PatternProjectionClaims

end RobustCov

namespace RobustCov

/-! ## The pattern invariant of the loop of `nearPPSD` -/

section PatternInvariant

variable {α : Type} [LinearOrderedField α]

/-- The result of `ProjPattern(X, T, unique(T))` respects the pattern of `T`. -/
theorem ProjPattern_respectsPattern {X T Y : Mat α} (h : ProjPattern X T (unique T) = .ok Y) :
    RespectsPattern T Y := by
  obtain ⟨_, _, _, f1, _⟩ := ProjPattern_formula h
  refine ⟨?_, ?_⟩
  · intro k hk
    rw [f1 k 0 hk (mem_unique_of_getElem? hk), if_pos rfl]
  · intro k l v hk hl
    rw [f1 k v hk (mem_unique_of_getElem? hk), f1 l v hl (mem_unique_of_getElem? hl)]
    exact ⟨rfl, rfl⟩

/-- The state in which the loop of `nearPPSD` exits is the end of one of its iterations. -/
theorem nearPPSDLoop_iterationEnd (eig_sym : Mat α → List α × Mat α) (norm : Mat α → α)
    (X : Mat α) (eigenTol convTol : α) (maxit : Int) :
    ∀ (fuel : Nat) (Y DS : Mat α) (iter : Int) (s : NPDState α),
      (∀ s1, nearPPSDBody eig_sym norm X (unique X) (X.n_cols : Int) eigenTol convTol Y DS
        iter = .ok s1 → IterationEnd eig_sym norm X eigenTol convTol maxit s1) →
      nearPPSDLoop eig_sym norm X (unique X) (X.n_cols : Int) eigenTol convTol maxit fuel Y DS
        iter = .ok s →
      IterationEnd eig_sym norm X eigenTol convTol maxit s := by
  intro fuel
  induction fuel with
  | zero =>
    intro Y DS iter s hstart h
    rcases hb : nearPPSDBody eig_sym norm X (unique X) (X.n_cols : Int) eigenTol convTol Y DS
      iter with e | s1
    · rw [nearPPSDLoop_body_error hb] at h; cases h
    · rcases hc : nearPPSDCond eig_sym maxit s1 with e | b
      · rw [nearPPSDLoop_cond_error hb hc] at h; cases h
      · cases b with
        | true =>
          unfold nearPPSDLoop at h
          simp only [hb, hc, bind, Except.bind] at h
          cases h
        | false =>
          rw [nearPPSDLoop_exit hb hc] at h
          cases h
          exact hstart _ hb
  | succ fuel ih =>
    intro Y DS iter s hstart h
    rcases hb : nearPPSDBody eig_sym norm X (unique X) (X.n_cols : Int) eigenTol convTol Y DS
      iter with e | s1
    · rw [nearPPSDLoop_body_error hb] at h; cases h
    · rcases hc : nearPPSDCond eig_sym maxit s1 with e | b
      · rw [nearPPSDLoop_cond_error hb hc] at h; cases h
      · cases b with
        | true =>
          rw [nearPPSDLoop_again hb hc] at h
          exact ih s1.Y s1.DS s1.iter s
            (fun s2 hs2 => IterationEnd.next (hstart s1 hb) hc hs2) h
        | false =>
          rw [nearPPSDLoop_exit hb hc] at h
          cases h
          exact hstart _ hb

theorem nearPPSDRun_iterationEnd (eig_sym : Mat α → List α × Mat α) (norm : Mat α → α)
    (X : Mat α) (eigenTol convTol psdTol : α) (maxit : Int) (s : NPDState α)
    (h : nearPPSDRun eig_sym norm X eigenTol convTol psdTol maxit = .ok s) :
    IterationEnd eig_sym norm X eigenTol convTol maxit s := by
  unfold nearPPSDRun at h
  exact nearPPSDLoop_iterationEnd eig_sym norm X eigenTol convTol maxit _ _ _ _ s
    (fun s1 hs1 => IterationEnd.first hs1) h

/-- C12: loop invariant of `nearPPSD`: at the end of every iteration (the first, and each one
entered because the loop condition held), the pattern-projected candidate `Y` is exactly `0` at
every position where the original input `X0` is `0`, and any two positions with equal `X0` value
hold equal values in `Y`. -/
theorem nearPPSD_iteration_respects_pattern (eig_sym : Mat α → List α × Mat α)
    (norm : Mat α → α) (X0 : Mat α) (eigenTol convTol : α) (maxit : Int) (s : NPDState α)
    (h : IterationEnd eig_sym norm X0 eigenTol convTol maxit s) : RespectsPattern X0 s.Y := by
  have key : ∀ (Y DS : Mat α) (iter : Int),
      nearPPSDBody eig_sym norm X0 (unique X0) (X0.n_cols : Int) eigenTol convTol Y DS
        iter = .ok s → RespectsPattern X0 s.Y := by
    intro Y DS iter hb
    obtain ⟨R, X1, Y1, DS1, D, _, _, hY, _, _, hs⟩ := nearPPSDBody_inv hb
    rw [hs]
    exact ProjPattern_respectsPattern hY
  cases h with
  | first hb => exact key _ _ _ hb
  | next _ _ hb => exact key _ _ _ hb

/-- Witness for C12: the first iteration of the loop on the input `[[7, 12], [12, 0]]`, for any
norm.  The template holds `12` at the linear positions `1` and `2` and `0` at position `3`; the
PSD projection is `[[256/25, 192/25], [192/25, 144/25]]`, and in the pattern-projected
`Y = [[256/25, 192/25], [192/25, 0]]` the positions `1` and `2` hold the same value and
position `3` holds `0`. -/
theorem nearPPSD_iteration_respects_pattern_witness :
    ((⟨2, 2, [7, 12, 12, 0]⟩ : Mat ℚ).mem[1]? = (⟨2, 2, [7, 12, 12, 0]⟩ : Mat ℚ).mem[2]? ∧
      (⟨2, 2, [7, 12, 12, 0]⟩ : Mat ℚ).mem[3]? = some 0) ∧
    ∀ norm : Mat ℚ → ℚ,
      IterationEnd eig_sym_ex norm ⟨2, 2, [7, 12, 12, 0]⟩ (1 / 1000000) (1 / 10000000) 1000
        ⟨⟨2, 2, [256 / 25, 192 / 25, 192 / 25, 144 / 25]⟩,
          ⟨2, 2, [256 / 25, 192 / 25, 192 / 25, 0]⟩,
          ⟨2, 2, [81 / 25, -108 / 25, -108 / 25, 144 / 25]⟩,
          ⟨2, 2, [7, 12, 12, 0]⟩, 1,
          ratioLe (norm ⟨2, 2, [0, 0, 0, -144 / 25]⟩)
            (norm ⟨2, 2, [256 / 25, 192 / 25, 192 / 25, 0]⟩) (1 / 10000000)⟩ ∧
      RespectsPattern (⟨2, 2, [7, 12, 12, 0]⟩ : Mat ℚ)
        ⟨2, 2, [256 / 25, 192 / 25, 192 / 25, 0]⟩ :=
  ⟨by decide!, fun norm =>
    have h1 : IterationEnd eig_sym_ex norm ⟨2, 2, [7, 12, 12, 0]⟩ (1 / 1000000)
        (1 / 10000000) 1000
        ⟨⟨2, 2, [256 / 25, 192 / 25, 192 / 25, 144 / 25]⟩,
          ⟨2, 2, [256 / 25, 192 / 25, 192 / 25, 0]⟩,
          ⟨2, 2, [81 / 25, -108 / 25, -108 / 25, 144 / 25]⟩,
          ⟨2, 2, [7, 12, 12, 0]⟩, 1,
          ratioLe (norm ⟨2, 2, [0, 0, 0, -144 / 25]⟩)
            (norm ⟨2, 2, [256 / 25, 192 / 25, 192 / 25, 0]⟩) (1 / 10000000)⟩ :=
      IterationEnd.first (nearPPSDBody_worked_example norm (1 / 10000000))
    ⟨h1, nearPPSD_iteration_respects_pattern eig_sym_ex norm ⟨2, 2, [7, 12, 12, 0]⟩
      (1 / 1000000) (1 / 10000000) 1000 _ h1⟩⟩

end PatternInvariant

end RobustCov

namespace RobustCov

/-! ## Quadratic forms of matrices `B · diag(t) · Bᵀ` -/

section Gram

variable {α : Type} [LinearOrderedField α]

end Gram

end RobustCov

namespace RobustCov

/-! ## `ProjPSD` is a projection into the positive semi-definite matrices -/

section PSDProjection

variable {α : Type} [LinearOrderedField α]

end PSDProjection

end RobustCov

namespace RobustCov

/-! ## `covOGK` -/

section OGK

variable {α : Type} [LinearOrderedField α]

end OGK

end RobustCov

namespace RobustCov

/-! ## Rounding to the nearest double, and the pairwise assembly in a rounding arithmetic -/

section RoundingLemmas

variable {α : Type} [LinearOrderedField α]

theorem exact_signPreserving : (Arith.exact : Arith α).SignPreserving :=
  ⟨fun _ _ h => h, fun _ _ h => h, fun _ _ h => h⟩

end RoundingLemmas

section RoundedAssembly

variable {α : Type} [LinearOrderedField α]

end RoundedAssembly

section PrincipalMinors

variable {α : Type} [LinearOrderedField α]

end PrincipalMinors

end RobustCov

namespace RobustCov

/-! ## `ProjPattern` in a rounding arithmetic -/

section RoundedPattern

variable {α : Type} [LinearOrderedField α]

theorem rounded_mean_inv {ar : Arith α} {v : List α} {m : α} (h : Rounded.mean ar v = .ok m) :
    v ≠ [] := by
  cases v with
  | nil => cases h
  | cons x xs => exact List.cons_ne_nil _ _

theorem rounded_mean_ok (ar : Arith α) {v : List α} (h : v ≠ []) :
    ∃ m, Rounded.mean ar v = .ok m := by
  cases v with
  | nil => exact absurd rfl h
  | cons x xs => exact ⟨_, rfl⟩

theorem classValues_congr {X X1 T : Mat α} {v : α}
    (h : ∀ k ∈ classPositions T v, X1.mem[k]? = X.mem[k]?) :
    classValues X1 T v = classValues X T v := by
  unfold classValues
  apply List.map_congr_left
  intro k hk
  rw [List.getD_eq_getElem?_getD, List.getD_eq_getElem?_getD, h k hk]

theorem classValues_const {X T : Mat α} {v m : α}
    (h : ∀ k ∈ classPositions T v, X.mem[k]? = some m) :
    classValues X T v = List.replicate (classPositions T v).length m := by
  unfold classValues
  rw [List.eq_replicate_iff]
  refine ⟨List.length_map _ _, ?_⟩
  intro b hb
  obtain ⟨k, hk, rfl⟩ := List.mem_map.mp hb
  rw [List.getD_eq_getElem?_getD, h k hk]
  rfl

/-- What a successful round of `ProjPattern` in the arithmetic `ar` has done for the value `u`:
exactly the positions of the class of `u` now hold the mean, as `ar` computes it, of the values
of `X` over the class. -/
theorem rounded_ProjPatternStep_formula {ar : Arith α} {T X X1 : Mat α} {u : α}
    (h : Rounded.ProjPatternStep ar T X u = .ok X1) :
    (X1.n_rows = X.n_rows ∧ X1.n_cols = X.n_cols ∧ X1.mem.length = X.mem.length) ∧
    ∃ m, Rounded.mean ar (classValues X T u) = .ok m ∧
      ∀ k, X1.mem[k]? = if k ∈ classPositions T u then some m else X.mem[k]? := by
  unfold Rounded.ProjPatternStep at h
  rw [find_eq_classPositions] at h
  obtain ⟨sub, hsub, h⟩ := bind_eq_ok h
  obtain ⟨m, hm, h⟩ := bind_eq_ok h
  have hsubeq := elem_inv hsub
  obtain ⟨_, a1, a2, a3, hget⟩ := elemFill_inv h
  refine ⟨⟨a1, a2, a3⟩, m, ?_, hget⟩
  rw [hsubeq] at hm
  exact hm

theorem rounded_ProjPatternStep_ok (ar : Arith α) {X0 X : Mat α} {u : α}
    (hlen : X.mem.length = X0.mem.length) (hu : u ∈ X0.mem) :
    ∃ X1, Rounded.ProjPatternStep ar X0 X u = .ok X1 := by
  have hidx : ∀ k ∈ find (X0.mem.map fun t => decide (t = u)), k < X.mem.length := by
    intro k hk
    rw [hlen]
    exact find_eq_lt hk
  obtain ⟨k, hk⟩ : ∃ k, X0.mem[k]? = some u := List.mem_iff_getElem?.mp hu
  have hkm : k ∈ find (X0.mem.map fun t => decide (t = u)) := mem_find_eq.mpr hk
  have hne : ((find (X0.mem.map fun t => decide (t = u))).map fun k => X.mem.getD k 0) ≠ [] := by
    intro hnil
    rw [List.map_eq_nil_iff] at hnil
    rw [hnil] at hkm
    cases hkm
  obtain ⟨m, hm⟩ := rounded_mean_ok ar hne
  unfold Rounded.ProjPatternStep
  simp only [elem_ok hidx, hm, bind, Except.bind]
  exact elemFill_ok _ hidx

/-- After the rounds for the distinct values `un`, in the arithmetic `ar`: a position whose
template value `v` is in `un` holds the mean, as `ar` computes it, of the values of the original
`X` over the class of `v`; every other position is unchanged. -/
theorem rounded_foldlM_formula (ar : Arith α) (T : Mat α) : ∀ (un : List α), un.Nodup →
    ∀ (X X1 : Mat α), un.foldlM (Rounded.ProjPatternStep ar T) X = .ok X1 →
    (X1.n_rows = X.n_rows ∧ X1.n_cols = X.n_cols ∧ X1.mem.length = X.mem.length) ∧
    (∀ (k : Nat) (v : α), T.mem[k]? = some v → v ∈ un →
      ∃ m, Rounded.mean ar (classValues X T v) = .ok m ∧ X1.mem[k]? = some m) ∧
    ∀ k : Nat, (∀ v, T.mem[k]? = some v → v ∉ un) → X1.mem[k]? = X.mem[k]? := by
  intro un
  induction un with
  | nil =>
    intro _ X X1 h
    cases h
    exact ⟨⟨rfl, rfl, rfl⟩, fun k v _ hv => absurd hv (List.not_mem_nil v), fun k _ => rfl⟩
  | cons u us ih =>
    intro hnd X X1 h
    obtain ⟨hu, hnd2⟩ := List.nodup_cons.mp hnd
    rw [List.foldlM_cons] at h
    obtain ⟨X2, hstep, hrest⟩ := bind_eq_ok h
    obtain ⟨⟨a1, a2, a3⟩, m, hm, hget⟩ := rounded_ProjPatternStep_formula hstep
    obtain ⟨⟨b1, b2, b3⟩, ih1, ih2⟩ := ih hnd2 X2 X1 hrest
    have hother : ∀ j : Nat, j ∉ classPositions T u → X2.mem[j]? = X.mem[j]? := by
      intro j hj
      rw [hget j, if_neg hj]
    refine ⟨⟨b1.trans a1, b2.trans a2, b3.trans a3⟩, ?_, ?_⟩
    · intro k v hk hv
      by_cases hvus : v ∈ us
      · obtain ⟨m2, hm2, hk2⟩ := ih1 k v hk hvus
        refine ⟨m2, ?_, hk2⟩
        have hvu : v ≠ u := fun e => hu (e ▸ hvus)
        rw [← hm2]
        congr 1
        symm
        apply classValues_congr
        intro j hj
        apply hother
        intro hju
        have h1 := mem_classPositions.mp hj
        have h2 := mem_classPositions.mp hju
        rw [h1] at h2
        exact hvu (Option.some.inj h2)
      · have hvu : v = u := by
          rcases List.mem_cons.mp hv with h1 | h1
          · exact h1
          · exact absurd h1 hvus
        subst hvu
        refine ⟨m, hm, ?_⟩
        rw [ih2 k fun w hw => by rw [hk] at hw; cases hw; exact hvus]
        rw [hget k, if_pos (mem_classPositions.mpr hk)]
    · intro k hk
      rw [ih2 k fun v hv hvus => hk v hv (List.mem_cons_of_mem _ hvus)]
      apply hother
      intro hku
      exact hk u (mem_classPositions.mp hku) (List.mem_cons_self _ _)

theorem unique_nodup (T : Mat α) : (unique T).Nodup := List.nodup_dedup _

/-- The result of a successful `ProjPattern(X, T, unique(T))` in the arithmetic `ar`, position
by position. -/
theorem rounded_ProjPattern_formula {ar : Arith α} {X T Y : Mat α}
    (h : Rounded.ProjPattern ar X T (unique T) = .ok Y) :
    Y.n_rows = X.n_rows ∧ Y.n_cols = X.n_cols ∧ Y.mem.length = X.mem.length ∧
    (∀ (k : Nat) (v : α), T.mem[k]? = some v →
      ∃ m, Rounded.mean ar (classValues X T v) = .ok m ∧
        Y.mem[k]? = some (if v = 0 then 0 else m)) ∧
    ∀ k : Nat, T.mem[k]? = none → Y.mem[k]? = X.mem[k]? := by
  unfold Rounded.ProjPattern at h
  obtain ⟨X1, h1, h2⟩ := bind_eq_ok h
  obtain ⟨⟨c1, c2, c3⟩, f1, f2⟩ := rounded_foldlM_formula ar T (unique T) (unique_nodup T) X X1 h1
  obtain ⟨_, e1, e2, e3, hget⟩ := elemFill_inv h2
  refine ⟨e1.trans c1, e2.trans c2, e3.trans c3, ?_, ?_⟩
  · intro k v hk
    obtain ⟨m, hm, hkm⟩ := f1 k v hk (mem_unique_of_getElem? hk)
    refine ⟨m, hm, ?_⟩
    rw [hget k]
    by_cases hv0 : v = 0
    · subst hv0
      rw [if_pos (mem_find_eq.mpr hk), if_pos rfl]
    · have hnot : k ∉ find (T.mem.map fun t => decide (t = 0)) := by
        intro hmem
        have := mem_find_eq.mp hmem
        rw [hk] at this
        exact hv0 (Option.some.inj this)
      rw [if_neg hnot, if_neg hv0]
      exact hkm
  · intro k hk
    rw [hget k]
    have hnot : k ∉ find (T.mem.map fun t => decide (t = 0)) := by
      intro hmem
      have := mem_find_eq.mp hmem
      rw [hk] at this
      cases this
    rw [if_neg hnot]
    exact f2 k fun v hv => by rw [hk] at hv; cases hv

theorem rounded_foldlM_ok (ar : Arith α) (X0 : Mat α) : ∀ (un : List α) (X : Mat α),
    X.mem.length = X0.mem.length → (∀ u ∈ un, u ∈ X0.mem) →
    ∃ X1, un.foldlM (Rounded.ProjPatternStep ar X0) X = .ok X1 ∧
      X1.mem.length = X.mem.length := by
  intro un
  induction un with
  | nil => intro X _ _; exact ⟨X, rfl, rfl⟩
  | cons u un ih =>
    intro X hlen hun
    obtain ⟨X2, h2⟩ := rounded_ProjPatternStep_ok ar hlen (hun u (List.mem_cons_self _ _))
    obtain ⟨⟨_, _, a3⟩, _⟩ := rounded_ProjPatternStep_formula h2
    obtain ⟨X1, h1, l1⟩ := ih X2 (a3.trans hlen) fun v hv => hun v (List.mem_cons_of_mem _ hv)
    refine ⟨X1, ?_, l1.trans a3⟩
    rw [List.foldlM_cons]
    simp only [h2, bind, Except.bind]
    exact h1

/-- In any arithmetic, `ProjPattern(X, T, unique(T))` returns normally when `X` has as many
elements as the template. -/
theorem rounded_ProjPattern_ok (ar : Arith α) {X T : Mat α}
    (hlen : X.mem.length = T.mem.length) :
    ∃ Y, Rounded.ProjPattern ar X T (unique T) = .ok Y := by
  obtain ⟨X1, h1, a3⟩ := rounded_foldlM_ok ar T (unique T) X hlen fun u hu => mem_unique.mp hu
  have hidx : ∀ k ∈ find (T.mem.map fun t => decide (t = 0)), k < X1.mem.length := by
    intro k hk
    rw [a3, hlen]
    exact find_eq_lt hk
  obtain ⟨Y, hY⟩ := elemFill_ok (0 : α) hidx
  refine ⟨Y, ?_⟩
  unfold Rounded.ProjPattern
  simp only [h1, bind, Except.bind]
  exact hY


theorem rounded_mean_inj {ar : Arith α} {v : List α} {m m2 : α}
    (h : Rounded.mean ar v = .ok m) (h2 : Rounded.mean ar v = .ok m2) : m = m2 := by
  rw [h] at h2
  exact Except.ok.inj h2

theorem classPositions_ne_nil {T : Mat α} {k : Nat} {v : α} (h : T.mem[k]? = some v) :
    classPositions T v ≠ [] := by
  intro hnil
  have := mem_classPositions.mpr h
  rw [hnil] at this
  cases this

/-- The result of a successful `ProjPattern(X, T, unique(T))`, in any arithmetic, respects the
pattern of `T`. -/
theorem rounded_ProjPattern_respectsPattern {ar : Arith α} {X T Y : Mat α}
    (h : Rounded.ProjPattern ar X T (unique T) = .ok Y) : RespectsPattern T Y := by
  obtain ⟨_, _, _, f1, _⟩ := rounded_ProjPattern_formula h
  refine ⟨?_, ?_⟩
  · intro k hk
    obtain ⟨m, _, hm⟩ := f1 k 0 hk
    rw [hm, if_pos rfl]
  · intro k l v hk hl
    obtain ⟨m, hm, hkm⟩ := f1 k v hk
    obtain ⟨m2, hm2, hlm⟩ := f1 l v hl
    rw [hkm, hlm, rounded_mean_inj hm hm2]
    exact ⟨rfl, rfl⟩

/-- C16, as stated, fails in double arithmetic: the matrix `[[0.1, 0.1], [0.1, 5]]` (with `0.1`
the double nearest to it) is not a fixed point: the mean of its three entries `0.1` is computed
as `(0.1 + 0.1 + 0.1) / 3 = 0.30000000000000004 / 3 = 0.10000000000000002`. -/
theorem ProjPattern_own_template_counterexample :
    fl (1 / 10) = 3602879701896397 / 36028797018963968 ∧
    Rounded.ProjPattern Arith.binary64
      ⟨2, 2, [3602879701896397 / 36028797018963968, 3602879701896397 / 36028797018963968,
        3602879701896397 / 36028797018963968, 5]⟩
      ⟨2, 2, [3602879701896397 / 36028797018963968, 3602879701896397 / 36028797018963968,
        3602879701896397 / 36028797018963968, 5]⟩
      (unique ⟨2, 2, [3602879701896397 / 36028797018963968,
        3602879701896397 / 36028797018963968, 3602879701896397 / 36028797018963968, 5]⟩) =
      .ok ⟨2, 2, [7205759403792795 / 72057594037927936, 7205759403792795 / 72057594037927936,
        7205759403792795 / 72057594037927936, 5]⟩ ∧
    (7205759403792795 / 72057594037927936 : ℚ) ≠ 3602879701896397 / 36028797018963968 := by
  decide!

/-- C16, amended: every matrix `X0` respects its own pattern, and in whatever arithmetic the
class means are computed, `ProjPattern(X0, X0, unique(X0))` returns a matrix `Y` of the shape of
`X0` that respects the pattern of `X0`; at a position holding a non-zero value `v` the result
holds the mean, as computed, of `n` copies of `v`, where `n` is the number of positions of `X0`
holding `v`.  So `Y = X0` exactly when the mean of every class of equal non-zero values is
computed as that value. -/
theorem ProjPattern_own_template (ar : Arith α) (X0 : Mat α) :
    ∃ Y, Rounded.ProjPattern ar X0 X0 (unique X0) = .ok Y ∧
      Y.n_rows = X0.n_rows ∧ Y.n_cols = X0.n_cols ∧ RespectsPattern X0 X0 ∧
      RespectsPattern X0 Y ∧
      (∀ (k : Nat) (v : α), X0.mem[k]? = some v → v ≠ 0 →
        ∃ m, Rounded.mean ar (List.replicate (classPositions X0 v).length v) = .ok m ∧
          Y.mem[k]? = some m) ∧
      (Y = X0 ↔ ∀ v ∈ X0.mem, v ≠ 0 →
        Rounded.mean ar (List.replicate (classPositions X0 v).length v) = .ok v) := by
  obtain ⟨Y, hY⟩ := rounded_ProjPattern_ok ar (rfl : X0.mem.length = X0.mem.length)
  obtain ⟨d1, d2, d3, f1, _⟩ := rounded_ProjPattern_formula hY
  have hcv : ∀ v, classValues X0 X0 v = List.replicate (classPositions X0 v).length v :=
    fun v => classValues_const fun k hk => mem_classPositions.mp hk
  have hform : ∀ (k : Nat) (v : α), X0.mem[k]? = some v → v ≠ 0 →
      ∃ m, Rounded.mean ar (List.replicate (classPositions X0 v).length v) = .ok m ∧
        Y.mem[k]? = some m := by
    intro k v hk hv
    obtain ⟨m, hm, hkm⟩ := f1 k v hk
    rw [hcv v] at hm
    rw [if_neg hv] at hkm
    exact ⟨m, hm, hkm⟩
  have hself : RespectsPattern X0 X0 := by
    refine ⟨fun k hk => hk, ?_⟩
    intro k l v hk hl
    rw [hk, hl]
    exact ⟨rfl, rfl⟩
  refine ⟨Y, hY, d1, d2, hself, rounded_ProjPattern_respectsPattern hY, hform, ?_, ?_⟩
  · intro hYX v hv hv0
    obtain ⟨k, hk⟩ : ∃ k, X0.mem[k]? = some v := List.mem_iff_getElem?.mp hv
    obtain ⟨m, hm, hkm⟩ := hform k v hk hv0
    rw [hYX, hk] at hkm
    rw [hm, ← Option.some.inj hkm]
  · intro hex
    refine Mat.eq_of_fields d1 d2 ?_
    apply List.ext_getElem?
    intro k
    cases hk : X0.mem[k]? with
    | none =>
      apply List.getElem?_eq_none
      have := List.getElem?_eq_none_iff.mp hk
      omega
    | some v =>
      by_cases hv0 : v = 0
      · subst hv0
        obtain ⟨m, _, hkm⟩ := f1 k 0 hk
        rw [hkm, if_pos rfl]
      · obtain ⟨m, hm, hkm⟩ := hform k v hk hv0
        have hv : v ∈ X0.mem := List.mem_iff_getElem?.mpr ⟨k, hk⟩
        rw [hkm, rounded_mean_inj hm (hex v hv hv0)]


/-- C17, as stated, fails in double arithmetic: with the template `[[1, 1], [1, 1], [1, 2]]`
(given column by column below) and `X` holding `0.21` at the five positions of the class of `1`,
the first projection fills the class with
`((0.21 + 0.21 + 0.21) + (0.21 + 0.21)) / 5 = 0.21000000000000002`, and the second projection
fills it with the mean of five copies of that value, `0.21000000000000005`. -/
theorem ProjPattern_idempotent_counterexample :
    fl (21 / 100) = 7566047373982433 / 36028797018963968 ∧
    Rounded.ProjPattern Arith.binary64
      ⟨3, 2, [7566047373982433 / 36028797018963968, 7566047373982433 / 36028797018963968,
        7566047373982433 / 36028797018963968, 7566047373982433 / 36028797018963968,
        7566047373982433 / 36028797018963968, 7]⟩
      ⟨3, 2, [1, 1, 1, 1, 1, 2]⟩ (unique ⟨3, 2, [1, 1, 1, 1, 1, 2]⟩) =
      .ok ⟨3, 2, [3783023686991217 / 18014398509481984, 3783023686991217 / 18014398509481984,
        3783023686991217 / 18014398509481984, 3783023686991217 / 18014398509481984,
        3783023686991217 / 18014398509481984, 7]⟩ ∧
    Rounded.ProjPattern Arith.binary64
      ⟨3, 2, [3783023686991217 / 18014398509481984, 3783023686991217 / 18014398509481984,
        3783023686991217 / 18014398509481984, 3783023686991217 / 18014398509481984,
        3783023686991217 / 18014398509481984, 7]⟩
      ⟨3, 2, [1, 1, 1, 1, 1, 2]⟩ (unique ⟨3, 2, [1, 1, 1, 1, 1, 2]⟩) =
      .ok ⟨3, 2, [7566047373982435 / 36028797018963968, 7566047373982435 / 36028797018963968,
        7566047373982435 / 36028797018963968, 7566047373982435 / 36028797018963968,
        7566047373982435 / 36028797018963968, 7]⟩ ∧
    (7566047373982435 / 36028797018963968 : ℚ) ≠ 3783023686991217 / 18014398509481984 := by
  decide!


/-- C17, amended: for every matrix `X`, every template `T` with as many elements and
`un = unique(T)`, in whatever arithmetic the class means are computed: both projections return
normally; they are `0` at every position where `T` is `0`; at a position of the class of a
non-zero value `v` the first holds the mean `m` of `X` over the class, and the second holds the
mean, as computed, of `n` copies of `m` (`n` the size of the class).  So the second projection
changes nothing exactly when, for every class of a non-zero value, the mean of `n` copies of the
class mean `m` is computed as `m`. -/
theorem ProjPattern_twice (ar : Arith α) (X T : Mat α) (hlen : X.mem.length = T.mem.length) :
    ∃ Y Y2, Rounded.ProjPattern ar X T (unique T) = .ok Y ∧
      Rounded.ProjPattern ar Y T (unique T) = .ok Y2 ∧
      (∀ k : Nat, T.mem[k]? = some 0 → Y.mem[k]? = some 0 ∧ Y2.mem[k]? = some 0) ∧
      (∀ (k : Nat) (v : α), T.mem[k]? = some v → v ≠ 0 →
        ∃ m m2, Rounded.mean ar (classValues X T v) = .ok m ∧
          Rounded.mean ar (List.replicate (classPositions T v).length m) = .ok m2 ∧
          Y.mem[k]? = some m ∧ Y2.mem[k]? = some m2) ∧
      (Y2 = Y ↔ ∀ v ∈ T.mem, v ≠ 0 → ∀ m, Rounded.mean ar (classValues X T v) = .ok m →
        Rounded.mean ar (List.replicate (classPositions T v).length m) = .ok m) := by
  obtain ⟨Y, hY⟩ := rounded_ProjPattern_ok ar hlen
  obtain ⟨d1, d2, d3, f1, _⟩ := rounded_ProjPattern_formula hY
  obtain ⟨Y2, hY2⟩ := rounded_ProjPattern_ok ar (d3.trans hlen)
  obtain ⟨e1, e2, e3, g1, _⟩ := rounded_ProjPattern_formula hY2
  have hform : ∀ (k : Nat) (v : α), T.mem[k]? = some v → v ≠ 0 →
      ∃ m m2, Rounded.mean ar (classValues X T v) = .ok m ∧
        Rounded.mean ar (List.replicate (classPositions T v).length m) = .ok m2 ∧
        Y.mem[k]? = some m ∧ Y2.mem[k]? = some m2 := by
    intro k v hk hv
    obtain ⟨m, hm, hkm⟩ := f1 k v hk
    obtain ⟨m2, hm2, hkm2⟩ := g1 k v hk
    rw [if_neg hv] at hkm hkm2
    have hconst : classValues Y T v = List.replicate (classPositions T v).length m := by
      apply classValues_const
      intro j hj
      obtain ⟨mj, hmj, hjm⟩ := f1 j v (mem_classPositions.mp hj)
      rw [hjm, if_neg hv, rounded_mean_inj hmj hm]
    rw [hconst] at hm2
    exact ⟨m, m2, hm, hm2, hkm, hkm2⟩
  refine ⟨Y, Y2, hY, hY2, ?_, hform, ?_, ?_⟩
  · intro k hk
    obtain ⟨m, _, hkm⟩ := f1 k 0 hk
    obtain ⟨m2, _, hkm2⟩ := g1 k 0 hk
    rw [hkm, hkm2, if_pos rfl, if_pos rfl]
    exact ⟨rfl, rfl⟩
  · intro hYY v hv hv0 m hm
    obtain ⟨k, hk⟩ : ∃ k, T.mem[k]? = some v := List.mem_iff_getElem?.mp hv
    obtain ⟨m1, m2, hm1, hm2, hk1, hk2⟩ := hform k v hk hv0
    have e := rounded_mean_inj hm1 hm
    subst e
    rw [hYY, hk1] at hk2
    rw [hm2, ← Option.some.inj hk2]
  · intro hex
    refine Mat.eq_of_fields e1 e2 ?_
    apply List.ext_getElem?
    intro k
    cases hk : T.mem[k]? with
    | none =>
      have hge := List.getElem?_eq_none_iff.mp hk
      rw [List.getElem?_eq_none (by omega), List.getElem?_eq_none (by omega)]
    | some v =>
      by_cases hv0 : v = 0
      · subst hv0
        obtain ⟨m, _, hkm⟩ := f1 k 0 hk
        obtain ⟨m2, _, hkm2⟩ := g1 k 0 hk
        rw [hkm, hkm2, if_pos rfl, if_pos rfl]
      · obtain ⟨m, m2, hm, hm2, hk1, hk2⟩ := hform k v hk hv0
        have hv : v ∈ T.mem := List.mem_iff_getElem?.mpr ⟨k, hk⟩
        rw [hk1, hk2, rounded_mean_inj hm2 (hex v hv hv0 m hm)]

/-- Witness for C17 (amended): binary64 arithmetic, the template `[[1, 2], [1, 0]]` and
`X = [[1, 5], [3, 7]]` (both column by column below): the class of `1` has the mean
`(1 + 3) / 2 = 2`, computed exactly, and the second projection returns the result of the
first. -/
theorem ProjPattern_twice_witness :
    (⟨2, 2, [1, 3, 5, 7]⟩ : Mat ℚ).mem.length = (⟨2, 2, [1, 1, 2, 0]⟩ : Mat ℚ).mem.length ∧
    Rounded.ProjPattern Arith.binary64 ⟨2, 2, [1, 3, 5, 7]⟩ ⟨2, 2, [1, 1, 2, 0]⟩
      (unique ⟨2, 2, [1, 1, 2, 0]⟩) = .ok ⟨2, 2, [2, 2, 5, 0]⟩ ∧
    Rounded.ProjPattern Arith.binary64 ⟨2, 2, [2, 2, 5, 0]⟩ ⟨2, 2, [1, 1, 2, 0]⟩
      (unique ⟨2, 2, [1, 1, 2, 0]⟩) = .ok ⟨2, 2, [2, 2, 5, 0]⟩ ∧
    ∃ Y Y2 : Mat ℚ, Rounded.ProjPattern Arith.binary64 ⟨2, 2, [1, 3, 5, 7]⟩
        ⟨2, 2, [1, 1, 2, 0]⟩ (unique ⟨2, 2, [1, 1, 2, 0]⟩) = .ok Y ∧
      Rounded.ProjPattern Arith.binary64 Y ⟨2, 2, [1, 1, 2, 0]⟩
        (unique ⟨2, 2, [1, 1, 2, 0]⟩) = .ok Y2 ∧
      ∀ k : Nat, (⟨2, 2, [1, 1, 2, 0]⟩ : Mat ℚ).mem[k]? = some 0 →
        Y.mem[k]? = some 0 ∧ Y2.mem[k]? = some 0 :=
  ⟨by decide, by decide!, by decide!,
    (ProjPattern_twice Arith.binary64 ⟨2, 2, [1, 3, 5, 7]⟩ ⟨2, 2, [1, 1, 2, 0]⟩
      (by decide)).imp fun _ h => h.imp fun _ h2 => ⟨h2.1, h2.2.1, h2.2.2.1⟩⟩

end RoundedPattern

end RobustCov

namespace RobustCov

/-! ## `ProjPSD` in a rounding arithmetic -/

section RoundedProducts

variable {α : Type} [LinearOrderedField α]

end RoundedProducts

end RobustCov

namespace RobustCov

/-! ## `covOGK` in a rounding arithmetic -/

section RoundedOGK

variable {α : Type} [LinearOrderedField α]

end RoundedOGK

section OGKExamples

end OGKExamples

end RobustCov

namespace RobustCov

/-! ## The embedding in exact arithmetic is the rounding-aware embedding at `Arith.exact` -/

section ExactInstance

variable {α : Type} [LinearOrderedField α]

theorem accumulate_exact : ∀ (n : Nat) (v : List α) (a b : α), v.length ≤ n →
    Rounded.accumulate Arith.exact v a b = a + b + v.sum := by
  intro n
  induction n using Nat.strong_induction_on with
  | _ n ih =>
    intro v a b hlen
    match v with
    | [] =>
      show a + b = a + b + 0
      rw [add_zero]
    | [x] =>
      show a + x + b = a + b + [x].sum
      rw [List.sum_singleton]
      ring
    | x :: y :: rest =>
      show Rounded.accumulate Arith.exact rest (a + x) (b + y) = a + b + (x :: y :: rest).sum
      simp only [List.length_cons] at hlen
      rw [ih (n - 2) (by omega) rest (a + x) (b + y) (by omega)]
      simp only [List.sum_cons]
      ring

/-- In arithmetic without rounding error the accumulated mean is the mean. -/
theorem rounded_mean_exact (v : List α) : Rounded.mean Arith.exact v = mean v := by
  unfold Rounded.mean mean
  split
  · rfl
  · rw [accumulate_exact v.length v 0 0 (le_refl _)]
    simp only [zero_add]
    rfl

theorem rounded_ProjPatternStep_exact (X0 X : Mat α) (u : α) :
    Rounded.ProjPatternStep Arith.exact X0 X u = ProjPatternStep X0 X u := by
  unfold Rounded.ProjPatternStep ProjPatternStep
  simp only [rounded_mean_exact]

/-- The embedding of `ProjPattern` in exact arithmetic is the rounding-aware one at
`Arith.exact`. -/
theorem rounded_ProjPattern_exact (X X0 : Mat α) (un : List α) :
    Rounded.ProjPattern Arith.exact X X0 un = ProjPattern X X0 un := by
  unfold Rounded.ProjPattern ProjPattern
  have h : Rounded.ProjPatternStep Arith.exact X0 = ProjPatternStep X0 := by
    funext X u
    exact rounded_ProjPatternStep_exact X0 X u
  rw [h]

theorem rounded_covSpearmanU_exact (corSpearmanVec : List α → List α → α)
    (MAD_cpp : Mat α → List α) (data : Mat α) :
    Rounded.covSpearmanU Arith.exact corSpearmanVec MAD_cpp data =
      covSpearmanU corSpearmanVec MAD_cpp data := rfl

theorem rounded_covGK_exact (covGKvec : List α → List α → α)
    (MAD_cpp : Mat α → List α) (data : Mat α) :
    Rounded.covGK Arith.exact covGKvec MAD_cpp data = covGK covGKvec MAD_cpp data := rfl

theorem foldl_add_eq_sum (f : Nat → α) : ∀ (l : List Nat) (a : α),
    l.foldl (fun acc k => acc + f k) a = a + (l.map f).sum := by
  intro l
  induction l with
  | nil => intro a; simp
  | cons x l ih =>
    intro a
    rw [List.foldl_cons, ih, List.map_cons, List.sum_cons]
    ring

theorem rounded_mul_exact (A B : Mat α) : Rounded.mul Arith.exact A B = A.mul B := by
  unfold Rounded.mul Mat.mul
  split
  · congr 1
    apply Mat.ofFn_congr
    intro i j _ _
    show (List.range A.n_cols).foldl (fun acc k => acc + A.get i k * B.get k j) 0 = _
    rw [foldl_add_eq_sum (fun k => A.get i k * B.get k j), zero_add]
  · rfl

theorem rounded_mulDiag_exact (A : Mat α) (d : List α) :
    Rounded.mulDiag Arith.exact A d = A.mul (diagmat d) := by
  unfold Rounded.mulDiag
  by_cases h : A.n_cols = d.length
  · rw [if_pos h, Mat.mul_diagmat A d h]
    rfl
  · rw [if_neg h]
    unfold Mat.mul
    rw [if_neg]
    exact h

/-- The embedding of `ProjPSD` in exact arithmetic is the rounding-aware one at
`Arith.exact`. -/
theorem rounded_ProjPSD_exact (eig_sym : Mat α → List α × Mat α) (R : Mat α) (n : Int)
    (eigenTol : α) :
    Rounded.ProjPSD Arith.exact eig_sym R n eigenTol = ProjPSD eig_sym R n eigenTol := by
  unfold Rounded.ProjPSD ProjPSD
  simp only [rounded_mulDiag_exact, rounded_mul_exact]
  rfl

/-- The embedding of `covOGK` in exact arithmetic is the rounding-aware one at `Arith.exact`. -/
theorem rounded_covOGK_exact (scaleQn : List α → α) (covGKvec : List α → List α → α)
    (MAD_cpp : Mat α → List α) (eig_sym : Mat α → List α × Mat α) (data : Mat α) :
    Rounded.covOGK Arith.exact scaleQn covGKvec MAD_cpp eig_sym data =
      covOGK scaleQn covGKvec MAD_cpp eig_sym data := by
  unfold Rounded.covOGK covOGK
  simp only [rounded_mulDiag_exact, rounded_mul_exact, rounded_covGK_exact]
  rfl

end ExactInstance

end RobustCov
